import Mathlib

/-!
# Burrow: the disk analyzer, the recursive size scan and the cleanup

A shallow embedding of `internal/analyzer/analyzer.go` (`AnalyzePath`, `analyzeNode`,
`collectFiles`, `GetLargestFiles`, `GetDuplicates`), of `GetDirSize`, `SafeDelete`,
`CleanDirectory`, `FormatBytes`, `PathExists` and `GetSystemPaths` from
`pkg/utils/helpers.go` and of `DiscoverTargets`, `ExecuteCleanup` and `cleanTarget` from
`internal/cleanup/manager.go`, together with the part of the Go standard library they call
(`os.Stat`, `os.ReadDir`, `os.Remove`, `os.RemoveAll`, `filepath.Walk`, `filepath.Join`,
`sort.Slice`).

Modelling decisions.

* The filesystem is a finite tree `FsEntry` of plain files and directories. A directory may be
  unlistable (`os.ReadDir` and the directory read of `filepath.Walk` fail on it), and an entry
  may be one whose stat fails (`noStat`). The state of the filesystem does not change during a
  call, so the same path gives the same answer every time it is asked. Symbolic links are not
  part of the model: on a link `os.Stat` follows it and the `Lstat` of `filepath.Walk` does
  not, so what is proved about the two together is proved for trees without links.
* A path is the list of its components; `filepath.Join` appends a component and
  `filepath.Base` reads the last one.
* An `int64` addition of the source wraps around: the byte totals (`Size`, the size of
  `GetDirSize`, `TotalSpaceFreed`, the bytes freed of `CleanDirectory`) are integers reduced
  into the range from `-2 ^ 63` to `2 ^ 63 - 1` by `wrapInt64` at every addition, and so is
  `TotalFilesRemoved`, a sum of values the caller supplies (Go's `int` is 64 bits wide on the
  platforms the program is built for). The counters that go up by one per entry visited or by
  the count of a subtree (`ItemCount`, `LargeFiles`, the count of `GetDirSize`, the counters
  of the cleanup) cannot reach `2 ^ 63` and are exact integers. The size of a file is an
  `int64`, so below `2 ^ 63`.
* `sort.Slice` promises only that the result is a permutation ordered by `less`; the order of
  ties is unspecified. The model fixes one such sort (insertion sort).
* The routines that delete run on a state `World` that is passed along explicitly; a Go
  run-time fault is the error side of `Except Panic`.
* The environment is a function from variable names to paths, the empty path standing for an
  unset or empty variable; a Go map from sizes to node lists is a function into `Option`.
-/

namespace Burrow

/-! ## Paths and the filesystem -/

/-- A path, as the list of its components. -/
abbrev Path := List String

/-- Go `filepath.Join(dir, name)` for a single entry name. -/
def filepathJoin (dir : Path) (name : String) : Path := dir ++ [name]

/-- Go `filepath.Base(path)`: the last component, `"."` for the empty path. -/
def filepathBase (p : Path) : String := p.getLast?.getD "."

/-- Go `strings.HasPrefix(s, pre)`. -/
def stringsHasPrefix (s pre : String) : Bool := pre.data.isPrefixOf s.data

/-- The value an `int64` takes when the exact result of an addition is `x`: `x` reduced
into the range from `-2 ^ 63` to `2 ^ 63 - 1` (two's complement wraparound). -/
def wrapInt64 (x : Int) : Int :=
  (x + 9223372036854775808) % 18446744073709551616 - 9223372036854775808

/-- What a path denotes in the filesystem: a plain file with its size in bytes, a directory
with its entries in the order a directory read returns them (`listable = false` when reading
the directory fails), or an entry whose stat fails. -/
inductive FsEntry where
  | file (name : String) (size : Nat)
  | dir (name : String) (listable : Bool) (entries : List FsEntry)
  | noStat (name : String)

/-- The name under which an entry is listed in its parent directory (`entry.Name()`). -/
def FsEntry.name : FsEntry → String
  | .file n _ => n
  | .dir n _ _ => n
  | .noStat n => n

/-- The fields of `os.FileInfo` the program reads. -/
structure FileInfo where
  isDir : Bool
  size : Int
deriving DecidableEq, Repr

/-- The errors of the filesystem interface. -/
inductive FsError where
  | statFailed
  | readDirFailed
  | notExist
  | removeFailed
deriving DecidableEq, Repr

/-- Go `os.Stat` (and `os.Lstat`: the model has no symbolic links). -/
def osStat : FsEntry → Except FsError FileInfo
  | .file _ size => .ok ⟨false, size⟩
  | .dir _ _ _ => .ok ⟨true, 0⟩
  | .noStat _ => .error .statFailed

/-! ## `filepath.Walk` and `GetDirSize` -/

/-- The `error` values a `filepath.WalkFunc` may return besides `nil`. -/
inductive WalkErr where
  | skipDir
  | skipAll
  | other (e : FsError)
deriving DecidableEq, Repr

/-- A `filepath.WalkFunc`; the variables it closes over are the state `σ`. The arguments are
the path, the file info (`nil` when the stat failed) and the incoming error. -/
abbrev WalkFunc (σ : Type) := σ → Path → Option FileInfo → Option FsError → σ × Option WalkErr

mutual
/-- Go `filepath.walk(path, info, walkFn)`, entered for an entry whose `Lstat` succeeded. -/
def walk {σ : Type} (fn : WalkFunc σ) (path : Path) : FsEntry → σ → σ × Option WalkErr
  | .file _ size, s => fn s path (some ⟨false, size⟩) none
  | .noStat _, s => (s, none) -- not reached: `walk` is entered only after `Lstat` succeeded
  | .dir _ listable entries, s =>
      let err : Option FsError := if listable then none else some .readDirFailed
      let r := fn s path (some ⟨true, 0⟩) err
      if err.isSome || r.2.isSome then r
      else walkNames fn path entries r.1
/-- The loop of `filepath.walk` over the names of a directory. -/
def walkNames {σ : Type} (fn : WalkFunc σ) (path : Path) : List FsEntry → σ → σ × Option WalkErr
  | [], s => (s, none)
  | .noStat n :: es, s =>
      let r := fn s (filepathJoin path n) none (some .statFailed)
      if r.2 ≠ none ∧ r.2 ≠ some .skipDir then r
      else walkNames fn path es r.1
  | .file n size :: es, s =>
      let r := walk fn (filepathJoin path n) (.file n size) s
      if r.2 ≠ none then r
      else walkNames fn path es r.1
  | .dir n l sub :: es, s =>
      let r := walk fn (filepathJoin path n) (.dir n l sub) s
      if r.2 ≠ none ∧ r.2 ≠ some .skipDir then r
      else walkNames fn path es r.1
end

/-- Go `filepath.Walk(root, fn)`. -/
def filepathWalk {σ : Type} (fn : WalkFunc σ) (root : Path) (e : FsEntry) (s : σ) :
    σ × Option WalkErr :=
  let r : σ × Option WalkErr :=
    match osStat e with
    | .error err => fn s root none (some err)
    | .ok _ => walk fn root e s
  if r.2 = some .skipDir ∨ r.2 = some .skipAll then (r.1, none) else r

/-- The function literal `GetDirSize` passes to `filepath.Walk`; the state is the pair of the
closed-over variables `(size, count)`. -/
def getDirSizeFn : WalkFunc (Int × Int) := fun s _ info err =>
  if err.isSome then (s, none)
  else
    match info with
    | some i => if !i.isDir then ((wrapInt64 (s.1 + i.size), s.2 + 1), none) else (s, none)
    | none => (s, none)

/-- Go `utils.GetDirSize(path)`: `(size, count, err)`. -/
def GetDirSize (path : Path) (e : FsEntry) : Int × Int × Option WalkErr :=
  let r := filepathWalk getDirSizeFn path e (0, 0)
  (r.1.1, r.1.2, r.2)

/-! ## The analyzer -/

/-- Go `sort.Slice(xs, less)`. -/
def sortSlice {α : Type} (less : α → α → Bool) (xs : List α) : List α :=
  xs.insertionSort (fun x y => less y x = false)

/-- Go `analyzer.Analyzer`. -/
structure Analyzer where
  debug : Bool
  showHidden : Bool
  maxDepth : Int
  minSize : Int
deriving DecidableEq, Repr

/-- Go `analyzer.DiskNode`. -/
structure DiskNode where
  Name : String
  Path : Path
  Size : Int
  ItemCount : Int
  IsDirectory : Bool
  Children : List DiskNode
  LargeFiles : Int

/-- Go `NewAnalyzer`. -/
def NewAnalyzer (debug showHidden : Bool) (maxDepth : Int) (minSize : Int) : Analyzer :=
  { debug := debug, showHidden := showHidden, maxDepth := maxDepth, minSize := minSize }

/-- The node `analyzeNode` allocates after a successful stat, before any total is filled in. -/
def newNode (path : Path) (isDir : Bool) : DiskNode :=
  { Name := filepathBase path, Path := path, Size := 0, ItemCount := 0,
    IsDirectory := isDir, Children := [], LargeFiles := 0 }

/-- The two fallback branches of `analyzeNode`: totals from `GetDirSize`, no children. -/
def sizeOnly (node : DiskNode) (path : Path) (e : FsEntry) : DiskNode :=
  let r := GetDirSize path e
  { node with Size := r.1, ItemCount := r.2.1 }

mutual
/-- Go `(*Analyzer).analyzeNode(path, depth)`, where `path` denotes the entry given. -/
def analyzeNode (a : Analyzer) (path : Path) (depth : Int) : FsEntry → Except FsError DiskNode
  | .noStat _ => .error .statFailed
  | .file _ size =>
      let node := newNode path false
      let node := { node with Size := (size : Int), ItemCount := 1 }
      .ok (if node.Size > 100 * 1024 * 1024 then { node with LargeFiles := 1 } else node)
  | .dir n listable entries =>
      let node := newNode path true
      if depth ≥ a.maxDepth then
        .ok (sizeOnly node path (.dir n listable entries))
      else if listable = false then
        .ok (sizeOnly node path (.dir n listable entries))
      else
        let node := analyzeEntries a path depth entries node
        .ok { node with Children := sortSlice (fun x y => decide (x.Size > y.Size)) node.Children }
/-- The loop of `analyzeNode` over the entries of a directory; `node` is the parent so far. -/
def analyzeEntries (a : Analyzer) (path : Path) (depth : Int) :
    List FsEntry → DiskNode → DiskNode
  | [], node => node
  | e :: es, node =>
      if !a.showHidden && stringsHasPrefix e.name "." then
        analyzeEntries a path depth es node
      else
        match analyzeNode a (filepathJoin path e.name) (depth + 1) e with
        | .error _ => analyzeEntries a path depth es node
        | .ok childNode =>
            if childNode.Size ≥ a.minSize then
              analyzeEntries a path depth es
                { node with
                  Children := node.Children ++ [childNode]
                  Size := wrapInt64 (node.Size + childNode.Size)
                  ItemCount := node.ItemCount + childNode.ItemCount
                  LargeFiles := node.LargeFiles + childNode.LargeFiles }
            else
              analyzeEntries a path depth es node
end

/-- Go `(*Analyzer).AnalyzePath(path)`. -/
def AnalyzePath (a : Analyzer) (path : Path) (e : FsEntry) : Except FsError DiskNode :=
  analyzeNode a path 0 e

mutual
/-- Go `(*Analyzer).collectFiles(node, files)`: returns `files` with the file nodes of the
subtree appended. -/
def collectFiles : DiskNode → List DiskNode → List DiskNode
  | ⟨nm, p, sz, ic, isDir, children, lf⟩, files =>
      if !isDir then files ++ [⟨nm, p, sz, ic, isDir, children, lf⟩]
      else collectFilesLoop children files
/-- The loop of `collectFiles` over the children. -/
def collectFilesLoop : List DiskNode → List DiskNode → List DiskNode
  | [], files => files
  | c :: cs, files => collectFilesLoop cs (collectFiles c files)
end

/-! ## The filesystem seen by the deletion routines

`SafeDelete` and the cleanup manager address the filesystem by path and change it. The
state `World` maps every path to what it denotes (`none`: the path does not exist), holds
the results of the removal attempts still to come (a locked file makes an attempt fail), and
keeps the list of the removal calls made so far. A removal that succeeds makes the path and
everything beneath it disappear; a removal that fails leaves the map as it is (a real
`os.RemoveAll` may have deleted part of the subtree by the time it fails, and a real
`os.Remove` refuses a directory that still has entries: what is proved below is about the
calls made, the values returned and the paths that are gone after a nil result, none of which
depends on that). Nothing else changes the state: `time.Sleep` and the progress output of
`ExecuteCleanup` are not modelled. -/

/-- A removal call made on the filesystem. -/
inductive FsOp where
  | remove (path : Path)
  | removeAll (path : Path)
deriving DecidableEq, Repr

/-- The state of the filesystem and the record of the removal calls. -/
structure World where
  fs : Path → Option FsEntry
  outcomes : List (Option FsError)
  log : List FsOp

/-- Go `os.Stat(path)` in a state: the pair `(info, err)`. A path that does not exist gives
the not-exist error; an existing entry answers as `osStat` says. -/
def osStatAt (w : World) (path : Path) : Option FileInfo × Option FsError :=
  match w.fs path with
  | none => (none, some .notExist)
  | some e =>
      match osStat e with
      | .ok info => (some info, none)
      | .error err => (none, some err)

/-- Go `os.IsNotExist(err)`. -/
def osIsNotExist : Option FsError → Bool
  | some .notExist => true
  | _ => false

/-- The map of the filesystem once `path` and everything beneath it is gone. -/
def World.without (w : World) (path : Path) : Path → Option FsEntry :=
  fun q => if path.isPrefixOf q then none else w.fs q

/-- One removal attempt on an existing path: it takes the next outcome; with no outcome left
the attempt succeeds. -/
def removeAttempt (w : World) (op : FsOp) (path : Path) : Option FsError × World :=
  match w.outcomes with
  | some err :: rest => (some err, { w with outcomes := rest, log := w.log ++ [op] })
  | none :: rest => (none, { fs := w.without path, outcomes := rest, log := w.log ++ [op] })
  | [] => (none, { fs := w.without path, outcomes := [], log := w.log ++ [op] })

/-- Go `os.Remove(path)`: an error when the path does not exist. -/
def osRemove (w : World) (path : Path) : Option FsError × World :=
  match w.fs path with
  | none => (some .notExist, { w with log := w.log ++ [.remove path] })
  | some _ => removeAttempt w (.remove path) path

/-- Go `os.RemoveAll(path)`: nil when the path does not exist. -/
def osRemoveAll (w : World) (path : Path) : Option FsError × World :=
  match w.fs path with
  | none => (none, { w with log := w.log ++ [.removeAll path] })
  | some _ => removeAttempt w (.removeAll path) path

/-- A run-time fault of the Go program. -/
inductive Panic where
  | nilDereference
  | indexOutOfRange
  | sliceBounds
deriving DecidableEq, Repr

/-- The `for` loop of `SafeDelete` with `n` iterations left; `lastErr` is the variable of
the source. Calling `info.IsDir()` on the nil `info` of a failed stat is a fault. -/
def safeDeleteLoop (path : Path) :
    Nat → Option FsError → World → Except Panic (Option FsError × World)
  | 0, lastErr, w => .ok (lastErr, w)
  | n + 1, _, w =>
      let st := osStatAt w path
      if osIsNotExist st.2 then .ok (none, w)
      else
        match st.1 with
        | none => .error .nilDereference
        | some info =>
            let r := if info.isDir then osRemoveAll w path else osRemove w path
            if r.1 = none then .ok (none, r.2)
            else safeDeleteLoop path n r.1 r.2

/-- Go `utils.SafeDelete(path, maxRetries)`: the returned error and the state it leaves. The
loop `for i := 0; i < maxRetries; i++` runs `maxRetries` times, not at all when
`maxRetries ≤ 0`. -/
def SafeDelete (path : Path) (maxRetries : Int) (w : World) :
    Except Panic (Option FsError × World) :=
  safeDeleteLoop path maxRetries.toNat none w

/-! ## The cleanup manager -/

/-- Go `models.CleanupTarget`. -/
structure CleanupTarget where
  Name : String
  Path : Path
  Description : String
  Size : Int
  ItemCount : Int
  Category : String
  Protected : Bool
deriving DecidableEq, Repr

/-- Go `cleanup.CleanupResult`. -/
structure CleanupResult where
  Target : CleanupTarget
  Success : Bool
  SpaceFreed : Int
  FilesRemoved : Int
  Error : Option FsError
deriving DecidableEq, Repr

/-- Go `cleanup.CleanupSummary`. -/
structure CleanupSummary where
  TotalTargets : Int
  SuccessfulCleans : Int
  FailedCleans : Int
  TotalSpaceFreed : Int
  TotalFilesRemoved : Int
  Results : List CleanupResult
deriving DecidableEq, Repr

/-- Go `cleanup.CleanupManager`; the whitelist map is its lookup function. -/
structure CleanupManager where
  debug : Bool
  dryRun : Bool
  whitelist : String → Bool

/-- Go `loadWhitelist`: the empty map. -/
def loadWhitelist : String → Bool := fun _ => false

/-- Go `NewCleanupManager`. -/
def NewCleanupManager (debug dryRun : Bool) : CleanupManager :=
  { debug := debug, dryRun := dryRun, whitelist := loadWhitelist }

/-- Go `(*CleanupManager).cleanTarget(target)`. -/
def cleanTarget (cm : CleanupManager) (target : CleanupTarget) (w : World) :
    Except Panic (CleanupResult × World) :=
  let result : CleanupResult :=
    { Target := target, Success := true, SpaceFreed := 0, FilesRemoved := 0, Error := none }
  if cm.dryRun then
    .ok ({ result with SpaceFreed := target.Size, FilesRemoved := target.ItemCount }, w)
  else
    let startSize := target.Size
    let startCount := target.ItemCount
    match SafeDelete target.Path 3 w with
    | .error p => .error p
    | .ok (err, w1) =>
        if err ≠ none then
          .ok ({ result with Success := false, Error := err }, w1)
        else
          .ok ({ result with SpaceFreed := startSize, FilesRemoved := startCount }, w1)

/-- The loop of `ExecuteCleanup` over the targets; `summary` is the summary so far. -/
def executeCleanupLoop (cm : CleanupManager) :
    List CleanupTarget → CleanupSummary → World → Except Panic (CleanupSummary × World)
  | [], summary, w => .ok (summary, w)
  | target :: rest, summary, w =>
      if target.Protected then
        executeCleanupLoop cm rest summary w
      else
        match cleanTarget cm target w with
        | .error p => .error p
        | .ok (result, w1) =>
            let summary := { summary with Results := summary.Results ++ [result] }
            if result.Success then
              executeCleanupLoop cm rest
                { summary with
                  SuccessfulCleans := summary.SuccessfulCleans + 1
                  TotalSpaceFreed := wrapInt64 (summary.TotalSpaceFreed + result.SpaceFreed)
                  TotalFilesRemoved :=
                    wrapInt64 (summary.TotalFilesRemoved + result.FilesRemoved) } w1
            else
              executeCleanupLoop cm rest
                { summary with FailedCleans := summary.FailedCleans + 1 } w1

/-- Go `(*CleanupManager).ExecuteCleanup(targets)`. -/
def ExecuteCleanup (cm : CleanupManager) (targets : List CleanupTarget) (w : World) :
    Except Panic (CleanupSummary × World) :=
  executeCleanupLoop cm targets
    { TotalTargets := targets.length, SuccessfulCleans := 0, FailedCleans := 0,
      TotalSpaceFreed := 0, TotalFilesRemoved := 0, Results := [] } w

/-! ## The queries on a built tree -/

/-- Go `(*Analyzer).GetLargestFiles(root, n)`. Slicing `files[:n]` with a negative `n` is a
run-time fault. -/
def GetLargestFiles (root : DiskNode) (n : Int) : Except Panic (List DiskNode) :=
  let files := collectFiles root []
  let files := sortSlice (fun x y => decide (x.Size > y.Size)) files
  if (files.length : Int) > n then
    if n < 0 then .error .sliceBounds else .ok (files.take n.toNat)
  else
    .ok files

/-- A Go `map[int64][]*DiskNode`: a key that is not in the map answers `none`. -/
abbrev SizeMap := Int → Option (List DiskNode)

/-- The empty map, `make(map[int64][]*DiskNode)`. -/
def sizeMapEmpty : SizeMap := fun _ => none

/-- Reading `m[k]`: the nil slice for a key that is not in the map. -/
def sizeMapGet (m : SizeMap) (k : Int) : List DiskNode := (m k).getD []

/-- The assignment `m[k] = v`. -/
def sizeMapSet (m : SizeMap) (k : Int) (v : List DiskNode) : SizeMap :=
  fun k1 => if k1 = k then some v else m k1

mutual
/-- The closure `collectBySi` of `GetDuplicates`; the map it updates is passed along. -/
def collectBySi : DiskNode → SizeMap → SizeMap
  | ⟨nm, p, sz, ic, isDir, children, lf⟩, sizeMap =>
      collectBySiLoop children
        (if !isDir then
          sizeMapSet sizeMap sz (sizeMapGet sizeMap sz ++ [⟨nm, p, sz, ic, isDir, children, lf⟩])
        else sizeMap)
/-- The loop of `collectBySi` over the children. -/
def collectBySiLoop : List DiskNode → SizeMap → SizeMap
  | [], sizeMap => sizeMap
  | c :: cs, sizeMap => collectBySiLoop cs (collectBySi c sizeMap)
end

/-- Go `(*Analyzer).GetDuplicates(root)`. The loop over the entries of `sizeMap` copies each
entry with more than one node; the order in which a Go map is ranged over does not matter
for the map that results. -/
def GetDuplicates (root : DiskNode) : SizeMap :=
  let sizeMap := collectBySi root sizeMapEmpty
  fun size =>
    match sizeMap size with
    | some nodes => if nodes.length > 1 then some nodes else none
    | none => none

/-! ## `FormatBytes` and `CleanDirectory` -/

/-- The loop `for n := bytes / unit; n >= unit; n /= unit { div *= unit; exp++ }` of
`FormatBytes`, from the values of `n`, `div` and `exp` at the loop test. For an `int64`
argument `div` stays at most `1024 ^ 6`, so no multiplication wraps around. -/
def formatBytesLoop (n div : Int) (exp : Nat) : Int × Nat :=
  if n ≥ 1024 then formatBytesLoop (n / 1024) (div * 1024) (exp + 1) else (div, exp)
termination_by n.toNat
decreasing_by omega

/-- The slice `units` of `FormatBytes`. -/
def unitsTable : List String := ["KB", "MB", "GB", "TB", "PB"]

/-- What `FormatBytes` formats: the text of `fmt.Sprintf("%d B", bytes)`, or the arguments
of `fmt.Sprintf("%.1f %s", float64(bytes)/float64(div), unit)`, whose floating-point
rendering is left out. -/
inductive Formatted where
  | plain (text : String)
  | scaled (bytes div : Int) (unit : String)
deriving DecidableEq, Repr

/-- Go `utils.FormatBytes(bytes)`. Indexing `units[exp]` beyond the slice is a run-time
fault. -/
def FormatBytes (bytes : Int) : Except Panic Formatted :=
  if bytes < 1024 then
    .ok (.plain (toString bytes ++ " B"))
  else
    let r := formatBytesLoop (bytes / 1024) 1024 0
    match unitsTable[r.2]? with
    | some u => .ok (.scaled bytes r.1 u)
    | none => .error .indexOutOfRange

/-- Go `os.ReadDir(path)` on what the path denotes. -/
def osReadDir : FsEntry → Except FsError (List FsEntry)
  | .dir _ true entries => .ok entries
  | _ => .error .readDirFailed

/-- The branch of the loop of `CleanDirectory` for an entry that is not a directory: the
totals after it and the state it leaves. -/
def cleanFileEntry (fullPath : Path) (maxRetries : Int) (acc : Int × Int × Int) (w : World) :
    Except Panic ((Int × Int × Int) × World) :=
  let st := osStatAt w fullPath
  if st.2 ≠ none then
    .ok ((acc.1, acc.2.1, acc.2.2 + 1), w)
  else
    match st.1 with
    | none => .error .nilDereference
    | some info =>
        match SafeDelete fullPath maxRetries w with
        | .error p => .error p
        | .ok (err, w1) =>
            if err ≠ none then .ok ((acc.1, acc.2.1, acc.2.2 + 1), w1)
            else .ok ((wrapInt64 (acc.1 + info.size), acc.2.1 + 1, acc.2.2), w1)

mutual
/-- Go `utils.CleanDirectory(dirPath, maxRetries)`: `(bytes freed, files removed, files
skipped, error)` and the state it leaves. The listing is the one of the tree that `dirPath`
denotes; the stats and the removals go through the state. -/
def CleanDirectory (dirPath : Path) (maxRetries : Int) :
    FsEntry → World → Except Panic ((Int × Int × Int × Option FsError) × World)
  | .file _ _, w => .ok ((0, 0, 0, some .readDirFailed), w)
  | .noStat _, w => .ok ((0, 0, 0, some .readDirFailed), w)
  | .dir _ listable entries, w =>
      if listable then cleanDirectoryLoop dirPath maxRetries entries (0, 0, 0) w
      else .ok ((0, 0, 0, some .readDirFailed), w)
/-- The loop of `CleanDirectory` over the entries; `acc` holds `totalSize`, `filesRemoved`
and `filesSkipped`. -/
def cleanDirectoryLoop (dirPath : Path) (maxRetries : Int) :
    List FsEntry → Int × Int × Int → World →
      Except Panic ((Int × Int × Int × Option FsError) × World)
  | [], acc, w => .ok ((acc.1, acc.2.1, acc.2.2, none), w)
  | .dir n l sub :: rest, acc, w =>
      match CleanDirectory (filepathJoin dirPath n) maxRetries (.dir n l sub) w with
      | .error p => .error p
      | .ok (r, w1) =>
          cleanDirectoryLoop dirPath maxRetries rest
            (wrapInt64 (acc.1 + r.1), acc.2.1 + r.2.1, acc.2.2 + r.2.2.1)
            (if r.2.2.2 = none then (osRemove w1 (filepathJoin dirPath n)).2 else w1)
  | .file n _ :: rest, acc, w =>
      match cleanFileEntry (filepathJoin dirPath n) maxRetries acc w with
      | .error p => .error p
      | .ok (acc1, w1) => cleanDirectoryLoop dirPath maxRetries rest acc1 w1
  | .noStat n :: rest, acc, w =>
      match cleanFileEntry (filepathJoin dirPath n) maxRetries acc w with
      | .error p => .error p
      | .ok (acc1, w1) => cleanDirectoryLoop dirPath maxRetries rest acc1 w1
end

/-! ## The discovery of cleanup targets -/

/-- Go `filepath.Join(base, names...)`. Empty elements are ignored, so an empty `base`
leaves the path made of the names alone. -/
def filepathJoinElems (base : Path) (names : List String) : Path := base ++ names

/-- Go `models.CategoryTemp`. -/
def CategoryTemp : String := "Temporary Files"
/-- Go `models.CategoryCache`. -/
def CategoryCache : String := "Cache Files"
/-- Go `models.CategoryLogs`. -/
def CategoryLogs : String := "Log Files"
/-- Go `models.CategoryBrowser`. -/
def CategoryBrowser : String := "Browser Data"
/-- Go `models.CategoryWindowsUpdate`. -/
def CategoryWindowsUpdate : String := "Windows Update"
/-- Go `models.CategoryRecycleBin`. -/
def CategoryRecycleBin : String := "Recycle Bin"
/-- Go `models.CategoryThumbnails`. -/
def CategoryThumbnails : String := "Thumbnails"
/-- Go `models.CategoryPrefetch`. -/
def CategoryPrefetch : String := "Prefetch"

/-- Go `utils.GetSystemPaths()`, given `os.Getenv`: the map of the eight variables; a key
that is not in the map and a variable that is not set give the empty path. -/
def GetSystemPaths (getenv : String → Path) : String → Path := fun key =>
  if key ∈ ["TEMP", "TMP", "LOCALAPPDATA", "APPDATA", "PROGRAMDATA", "USERPROFILE",
      "SYSTEMROOT", "WINDIR"] then getenv key
  else []

/-- A composite literal `{Name: ..., Path: ..., Description: ..., Category: ...}` of the
catalog: the other fields have their zero values. -/
def catalogEntry (name : String) (path : Path) (description category : String) :
    CleanupTarget :=
  { Name := name, Path := path, Description := description, Size := 0, ItemCount := 0,
    Category := category, Protected := false }

/-- Go `(*CleanupManager).getTempTargets(paths)`. -/
def getTempTargets (paths : String → Path) : List CleanupTarget :=
  [ catalogEntry "Windows Temp" (filepathJoinElems (paths "WINDIR") ["Temp"])
      "System temporary files" CategoryTemp,
    catalogEntry "User Temp" (paths "TEMP") "User temporary files" CategoryTemp,
    catalogEntry "Local Temp" (paths "TMP") "Local temporary storage" CategoryTemp ]

/-- Go `(*CleanupManager).getCacheTargets(paths)`. -/
def getCacheTargets (paths : String → Path) : List CleanupTarget :=
  [ catalogEntry "Application Cache" (filepathJoinElems (paths "LOCALAPPDATA") ["cache"])
      "Application cache files" CategoryCache,
    catalogEntry "Icon Cache" (filepathJoinElems (paths "LOCALAPPDATA") ["IconCache.db"])
      "Windows icon cache" CategoryThumbnails,
    catalogEntry "Thumbnail Cache"
      (filepathJoinElems (paths "LOCALAPPDATA") ["Microsoft", "Windows", "Explorer"])
      "Windows thumbnail cache" CategoryThumbnails,
    catalogEntry "Prefetch" (filepathJoinElems (paths "WINDIR") ["Prefetch"])
      "Windows prefetch files" CategoryPrefetch ]

/-- Go `(*CleanupManager).getBrowserTargets(paths)`. -/
def getBrowserTargets (paths : String → Path) : List CleanupTarget :=
  [ catalogEntry "Chrome Cache"
      (filepathJoinElems (paths "LOCALAPPDATA")
        ["Google", "Chrome", "User Data", "Default", "Cache"])
      "Google Chrome cache" CategoryBrowser,
    catalogEntry "Edge Cache"
      (filepathJoinElems (paths "LOCALAPPDATA")
        ["Microsoft", "Edge", "User Data", "Default", "Cache"])
      "Microsoft Edge cache" CategoryBrowser,
    catalogEntry "Firefox Cache"
      (filepathJoinElems (paths "LOCALAPPDATA") ["Mozilla", "Firefox", "Profiles"])
      "Mozilla Firefox cache" CategoryBrowser,
    catalogEntry "Brave Cache"
      (filepathJoinElems (paths "LOCALAPPDATA")
        ["BraveSoftware", "Brave-Browser", "User Data", "Default", "Cache"])
      "Brave browser cache" CategoryBrowser ]

/-- Go `(*CleanupManager).getWindowsUpdateTargets(paths)`. -/
def getWindowsUpdateTargets (paths : String → Path) : List CleanupTarget :=
  [ catalogEntry "Windows Update Cache"
      (filepathJoinElems (paths "WINDIR") ["SoftwareDistribution", "Download"])
      "Windows Update downloaded files" CategoryWindowsUpdate,
    catalogEntry "Delivery Optimization"
      (filepathJoinElems (paths "WINDIR")
        ["ServiceProfiles", "NetworkService", "AppData", "Local", "Microsoft", "Windows",
          "DeliveryOptimization", "Cache"])
      "Windows Update delivery optimization" CategoryWindowsUpdate ]

/-- Go `(*CleanupManager).getLogTargets(paths)`. -/
def getLogTargets (paths : String → Path) : List CleanupTarget :=
  [ catalogEntry "Windows Logs" (filepathJoinElems (paths "WINDIR") ["Logs"])
      "Windows system logs" CategoryLogs,
    catalogEntry "CBS Logs" (filepathJoinElems (paths "WINDIR") ["Logs", "CBS"])
      "Component-Based Servicing logs" CategoryLogs,
    catalogEntry "Panther Logs" (filepathJoinElems (paths "WINDIR") ["Panther"])
      "Windows installation logs" CategoryLogs ]

/-- Go `(*CleanupManager).getOtherTargets(paths)`. -/
def getOtherTargets (paths : String → Path) : List CleanupTarget :=
  [ catalogEntry "Recycle Bin" (filepathJoinElems (paths "SYSTEMROOT") ["$Recycle.Bin"])
      "Recycle bin contents" CategoryRecycleBin,
    catalogEntry "Windows Error Reporting"
      (filepathJoinElems (paths "PROGRAMDATA") ["Microsoft", "Windows", "WER"])
      "Windows error reports" CategoryLogs ]

/-- Go `contains(slice, item)`. -/
def contains : List String → String → Bool
  | [], _ => false
  | s :: rest, item => if s = item then true else contains rest item

/-- Go `utils.PathExists(path)`: the stat returns no error. -/
def PathExists (w : World) (path : Path) : Bool :=
  decide ((osStatAt w path).2 = none)

/-- Go `utils.GetDirSize(path)` in a state: `GetDirSize` on what the path denotes; for a
path that does not exist the stat of the walk fails. -/
def GetDirSizeAt (w : World) (path : Path) : Int × Int × Option WalkErr :=
  match w.fs path with
  | some e => GetDirSize path e
  | none => GetDirSize path (.noStat (filepathBase path))

/-- The path written out as the string the whitelist is keyed by. -/
def pathText (path : Path) : String := "/".intercalate path

/-- Go `(*CleanupManager).isProtected(path)`. -/
def isProtected (cm : CleanupManager) (path : Path) : Bool :=
  cm.whitelist (pathText path).toLower

/-- The first part of `DiscoverTargets`: the catalog entries the filter selects, in the
order they are appended. -/
def discoverCandidates (sysPaths : String → Path) (categories : List String) :
    List CleanupTarget :=
  let targets : List CleanupTarget := []
  let targets :=
    if categories.length = 0 || contains categories "temp" then
      targets ++ getTempTargets sysPaths
    else targets
  let targets :=
    if categories.length = 0 || contains categories "cache" then
      targets ++ getCacheTargets sysPaths
    else targets
  let targets :=
    if categories.length = 0 || contains categories "browser" then
      targets ++ getBrowserTargets sysPaths
    else targets
  let targets :=
    if categories.length = 0 || contains categories "updates" then
      targets ++ getWindowsUpdateTargets sysPaths
    else targets
  let targets :=
    if categories.length = 0 || contains categories "logs" then
      targets ++ getLogTargets sysPaths
    else targets
  targets ++ getOtherTargets sysPaths

/-- The body of the loop "Calculate sizes" of `DiscoverTargets` for one target. -/
def measureTarget (cm : CleanupManager) (w : World) (target : CleanupTarget) :
    CleanupTarget :=
  if PathExists w target.Path then
    { target with
      Size := (GetDirSizeAt w target.Path).1
      ItemCount := (GetDirSizeAt w target.Path).2.1
      Protected := isProtected cm target.Path }
  else target

/-- Go `(*CleanupManager).DiscoverTargets(categories)`, given `os.Getenv` and the state of
the filesystem: the targets and the error. -/
def DiscoverTargets (cm : CleanupManager) (getenv : String → Path) (w : World)
    (categories : List String) : List CleanupTarget × Option FsError :=
  let sysPaths := GetSystemPaths getenv
  let targets := discoverCandidates sysPaths categories
  let targets := targets.map (measureTarget cm w)
  let nonEmptyTargets := targets.filter (fun target => decide (target.Size > 0))
  (nonEmptyTargets, none)

/-! ## Auxiliary notions used to state the properties -/

mutual
/-- The sizes of the files the survey can reach beneath an entry (the entry itself when it is
a file): through listable directories only, and, when `skipHidden` is set, with no dot-named
component on the way down from the entry. -/
def filesBeneath (skipHidden : Bool) : FsEntry → List Nat
  | .file _ size => [size]
  | .noStat _ => []
  | .dir _ listable entries => if listable then filesBeneathList skipHidden entries else []
/-- The files reachable beneath the entries of a directory. -/
def filesBeneathList (skipHidden : Bool) : List FsEntry → List Nat
  | [] => []
  | e :: es =>
      (if skipHidden && stringsHasPrefix e.name "." then [] else filesBeneath skipHidden e)
        ++ filesBeneathList skipHidden es
end

mutual
/-- The number of directory levels of a filesystem tree: `0` for a file, one more than the
largest number among its entries for a directory (so `1` for a directory without
subdirectories). It is at most one more than the height of the tree counted in edges. -/
def height : FsEntry → Nat
  | .file _ _ => 0
  | .noStat _ => 0
  | .dir _ _ entries => heightList entries + 1
/-- The largest height among the entries of a directory. -/
def heightList : List FsEntry → Nat
  | [] => 0
  | e :: es => max (height e) (heightList es)
end

mutual
/-- Every node of a result tree with its depth, the root at depth `d`, in pre-order. -/
def nodesAt (d : Int) : DiskNode → List (Int × DiskNode)
  | ⟨nm, p, sz, ic, isDir, children, lf⟩ =>
      (d, ⟨nm, p, sz, ic, isDir, children, lf⟩) :: nodesAtList (d + 1) children
/-- The nodes of the subtrees of a list of siblings at depth `d`. -/
def nodesAtList (d : Int) : List DiskNode → List (Int × DiskNode)
  | [] => []
  | c :: cs => nodesAt d c ++ nodesAtList d cs
end

/-- What one pass of the loop of `analyzeNode` attaches for the entry `e`, if anything. -/
def attachOne (a : Analyzer) (path : Path) (depth : Int) (e : FsEntry) : Option DiskNode :=
  if !a.showHidden && stringsHasPrefix e.name "." then none
  else
    match analyzeNode a (filepathJoin path e.name) (depth + 1) e with
    | .error _ => none
    | .ok childNode => if childNode.Size ≥ a.minSize then some childNode else none

/-- The children the loop of `analyzeNode` attaches for the entries `es`, in loop order. -/
def attached (a : Analyzer) (path : Path) (depth : Int) (es : List FsEntry) : List DiskNode :=
  es.filterMap (attachOne a path depth)

mutual
/-- No directory the survey visits from an entry at depth `depth` is cut off at the depth
limit or unlistable: every one of them is expanded by the loop of `analyzeNode`. -/
def expandsFully (a : Analyzer) (depth : Int) : FsEntry → Bool
  | .file _ _ => true
  | .noStat _ => true
  | .dir _ listable entries =>
      decide (depth < a.maxDepth) && listable && expandsFullyList a depth entries
/-- The entries of a directory at depth `depth` that the survey does not skip as hidden are
all fully expanded. -/
def expandsFullyList (a : Analyzer) (depth : Int) : List FsEntry → Bool
  | [] => true
  | e :: es =>
      ((!a.showHidden && stringsHasPrefix e.name ".") || expandsFully a (depth + 1) e)
        && expandsFullyList a depth es
end

mutual
/-- Every entry of the tree is accessible: every stat succeeds and every directory can be
listed. -/
def allAccessible : FsEntry → Bool
  | .file _ _ => true
  | .noStat _ => false
  | .dir _ listable entries => listable && allAccessibleList entries
/-- Every entry of a list of trees is accessible. -/
def allAccessibleList : List FsEntry → Bool
  | [] => true
  | e :: es => allAccessible e && allAccessibleList es
end

mutual
/-- The sizes of all the files of a filesystem tree (the entry itself when it is a file),
whether or not the directories on the way can be listed. -/
def allFileSizes : FsEntry → List Nat
  | .file _ size => [size]
  | .noStat _ => []
  | .dir _ _ entries => allFileSizesList entries
/-- The sizes of all the files of a list of filesystem trees. -/
def allFileSizesList : List FsEntry → List Nat
  | [] => []
  | e :: es => allFileSizes e ++ allFileSizesList es
end

/-- The number of file nodes in the subtree of a node (the node itself when it is a file)
whose `Size` is above 100 MiB, that is 104857600 bytes. -/
def largeFileNodes (n : DiskNode) : Nat :=
  (collectFiles n []).countP (fun c => decide (c.Size > 104857600))

/-! ## A concrete filesystem

The root directory `R` holds the file `a` (10 bytes), the file `.hidden` (5 bytes) and the
subdirectory `B` with the file `b` (20 bytes); a directory read returns the entries sorted by
name. -/

/-- The filesystem tree of the scenario. -/
def scenarioFs : FsEntry :=
  .dir "R" true [.file ".hidden" 5, .dir "B" true [.file "b" 20], .file "a" 10]

/-- The configuration `maxDepth = 5`, `showHidden = false`, `minSize = 0`. -/
def scenarioCfg : Analyzer := NewAnalyzer false false 5 0

/-- The tree the survey of the scenario returns with hidden entries skipped. -/
def scenarioTree : DiskNode :=
  { Name := "R", Path := ["R"], Size := 30, ItemCount := 2, IsDirectory := true,
    LargeFiles := 0,
    Children := [
      { Name := "B", Path := ["R", "B"], Size := 20, ItemCount := 1, IsDirectory := true,
        LargeFiles := 0,
        Children := [
          { Name := "b", Path := ["R", "B", "b"], Size := 20, ItemCount := 1,
            IsDirectory := false, LargeFiles := 0, Children := [] }] },
      { Name := "a", Path := ["R", "a"], Size := 10, ItemCount := 1, IsDirectory := false,
        LargeFiles := 0, Children := [] }] }

/-- The node the survey returns for the file `a` of the scenario. -/
def scenarioNodeA : DiskNode :=
  { Name := "a", Path := ["R", "a"], Size := 10, ItemCount := 1, IsDirectory := false,
    LargeFiles := 0, Children := [] }

/-- The scenario surveyed with `maxDepth = 5`, `showHidden = true` and `minSize = 15`. -/
def scenarioCfgMin15 : Analyzer := NewAnalyzer false true 5 15

/-- The tree the survey of the scenario returns with `minSize = 15`: the files `a` and
`.hidden` are dropped. -/
def scenarioTreeMin15 : DiskNode :=
  { Name := "R", Path := ["R"], Size := 20, ItemCount := 1, IsDirectory := true,
    LargeFiles := 0,
    Children := [
      { Name := "B", Path := ["R", "B"], Size := 20, ItemCount := 1, IsDirectory := true,
        LargeFiles := 0,
        Children := [
          { Name := "b", Path := ["R", "B", "b"], Size := 20, ItemCount := 1,
            IsDirectory := false, LargeFiles := 0, Children := [] }] }] }

/-- A directory with a file of 200 MiB and a file of one byte. -/
def largeFs : FsEntry :=
  .dir "D" true [.file "big" 209715200, .file "small" 1]

/-- The tree the survey of `largeFs` returns. -/
def largeTree : DiskNode :=
  { Name := "D", Path := ["D"], Size := 209715201, ItemCount := 2, IsDirectory := true,
    LargeFiles := 1,
    Children := [
      { Name := "big", Path := ["D", "big"], Size := 209715200, ItemCount := 1,
        IsDirectory := false, LargeFiles := 1, Children := [] },
      { Name := "small", Path := ["D", "small"], Size := 1, ItemCount := 1,
        IsDirectory := false, LargeFiles := 0, Children := [] }] }

/-- The removal call `SafeDelete` makes on a path whose stat gave `info`. -/
def removalOp (info : FileInfo) (path : Path) : FsOp :=
  if info.isDir then .removeAll path else .remove path

/-- A small filesystem: the directory `tmp` with the file `a.log` of 7 bytes. -/
def demoFs : Path → Option FsEntry := fun p =>
  if p = ["tmp"] then some (.dir "tmp" true [.file "a.log" 7])
  else if p = ["tmp", "a.log"] then some (.file "a.log" 7)
  else none

/-- The small filesystem with the given results of the removal attempts to come. -/
def demoWorld (outcomes : List (Option FsError)) : World :=
  { fs := demoFs, outcomes := outcomes, log := [] }

/-- No stat in this state fails with an error other than not-exist: every path that exists
answers a stat with its file info. -/
def statNeverFaults (w : World) : Prop :=
  ∀ (p : Path) (e : FsEntry), w.fs p = some e → ∃ info, osStat e = .ok info

/-- The targets of a list that are not protected, in the order of the list. -/
def nonProtected (targets : List CleanupTarget) : List CleanupTarget :=
  targets.filter (fun t => !t.Protected)

/-- A target for the directory `tmp` of the small filesystem. -/
def demoTarget : CleanupTarget :=
  { Name := "User Temp", Path := ["tmp"], Description := "User temporary files", Size := 7,
    ItemCount := 1, Category := "Temporary Files", Protected := false }

/-- A protected target. -/
def demoProtected : CleanupTarget :=
  { Name := "Keep", Path := ["keep"], Description := "Protected files", Size := 50,
    ItemCount := 2, Category := "Cache Files", Protected := true }

/-- A target whose path does not exist in the small filesystem. -/
def demoMissing : CleanupTarget :=
  { Name := "Logs", Path := ["logs"], Description := "Log files", Size := 3,
    ItemCount := 1, Category := "Log Files", Protected := false }

mutual
/-- All the nodes of a tree in pre-order, the children of a node from left to right. -/
def preorder : DiskNode → List DiskNode
  | ⟨nm, p, sz, ic, isDir, children, lf⟩ =>
      ⟨nm, p, sz, ic, isDir, children, lf⟩ :: preorderList children
/-- The nodes of a list of trees in pre-order. -/
def preorderList : List DiskNode → List DiskNode
  | [] => []
  | c :: cs => preorder c ++ preorderList cs
end

/-- The non-directory nodes of a tree, in pre-order. -/
def fileNodes (root : DiskNode) : List DiskNode :=
  (preorder root).filter (fun n => !n.IsDirectory)

/-- The invariant of the data model that files have no children. -/
def filesAreLeaves (root : DiskNode) : Bool :=
  (preorder root).all (fun n => n.IsDirectory || n.Children.isEmpty)

/-- The map `m` after the file nodes of the list `l` have been appended, each under its
size. -/
def addFiles (m : SizeMap) (l : List DiskNode) : SizeMap :=
  fun k =>
    if (l.filter (fun n => !n.IsDirectory && decide (n.Size = k))).isEmpty then m k
    else some (sizeMapGet m k ++ l.filter (fun n => !n.IsDirectory && decide (n.Size = k)))

/-- A tree with two files of 20 bytes and one of 10 bytes. -/
def dupTree : DiskNode :=
  { Name := "R", Path := ["R"], Size := 50, ItemCount := 3, IsDirectory := true,
    LargeFiles := 0,
    Children := [
      { Name := "B", Path := ["R", "B"], Size := 20, ItemCount := 1, IsDirectory := true,
        LargeFiles := 0,
        Children := [
          { Name := "b", Path := ["R", "B", "b"], Size := 20, ItemCount := 1,
            IsDirectory := false, LargeFiles := 0, Children := [] }] },
      { Name := "c", Path := ["R", "c"], Size := 20, ItemCount := 1, IsDirectory := false,
        LargeFiles := 0, Children := [] },
      { Name := "a", Path := ["R", "a"], Size := 10, ItemCount := 1, IsDirectory := false,
        LargeFiles := 0, Children := [] }] }

/-- A state in which the stat of the path `locked` fails with an error other than
not-exist (permission denied, say). -/
def lockedWorld : World :=
  { fs := fun p => if p = ["locked"] then some (.noStat "locked") else none,
    outcomes := [], log := [] }

/-- A target for the path `locked`. -/
def lockedTarget : CleanupTarget :=
  { Name := "Locked", Path := ["locked"], Description := "No access", Size := 5,
    ItemCount := 1, Category := "Cache Files", Protected := false }

/-- A directory `tmp` with a file, a subdirectory that cannot be listed and an entry whose
stat fails. -/
def messyDir : FsEntry :=
  .dir "tmp" true [.file "a.log" 7, .dir "sub" false [.file "x" 1], .noStat "gone"]

/-- The catalog of `DiscoverTargets` as a table: the name of each entry, the variable its
path starts from, the path elements joined to it, its description and its category. -/
def catalogTable : List (String × String × List String × String × String) :=
  [ ("Windows Temp", "WINDIR", ["Temp"], "System temporary files", CategoryTemp),
    ("User Temp", "TEMP", [], "User temporary files", CategoryTemp),
    ("Local Temp", "TMP", [], "Local temporary storage", CategoryTemp),
    ("Application Cache", "LOCALAPPDATA", ["cache"], "Application cache files",
      CategoryCache),
    ("Icon Cache", "LOCALAPPDATA", ["IconCache.db"], "Windows icon cache",
      CategoryThumbnails),
    ("Thumbnail Cache", "LOCALAPPDATA", ["Microsoft", "Windows", "Explorer"],
      "Windows thumbnail cache", CategoryThumbnails),
    ("Prefetch", "WINDIR", ["Prefetch"], "Windows prefetch files", CategoryPrefetch),
    ("Chrome Cache", "LOCALAPPDATA", ["Google", "Chrome", "User Data", "Default", "Cache"],
      "Google Chrome cache", CategoryBrowser),
    ("Edge Cache", "LOCALAPPDATA", ["Microsoft", "Edge", "User Data", "Default", "Cache"],
      "Microsoft Edge cache", CategoryBrowser),
    ("Firefox Cache", "LOCALAPPDATA", ["Mozilla", "Firefox", "Profiles"],
      "Mozilla Firefox cache", CategoryBrowser),
    ("Brave Cache", "LOCALAPPDATA",
      ["BraveSoftware", "Brave-Browser", "User Data", "Default", "Cache"],
      "Brave browser cache", CategoryBrowser),
    ("Windows Update Cache", "WINDIR", ["SoftwareDistribution", "Download"],
      "Windows Update downloaded files", CategoryWindowsUpdate),
    ("Delivery Optimization", "WINDIR",
      ["ServiceProfiles", "NetworkService", "AppData", "Local", "Microsoft", "Windows",
        "DeliveryOptimization", "Cache"],
      "Windows Update delivery optimization", CategoryWindowsUpdate),
    ("Windows Logs", "WINDIR", ["Logs"], "Windows system logs", CategoryLogs),
    ("CBS Logs", "WINDIR", ["Logs", "CBS"], "Component-Based Servicing logs", CategoryLogs),
    ("Panther Logs", "WINDIR", ["Panther"], "Windows installation logs", CategoryLogs),
    ("Recycle Bin", "SYSTEMROOT", ["$Recycle.Bin"], "Recycle bin contents",
      CategoryRecycleBin),
    ("Windows Error Reporting", "PROGRAMDATA", ["Microsoft", "Windows", "WER"],
      "Windows error reports", CategoryLogs) ]

/-- The catalog entry a row of the table stands for. -/
def rowEntry (paths : String → Path) (row : String × String × List String × String × String) :
    CleanupTarget :=
  catalogEntry row.1 (filepathJoinElems (paths row.2.1) row.2.2.1) row.2.2.2.1 row.2.2.2.2

/-- A selected catalog entry with the totals `GetDirSize` gives for its path. -/
def measured (cm : CleanupManager) (w : World) (c : CleanupTarget) : CleanupTarget :=
  { c with
    Size := (GetDirSizeAt w c.Path).1
    ItemCount := (GetDirSizeAt w c.Path).2.1
    Protected := isProtected cm c.Path }

/-- An environment in which only `TEMP` and `SYSTEMROOT` are set. -/
def demoEnv : String → Path := fun key =>
  if key = "TEMP" then ["C:", "T"] else if key = "SYSTEMROOT" then ["C:"] else []

/-- A state with a temp directory holding 4 bytes and a recycle bin holding 9 bytes. -/
def discoverWorld : World :=
  { fs := fun p =>
      if p = ["C:", "T"] then some (.dir "T" true [.file "x.tmp" 4])
      else if p = ["C:", "$Recycle.Bin"] then some (.dir "$Recycle.Bin" true [.file "old" 9])
      else none,
    outcomes := [], log := [] }

/-- A state in which the relative path `Temp` is a directory holding 4 bytes. -/
def relativeWorld : World :=
  { fs := fun p => if p = ["Temp"] then some (.dir "Temp" true [.file "y.tmp" 4]) else none,
    outcomes := [], log := [] }

mutual
/-- The entries the survey can reach from an entry, each with the names that lead to it from
the entry: the entry itself (no names) and, through listable directories, the entries beneath
it; with `skipHidden` set, dot-named entries and what lies beneath them are left out. -/
def entriesBelow (skipHidden : Bool) : FsEntry → List (List String × FsEntry)
  | .file n size => [([], .file n size)]
  | .noStat n => [([], .noStat n)]
  | .dir n l es => ([], .dir n l es) :: (if l then entriesBelowList skipHidden es else [])
/-- The entries the survey can reach through the entries of a directory. -/
def entriesBelowList (skipHidden : Bool) : List FsEntry → List (List String × FsEntry)
  | [] => []
  | e :: es =>
      (if skipHidden && stringsHasPrefix e.name "." then []
       else (entriesBelow skipHidden e).map (fun q => (e.name :: q.1, q.2)))
        ++ entriesBelowList skipHidden es
end

/-- The number of files above 100 MiB (104857600 bytes) among the files the survey can reach
beneath an entry. -/
def largeFilesBeneath (skipHidden : Bool) (e : FsEntry) : Nat :=
  (filesBeneath skipHidden e).countP (fun size => decide (size > 104857600))

/-- A directory `R` with the file `a` of 10 bytes and the subdirectory `B` holding two files
of `2 ^ 62` bytes each: the files of `B` total `2 ^ 63` bytes, one more than the largest
`int64`. -/
def overflowFs : FsEntry :=
  .dir "R" true
    [.dir "B" true [.file "x" 4611686018427387904, .file "y" 4611686018427387904],
      .file "a" 10]

/-- A directory whose only file, of 200 MiB, has a dot-name. -/
def hiddenLargeFs : FsEntry :=
  .dir "D" true [.file ".big" 209715200]

/-- Adding the elements of a list to `s` one after the other with the `+` of `int64`. -/
def addAllInt64 (s : Int) (xs : List Int) : Int :=
  xs.foldl (fun acc x => wrapInt64 (acc + x)) s

/-- The `int64` sum of a list: its elements added up from 0 with the `+` of `int64`, as the
loop `for _, x := range xs { total += x }` does. -/
def sumInt64 (xs : List Int) : Int := addAllInt64 0 xs

/-! ## Basic lemmas -/

theorem wrapInt64_of_inRange {x : Int} (h1 : -9223372036854775808 ≤ x)
    (h2 : x < 9223372036854775808) : wrapInt64 x = x := by
  unfold wrapInt64
  omega

theorem wrapInt64_inRange (x : Int) :
    -9223372036854775808 ≤ wrapInt64 x ∧ wrapInt64 x < 9223372036854775808 := by
  unfold wrapInt64
  omega

theorem wrapInt64_idem (x : Int) : wrapInt64 (wrapInt64 x) = wrapInt64 x :=
  wrapInt64_of_inRange (wrapInt64_inRange x).1 (wrapInt64_inRange x).2

theorem wrapInt64_add_left (x y : Int) : wrapInt64 (wrapInt64 x + y) = wrapInt64 (x + y) := by
  unfold wrapInt64
  omega

theorem addAllInt64_nil (s : Int) : addAllInt64 s [] = s := rfl

theorem addAllInt64_cons (s x : Int) (xs : List Int) :
    addAllInt64 s (x :: xs) = addAllInt64 (wrapInt64 (s + x)) xs := rfl

theorem addAllInt64_append (s : Int) (xs ys : List Int) :
    addAllInt64 s (xs ++ ys) = addAllInt64 (addAllInt64 s xs) ys := by
  simp [addAllInt64, List.foldl_append]

/-- Adding one by one with wraparound gives the exact total reduced into the `int64` range,
when the starting value is in that range. -/
theorem addAllInt64_eq_wrap (xs : List Int) : ∀ s : Int, wrapInt64 s = s →
    addAllInt64 s xs = wrapInt64 (s + xs.sum) := by
  induction xs with
  | nil => intro s hs; simp [addAllInt64_nil, hs]
  | cons x xs ih =>
      intro s _
      rw [addAllInt64_cons, ih _ (wrapInt64_idem _), wrapInt64_add_left, List.sum_cons,
        add_assoc]

theorem sumInt64_eq_wrap (xs : List Int) : sumInt64 xs = wrapInt64 xs.sum := by
  unfold sumInt64
  rw [addAllInt64_eq_wrap xs 0 (by decide), zero_add]

theorem sumInt64_perm {xs ys : List Int} (h : xs.Perm ys) : sumInt64 xs = sumInt64 ys := by
  rw [sumInt64_eq_wrap, sumInt64_eq_wrap, h.sum_eq]

/-- The `int64` sum is the exact sum when the exact sum is in the `int64` range. -/
theorem sumInt64_of_inRange {xs : List Int} (h1 : -9223372036854775808 ≤ xs.sum)
    (h2 : xs.sum < 9223372036854775808) : sumInt64 xs = xs.sum := by
  rw [sumInt64_eq_wrap, wrapInt64_of_inRange h1 h2]

theorem fsEntry_induct {P : FsEntry → Prop}
    (hfile : ∀ n s, P (.file n s)) (hnoStat : ∀ n, P (.noStat n))
    (hdir : ∀ n l es, (∀ e ∈ es, P e) → P (.dir n l es)) : ∀ e, P e := by
  intro e
  refine FsEntry.rec (motive_1 := P) (motive_2 := fun es => ∀ e ∈ es, P e)
    hfile hdir hnoStat ?_ ?_ e
  · intro e h
    cases h
  · intro hd tl h1 h2 e he
    rcases List.mem_cons.mp he with rfl | h
    · exact h1
    · exact h2 e h

theorem nodesAt_eq (d : Int) (n : DiskNode) :
    nodesAt d n = (d, n) :: nodesAtList (d + 1) n.Children := by
  cases n
  simp [nodesAt]

theorem mem_nodesAtList {d : Int} {cs : List DiskNode} {x : Int × DiskNode} :
    x ∈ nodesAtList d cs ↔ ∃ c ∈ cs, x ∈ nodesAt d c := by
  induction cs with
  | nil => simp [nodesAtList]
  | cons c cs ih => simp [nodesAtList, ih]

theorem attached_cons_none {a : Analyzer} {path : Path} {depth : Int} {e : FsEntry}
    (es : List FsEntry) (h : attachOne a path depth e = none) :
    attached a path depth (e :: es) = attached a path depth es := by
  simp [attached, List.filterMap_cons, h]

theorem attached_cons_some {a : Analyzer} {path : Path} {depth : Int} {e : FsEntry}
    {c : DiskNode} (es : List FsEntry) (h : attachOne a path depth e = some c) :
    attached a path depth (e :: es) = c :: attached a path depth es := by
  simp [attached, List.filterMap_cons, h]

theorem analyzeEntries_eq (a : Analyzer) (path : Path) (depth : Int) (es : List FsEntry) :
    ∀ node : DiskNode, analyzeEntries a path depth es node =
      { node with
        Children := node.Children ++ attached a path depth es
        Size := addAllInt64 node.Size ((attached a path depth es).map (·.Size))
        ItemCount := node.ItemCount + ((attached a path depth es).map (·.ItemCount)).sum
        LargeFiles := node.LargeFiles + ((attached a path depth es).map (·.LargeFiles)).sum } := by
  induction es with
  | nil => intro node; cases node; simp [analyzeEntries, attached, addAllInt64_nil]
  | cons e es ih =>
      intro node
      rw [analyzeEntries]
      by_cases hh : (!a.showHidden && stringsHasPrefix e.name ".") = true
      · have h1 : attachOne a path depth e = none := by simp [attachOne, hh]
        rw [if_pos hh, ih, attached_cons_none es h1]
      · rw [if_neg hh]
        cases hr : analyzeNode a (filepathJoin path e.name) (depth + 1) e with
        | error err =>
            have h1 : attachOne a path depth e = none := by simp [attachOne, hh, hr]
            simp only []
            rw [ih, attached_cons_none es h1]
        | ok c =>
            simp only []
            by_cases hs : c.Size ≥ a.minSize
            · have h1 : attachOne a path depth e = some c := by simp [attachOne, hh, hr, hs]
              rw [if_pos hs, ih, attached_cons_some es h1]
              simp [add_assoc, addAllInt64_cons]
            · have h1 : attachOne a path depth e = none := by simp [attachOne, hh, hr, hs]
              rw [if_neg hs, ih, attached_cons_none es h1]

theorem attachOne_some {a : Analyzer} {path : Path} {depth : Int} {e : FsEntry} {c : DiskNode}
    (h : attachOne a path depth e = some c) :
    (!a.showHidden && stringsHasPrefix e.name ".") = false ∧
      analyzeNode a (filepathJoin path e.name) (depth + 1) e = .ok c ∧ c.Size ≥ a.minSize := by
  unfold attachOne at h
  by_cases hh : (!a.showHidden && stringsHasPrefix e.name ".") = true
  · rw [if_pos hh] at h
    cases h
  · rw [if_neg hh] at h
    cases hr : analyzeNode a (filepathJoin path e.name) (depth + 1) e with
    | error err => rw [hr] at h; cases h
    | ok c0 =>
        rw [hr] at h
        simp only [] at h
        by_cases hs : c0.Size ≥ a.minSize
        · rw [if_pos hs] at h
          cases h
          exact ⟨by simpa using hh, rfl, hs⟩
        · rw [if_neg hs] at h
          cases h

theorem mem_attached {a : Analyzer} {path : Path} {depth : Int} {es : List FsEntry}
    {c : DiskNode} :
    c ∈ attached a path depth es ↔ ∃ e ∈ es, attachOne a path depth e = some c := by
  simp [attached, List.mem_filterMap]

theorem height_le_heightList {e : FsEntry} {es : List FsEntry} (h : e ∈ es) :
    height e ≤ heightList es := by
  induction es with
  | nil => cases h
  | cons x xs ih =>
      rw [heightList]
      rcases List.mem_cons.mp h with rfl | h1
      · exact le_max_left _ _
      · exact le_trans (ih h1) (le_max_right _ _)

theorem mem_sortSlice {α : Type} (less : α → α → Bool) {xs : List α} {x : α} :
    x ∈ sortSlice less xs ↔ x ∈ xs :=
  (List.perm_insertionSort _ xs).mem_iff

theorem sortSlice_perm {α : Type} (less : α → α → Bool) (xs : List α) :
    (sortSlice less xs).Perm xs :=
  List.perm_insertionSort _ xs

/-- The result of `analyzeNode` on a listable directory above the depth limit. -/
theorem analyzeNode_dir_expanded (a : Analyzer) (path : Path) (depth : Int) (n : String)
    (es : List FsEntry) (hd : depth < a.maxDepth) :
    analyzeNode a path depth (.dir n true es) = .ok
      { Name := filepathBase path, Path := path,
        Size := sumInt64 ((attached a path depth es).map (·.Size)),
        ItemCount := ((attached a path depth es).map (·.ItemCount)).sum,
        IsDirectory := true,
        Children := sortSlice (fun x y => decide (x.Size > y.Size)) (attached a path depth es),
        LargeFiles := ((attached a path depth es).map (·.LargeFiles)).sum } := by
  rw [analyzeNode, if_neg (not_le.mpr hd)]
  simp [analyzeEntries_eq, newNode, sumInt64]

/-- The result of `analyzeNode` on a directory in the two fallback branches. -/
theorem analyzeNode_dir_fallback (a : Analyzer) (path : Path) (depth : Int) (n : String)
    (l : Bool) (es : List FsEntry) (h : a.maxDepth ≤ depth ∨ l = false) :
    analyzeNode a path depth (.dir n l es) = .ok
      { Name := filepathBase path, Path := path,
        Size := (GetDirSize path (.dir n l es)).1,
        ItemCount := (GetDirSize path (.dir n l es)).2.1,
        IsDirectory := true, Children := [], LargeFiles := 0 } := by
  rw [analyzeNode]
  by_cases hd : depth ≥ a.maxDepth
  · rw [if_pos hd]; rfl
  · rw [if_neg hd]
    have hl : l = false := h.resolve_left hd
    rw [if_pos hl]; rfl

/-- Every node of a returned tree is itself the result of a call of `analyzeNode`, at the
depth it has in the tree, on an entry of the filesystem tree. A property `R` of the surveyed
entries that passes from an expanded directory to the entries its loop recurses into holds of
the entry behind every node. -/
theorem nodesAt_generated (a : Analyzer) (R : Int → FsEntry → Prop)
    (hR : ∀ (d : Int) (n : String) (es : List FsEntry) (e0 : FsEntry),
      R d (.dir n true es) → d < a.maxDepth → e0 ∈ es →
      (!a.showHidden && stringsHasPrefix e0.name ".") = false → R (d + 1) e0) :
    ∀ (e : FsEntry) (path : Path) (depth : Int) (root : DiskNode),
      analyzeNode a path depth e = .ok root → R depth e →
      ∀ x ∈ nodesAt depth root, ∃ path1 e1, analyzeNode a path1 x.1 e1 = .ok x.2 ∧ R x.1 e1 := by
  intro e
  induction e using fsEntry_induct with
  | hfile n s =>
      intro path depth root h hr x hx
      have hc : root.Children = [] := by
        simp only [analyzeNode] at h
        cases h
        split <;> rfl
      rw [nodesAt_eq, hc] at hx
      simp [nodesAtList] at hx
      subst hx
      exact ⟨path, .file n s, h, hr⟩
  | hnoStat n =>
      intro path depth root h
      simp [analyzeNode] at h
  | hdir n l es ih =>
      intro path depth root h hr x hx
      rw [nodesAt_eq] at hx
      rcases List.mem_cons.mp hx with rfl | hx1
      · exact ⟨path, .dir n l es, h, hr⟩
      · by_cases hf : a.maxDepth ≤ depth ∨ l = false
        · rw [analyzeNode_dir_fallback a path depth n l es hf] at h
          cases h
          simp [nodesAtList] at hx1
        · have hd : depth < a.maxDepth := by
            by_contra hcon
            exact hf (Or.inl (not_lt.mp hcon))
          have hl : l = true := by
            cases l
            · exact absurd (Or.inr rfl) hf
            · rfl
          subst hl
          rw [analyzeNode_dir_expanded a path depth n es hd] at h
          cases h
          simp only [] at hx1
          obtain ⟨c, hc, hxc⟩ := mem_nodesAtList.mp hx1
          rw [mem_sortSlice] at hc
          obtain ⟨e0, he0, hat⟩ := mem_attached.mp hc
          obtain ⟨hvis, hrun, _⟩ := attachOne_some hat
          exact ih e0 he0 _ _ _ hrun (hR depth n es e0 hr hd he0 hvis) x hxc

/-- The instance of `nodesAt_generated` with no property carried along. -/
theorem nodesAt_generated_plain (a : Analyzer) (e : FsEntry) (path : Path) (depth : Int)
    (root : DiskNode) (h : analyzeNode a path depth e = .ok root) :
    ∀ x ∈ nodesAt depth root, ∃ path1 e1, analyzeNode a path1 x.1 e1 = .ok x.2 := by
  intro x hx
  obtain ⟨p1, e1, h1, _⟩ := nodesAt_generated a (fun _ _ => True)
    (fun _ _ _ _ _ _ _ _ => trivial) e path depth root h trivial x hx
  exact ⟨p1, e1, h1⟩

/-! ## What `GetDirSize` computes -/

theorem filesBeneathList_false_cons (e : FsEntry) (es : List FsEntry) :
    filesBeneathList false (e :: es) = filesBeneath false e ++ filesBeneathList false es := by
  simp [filesBeneathList]

theorem walkNames_getDirSizeFn (es : List FsEntry)
    (ih : ∀ e ∈ es, ∀ (path : Path) (s : Int × Int), walk getDirSizeFn path e s =
      ((addAllInt64 s.1 ((filesBeneath false e).map (fun n : Nat => (n : Int))),
        s.2 + ((filesBeneath false e).length : Nat)), none)) :
    ∀ (path : Path) (s : Int × Int), walkNames getDirSizeFn path es s =
      ((addAllInt64 s.1 ((filesBeneathList false es).map (fun n : Nat => (n : Int))),
        s.2 + ((filesBeneathList false es).length : Nat)), none) := by
  induction es with
  | nil => intro path s; simp [walkNames, filesBeneathList, addAllInt64_nil]
  | cons e es ihl =>
      intro path s
      have ihes := ihl (fun e1 he1 => ih e1 (List.mem_cons_of_mem _ he1))
      have ihe := ih e (List.mem_cons_self _ _)
      rw [filesBeneathList_false_cons, List.map_append, addAllInt64_append]
      cases e with
      | noStat n =>
          rw [walkNames]
          simp [getDirSizeFn, ihes, filesBeneath, addAllInt64_nil]
      | file n size =>
          rw [walkNames, ihe]
          simp only [ne_eq, not_true_eq_false, if_false]
          rw [ihes]
          simp only [List.length_append]
          push_cast
          simp only [add_assoc]
      | dir n l sub =>
          rw [walkNames, ihe]
          simp only [ne_eq, not_true_eq_false, false_and, if_false]
          rw [ihes]
          simp only [List.length_append]
          push_cast
          simp only [add_assoc]

theorem walk_getDirSizeFn : ∀ (e : FsEntry) (path : Path) (s : Int × Int),
    walk getDirSizeFn path e s =
      ((addAllInt64 s.1 ((filesBeneath false e).map (fun n : Nat => (n : Int))),
        s.2 + ((filesBeneath false e).length : Nat)), none) := by
  intro e
  induction e using fsEntry_induct with
  | hfile n size =>
      intro path s
      simp [walk, getDirSizeFn, filesBeneath, addAllInt64_cons, addAllInt64_nil]
  | hnoStat n =>
      intro path s
      simp [walk, filesBeneath, addAllInt64_nil]
  | hdir n l es ih =>
      intro path s
      cases l with
      | false => simp [walk, getDirSizeFn, filesBeneath, addAllInt64_nil]
      | true =>
          rw [walk]
          simp only [filesBeneath, if_true]
          have h := walkNames_getDirSizeFn es ih path s
          simpa [getDirSizeFn] using h

/-- The value of `GetDirSize`: the `int64` sum of the sizes and the number of the files the
walk reaches, and a nil error. -/
theorem GetDirSize_eq (path : Path) (e : FsEntry) :
    GetDirSize path e =
      (sumInt64 ((filesBeneath false e).map (fun n : Nat => (n : Int))),
        (((filesBeneath false e).length : Nat) : Int), none) := by
  unfold GetDirSize filepathWalk sumInt64
  cases e with
  | noStat n => simp [osStat, getDirSizeFn, filesBeneath, addAllInt64_nil]
  | file n size => simp [osStat, walk_getDirSizeFn]
  | dir n l es => simp [osStat, walk_getDirSizeFn]

theorem natCast_list_sum (xs : List Nat) :
    (xs.map (fun n : Nat => (n : Int))).sum = ((xs.sum : Nat) : Int) := by
  induction xs with
  | nil => rfl
  | cons x xs ih =>
      rw [List.map_cons, List.sum_cons, List.sum_cons, ih]
      push_cast
      rfl

/-- When the files the walk reaches total less than `2 ^ 63` bytes, the size `GetDirSize`
returns is their exact total. -/
theorem GetDirSize_exact (path : Path) (e : FsEntry)
    (hb : (filesBeneath false e).sum < 9223372036854775808) :
    GetDirSize path e =
      ((((filesBeneath false e).sum : Nat) : Int), (((filesBeneath false e).length : Nat) : Int),
        none) := by
  rw [GetDirSize_eq, sumInt64_of_inRange, natCast_list_sum]
  · rw [natCast_list_sum]
    omega
  · rw [natCast_list_sum]
    omega

/-! ## Totals of a node and of its children -/

theorem analyzeNode_file_isDirectory {a : Analyzer} {path : Path} {depth : Int} {n : String}
    {size : Nat} {node : DiskNode} (h : analyzeNode a path depth (.file n size) = .ok node) :
    node.IsDirectory = false ∧ node.Children = [] ∧ node.Size = size ∧ node.ItemCount = 1 ∧
      node.Name = filepathBase path := by
  simp only [analyzeNode] at h
  cases h
  split <;> simp [newNode]

/-- A directory node produced above the depth limit carries the sums of its children's
totals. -/
theorem analyzeNode_totals {a : Analyzer} {path : Path} {depth : Int} {e : FsEntry}
    {node : DiskNode} (h : analyzeNode a path depth e = .ok node)
    (hdir : node.IsDirectory = true) (hd : depth < a.maxDepth) :
    node.Size = sumInt64 (node.Children.map (·.Size)) ∧
      node.ItemCount = (node.Children.map (·.ItemCount)).sum ∧
      node.LargeFiles = (node.Children.map (·.LargeFiles)).sum := by
  cases e with
  | noStat n => simp [analyzeNode] at h
  | file n size =>
      have := (analyzeNode_file_isDirectory h).1
      rw [this] at hdir
      cases hdir
  | dir n l es =>
      cases l with
      | false =>
          rw [analyzeNode_dir_fallback a path depth n false es (Or.inr rfl)] at h
          cases h
          simp [GetDirSize_eq, filesBeneath, sumInt64, addAllInt64]
      | true =>
          rw [analyzeNode_dir_expanded a path depth n es hd] at h
          cases h
          have hp := sortSlice_perm (fun x y : DiskNode => decide (x.Size > y.Size))
            (attached a path depth es)
          exact ⟨sumInt64_perm (hp.map _).symm, ((hp.map _).sum_eq).symm,
            ((hp.map _).sum_eq).symm⟩

/-! ## `collectFiles` -/

theorem diskNode_induct {P : DiskNode → Prop}
    (step : ∀ n : DiskNode, (∀ c ∈ n.Children, P c) → P n) : ∀ n, P n := by
  intro n
  refine DiskNode.rec (motive_1 := P) (motive_2 := fun cs => ∀ c ∈ cs, P c) ?_ ?_ ?_ n
  · intro nm p sz ic isDir children lf ih
    exact step _ ih
  · intro c h
    cases h
  · intro hd tl h1 h2 c hc
    rcases List.mem_cons.mp hc with rfl | h
    · exact h1
    · exact h2 c h

theorem collectFiles_eq (n : DiskNode) (files : List DiskNode) :
    collectFiles n files =
      if !n.IsDirectory then files ++ [n] else collectFilesLoop n.Children files := by
  cases n
  simp [collectFiles]

theorem collectFilesLoop_append (cs : List DiskNode)
    (ih : ∀ c ∈ cs, ∀ files, collectFiles c files = files ++ collectFiles c []) :
    ∀ files, collectFilesLoop cs files = files ++ collectFilesLoop cs [] := by
  induction cs with
  | nil => intro files; simp [collectFilesLoop]
  | cons c cs ihl =>
      intro files
      have h1 := ihl (fun c1 hc1 => ih c1 (List.mem_cons_of_mem _ hc1))
      rw [collectFilesLoop, h1, ih c (List.mem_cons_self _ _) files]
      rw [collectFilesLoop, h1 (collectFiles c [])]
      simp

/-- The function `collectFiles` only appends to the list it is given. -/
theorem collectFiles_append : ∀ (n : DiskNode) (files : List DiskNode),
    collectFiles n files = files ++ collectFiles n [] := by
  intro n
  induction n using diskNode_induct with
  | step n ih =>
      intro files
      rw [collectFiles_eq n files, collectFiles_eq n []]
      by_cases hd : (!n.IsDirectory) = true
      · simp [hd]
      · rw [if_neg hd, if_neg hd]
        exact collectFilesLoop_append n.Children ih files

theorem collectFilesLoop_length (cs : List DiskNode) :
    (collectFilesLoop cs []).length = (cs.map (fun c => (collectFiles c []).length)).sum := by
  induction cs with
  | nil => simp [collectFilesLoop]
  | cons c cs ih =>
      rw [collectFilesLoop, collectFilesLoop_append cs (fun c1 _ => collectFiles_append c1)]
      simp [ih]

theorem expandsFullyList_mem {a : Analyzer} {depth : Int} {es : List FsEntry} {e0 : FsEntry}
    (h : expandsFullyList a depth es = true) (he : e0 ∈ es)
    (hv : (!a.showHidden && stringsHasPrefix e0.name ".") = false) :
    expandsFully a (depth + 1) e0 = true := by
  induction es with
  | nil => cases he
  | cons x xs ih =>
      rw [expandsFullyList, Bool.and_eq_true] at h
      rcases List.mem_cons.mp he with rfl | h1
      · have := h.1
        rw [hv] at this
        simpa using this
      · exact ih h.2 h1

/-- When no visited directory is cut off or unlistable, the `ItemCount` a call of
`analyzeNode` returns is the number of file nodes of the returned subtree. -/
theorem analyzeNode_itemCount (a : Analyzer) : ∀ (e : FsEntry) (path : Path) (depth : Int)
    (node : DiskNode), analyzeNode a path depth e = .ok node → expandsFully a depth e = true →
    node.ItemCount = ((collectFiles node []).length : Int) := by
  intro e
  induction e using fsEntry_induct with
  | hfile n size =>
      intro path depth node h _
      obtain ⟨h1, _, _, h4, _⟩ := analyzeNode_file_isDirectory h
      rw [collectFiles_eq, h1, h4]
      simp
  | hnoStat n =>
      intro path depth node h
      simp [analyzeNode] at h
  | hdir n l es ih =>
      intro path depth node h hx
      simp only [expandsFully, Bool.and_eq_true, decide_eq_true_eq] at hx
      obtain ⟨⟨hd, hl⟩, hes⟩ := hx
      subst hl
      rw [analyzeNode_dir_expanded a path depth n es hd] at h
      cases h
      rw [collectFiles_eq]
      simp only [Bool.not_true, Bool.false_eq_true, if_false]
      rw [collectFilesLoop_length]
      have hp := sortSlice_perm (fun x y : DiskNode => decide (x.Size > y.Size))
        (attached a path depth es)
      rw [(hp.map _).sum_eq]
      have hc : ∀ c ∈ attached a path depth es,
          c.ItemCount = ((collectFiles c []).length : Int) := by
        intro c hc
        obtain ⟨e0, he0, hat⟩ := mem_attached.mp hc
        obtain ⟨hvis, hrun, _⟩ := attachOne_some hat
        exact ih e0 he0 _ _ _ hrun (expandsFullyList_mem hes he0 hvis)
      rw [List.map_congr_left hc]
      rw [Nat.cast_list_sum, List.map_map]
      rfl

theorem scenario_survey : AnalyzePath scenarioCfg ["R"] scenarioFs = .ok scenarioTree := by
  rfl

/-! ## The children of a node -/

theorem filepathBase_join (p : Path) (n : String) : filepathBase (filepathJoin p n) = n := by
  simp [filepathBase, filepathJoin]

theorem analyzeNode_name {a : Analyzer} {path : Path} {depth : Int} {e : FsEntry}
    {node : DiskNode} (h : analyzeNode a path depth e = .ok node) :
    node.Name = filepathBase path := by
  cases e with
  | noStat n => simp [analyzeNode] at h
  | file n size => exact (analyzeNode_file_isDirectory h).2.2.2.2
  | dir n l es =>
      by_cases hf : a.maxDepth ≤ depth ∨ l = false
      · rw [analyzeNode_dir_fallback a path depth n l es hf] at h
        cases h
        rfl
      · have hd : depth < a.maxDepth := by
          by_contra hcon
          exact hf (Or.inl (not_lt.mp hcon))
        have hl : l = true := by
          cases l
          · exact absurd (Or.inr rfl) hf
          · rfl
        subst hl
        rw [analyzeNode_dir_expanded a path depth n es hd] at h
        cases h
        rfl

/-- Every child of a node `analyzeNode` returns is the node returned for an entry that the
loop did not skip as hidden, and it passed the `minSize` test. -/
theorem analyzeNode_children {a : Analyzer} {path : Path} {depth : Int} {e : FsEntry}
    {node : DiskNode} (h : analyzeNode a path depth e = .ok node) :
    ∀ c ∈ node.Children, ∃ e0,
      (!a.showHidden && stringsHasPrefix e0.name ".") = false ∧
      analyzeNode a (filepathJoin path e0.name) (depth + 1) e0 = .ok c ∧
      c.Size ≥ a.minSize := by
  intro c hc
  cases e with
  | noStat n => simp [analyzeNode] at h
  | file n size =>
      rw [(analyzeNode_file_isDirectory h).2.1] at hc
      cases hc
  | dir n l es =>
      by_cases hf : a.maxDepth ≤ depth ∨ l = false
      · rw [analyzeNode_dir_fallback a path depth n l es hf] at h
        cases h
        cases hc
      · have hd : depth < a.maxDepth := by
          by_contra hcon
          exact hf (Or.inl (not_lt.mp hcon))
        have hl : l = true := by
          cases l
          · exact absurd (Or.inr rfl) hf
          · rfl
        subst hl
        rw [analyzeNode_dir_expanded a path depth n es hd] at h
        cases h
        simp only [] at hc
        rw [mem_sortSlice] at hc
        obtain ⟨e0, _, hat⟩ := mem_attached.mp hc
        exact ⟨e0, attachOne_some hat⟩

theorem sortSlice_bySize_sorted (cs : List DiskNode) :
    (sortSlice (fun x y : DiskNode => decide (x.Size > y.Size)) cs).Pairwise
      (fun c1 c2 => c1.Size ≥ c2.Size) := by
  have htot : IsTotal DiskNode (fun x y => decide (y.Size > x.Size) = false) :=
    ⟨fun x y => by
      simp only [gt_iff_lt, decide_eq_false_iff_not, not_lt]
      exact le_total _ _⟩
  have htr : IsTrans DiskNode (fun x y => decide (y.Size > x.Size) = false) :=
    ⟨fun x y z hxy hyz => by
      simp only [gt_iff_lt, decide_eq_false_iff_not, not_lt] at *
      exact le_trans hyz hxy⟩
  have hs := List.sorted_insertionSort (fun x y : DiskNode => decide (y.Size > x.Size) = false) cs
  refine List.Pairwise.imp ?_ hs
  intro x y hxy
  simpa using hxy

theorem analyzeNode_children_sorted {a : Analyzer} {path : Path} {depth : Int} {e : FsEntry}
    {node : DiskNode} (h : analyzeNode a path depth e = .ok node) :
    node.Children.Pairwise (fun c1 c2 => c1.Size ≥ c2.Size) := by
  cases e with
  | noStat n => simp [analyzeNode] at h
  | file n size =>
      rw [(analyzeNode_file_isDirectory h).2.1]
      exact List.Pairwise.nil
  | dir n l es =>
      by_cases hf : a.maxDepth ≤ depth ∨ l = false
      · rw [analyzeNode_dir_fallback a path depth n l es hf] at h
        cases h
        exact List.Pairwise.nil
      · have hd : depth < a.maxDepth := by
          by_contra hcon
          exact hf (Or.inl (not_lt.mp hcon))
        have hl : l = true := by
          cases l
          · exact absurd (Or.inr rfl) hf
          · rfl
        subst hl
        rw [analyzeNode_dir_expanded a path depth n es hd] at h
        cases h
        exact sortSlice_bySize_sorted _

/-! ## The totals of a survey that attaches every child -/

theorem analyzeNode_error_filesBeneath {a : Analyzer} {path : Path} {depth : Int}
    {e : FsEntry} {err : FsError} (skip : Bool) (h : analyzeNode a path depth e = .error err) :
    filesBeneath skip e = [] := by
  cases e with
  | noStat n => simp [filesBeneath]
  | file n size => simp [analyzeNode] at h
  | dir n l es =>
      rw [analyzeNode] at h
      split at h
      · cases h
      · split at h <;> cases h

theorem allFileSizes_mem_le {e0 : FsEntry} {es : List FsEntry} (h : e0 ∈ es) :
    (allFileSizes e0).sum ≤ (allFileSizesList es).sum := by
  induction es with
  | nil => cases h
  | cons x xs ih =>
      rw [allFileSizesList, List.sum_append]
      rcases List.mem_cons.mp h with rfl | h1
      · omega
      · have := ih h1
        omega

/-- The files the survey reaches beneath an entry are among all the files of the tree. -/
theorem filesBeneath_sum_le (skip : Bool) : ∀ e : FsEntry,
    (filesBeneath skip e).sum ≤ (allFileSizes e).sum := by
  intro e
  induction e using fsEntry_induct with
  | hfile n size => simp [filesBeneath, allFileSizes]
  | hnoStat n => simp [filesBeneath]
  | hdir n l es ih =>
      have hl : (filesBeneathList skip es).sum ≤ (allFileSizesList es).sum := by
        clear n l
        induction es with
        | nil => simp [filesBeneathList, allFileSizesList]
        | cons e es ihl =>
            rw [filesBeneathList, allFileSizesList, List.sum_append, List.sum_append]
            have h1 := ih e (List.mem_cons_self _ _)
            have h2 := ihl (fun e1 he1 => ih e1 (List.mem_cons_of_mem _ he1))
            split
            · simp only [List.sum_nil]
              omega
            · omega
      simp only [filesBeneath, allFileSizes]
      split
      · exact hl
      · simp

theorem attached_sizes_bounds (a : Analyzer) (path : Path) (depth : Int) (es : List FsEntry)
    (ih : ∀ e0 ∈ es, ∀ c, analyzeNode a (filepathJoin path e0.name) (depth + 1) e0 = .ok c →
      0 ≤ c.Size ∧ c.Size ≤ ((allFileSizes e0).sum : Nat)) :
    0 ≤ ((attached a path depth es).map (·.Size)).sum ∧
      ((attached a path depth es).map (·.Size)).sum ≤ ((allFileSizesList es).sum : Nat) := by
  induction es with
  | nil => simp [attached, allFileSizesList]
  | cons e es ihl =>
      have h1 := ihl (fun e1 he1 => ih e1 (List.mem_cons_of_mem _ he1))
      rw [allFileSizesList, List.sum_append]
      cases hat : attachOne a path depth e with
      | none =>
          rw [attached_cons_none es hat]
          omega
      | some c =>
          obtain ⟨_, hrun, _⟩ := attachOne_some hat
          obtain ⟨h2, h3⟩ := ih e (List.mem_cons_self _ _) c hrun
          rw [attached_cons_some es hat]
          simp only [List.map_cons, List.sum_cons]
          omega

/-- On a tree whose files total less than `2 ^ 63` bytes no addition of the survey wraps
around: the `Size` of the node returned for an entry lies between 0 and the total of the
files of the entry, and the `Size` of a directory node above the depth limit is the exact sum
of the `Size` of its children. -/
theorem analyzeNode_size_range (a : Analyzer) : ∀ (e : FsEntry) (path : Path) (depth : Int)
    (node : DiskNode), analyzeNode a path depth e = .ok node →
    (allFileSizes e).sum < 9223372036854775808 →
    0 ≤ node.Size ∧ node.Size ≤ ((allFileSizes e).sum : Nat) ∧
      (node.IsDirectory = true → depth < a.maxDepth →
        node.Size = (node.Children.map (·.Size)).sum) := by
  intro e
  induction e using fsEntry_induct with
  | hfile n size =>
      intro path depth node h _
      obtain ⟨h1, _, h3, _, _⟩ := analyzeNode_file_isDirectory h
      refine ⟨?_, ?_, ?_⟩
      · rw [h3]
        exact Int.natCast_nonneg _
      · rw [h3]
        simp [allFileSizes]
      · intro hdir
        rw [h1] at hdir
        cases hdir
  | hnoStat n =>
      intro path depth node h
      simp [analyzeNode] at h
  | hdir n l es ih =>
      intro path depth node h hb
      by_cases hf : a.maxDepth ≤ depth ∨ l = false
      · rw [analyzeNode_dir_fallback a path depth n l es hf] at h
        cases h
        have hle := filesBeneath_sum_le false (.dir n l es)
        rw [GetDirSize_exact path (.dir n l es) (by omega)]
        refine ⟨Int.natCast_nonneg _, Int.ofNat_le.mpr hle, ?_⟩
        intro _ hd
        have hl : l = false := hf.resolve_left (not_le.mpr hd)
        subst hl
        simp [filesBeneath]
      · have hd : depth < a.maxDepth := by
          by_contra hcon
          exact hf (Or.inl (not_lt.mp hcon))
        have hl : l = true := by
          cases l
          · exact absurd (Or.inr rfl) hf
          · rfl
        subst hl
        rw [analyzeNode_dir_expanded a path depth n es hd] at h
        cases h
        simp only [allFileSizes] at hb ⊢
        have hbd := attached_sizes_bounds a path depth es (fun e0 he0 c hc => by
          have hle := allFileSizes_mem_le he0
          obtain ⟨h1, h2, _⟩ := ih e0 he0 _ _ c hc (by omega)
          exact ⟨h1, h2⟩)
        have hex : sumInt64 ((attached a path depth es).map (·.Size)) =
            ((attached a path depth es).map (·.Size)).sum :=
          sumInt64_of_inRange (by omega) (by omega)
        rw [hex]
        refine ⟨hbd.1, hbd.2, ?_⟩
        intro _ _
        have hp := sortSlice_perm (fun x y : DiskNode => decide (x.Size > y.Size))
          (attached a path depth es)
        exact ((hp.map _).sum_eq).symm

theorem attached_visible_totals (a : Analyzer) (hm : a.minSize = 0) (path : Path) (depth : Int)
    (es : List FsEntry)
    (ih : ∀ e0 ∈ es, (!a.showHidden && stringsHasPrefix e0.name ".") = false → ∀ c,
      analyzeNode a (filepathJoin path e0.name) (depth + 1) e0 = .ok c →
      c.Size = ((filesBeneath (!a.showHidden) e0).sum : Nat) ∧
        c.ItemCount = ((filesBeneath (!a.showHidden) e0).length : Nat)) :
    ((attached a path depth es).map (·.Size)).sum =
        ((filesBeneathList (!a.showHidden) es).sum : Nat) ∧
      ((attached a path depth es).map (·.ItemCount)).sum =
        ((filesBeneathList (!a.showHidden) es).length : Nat) := by
  induction es with
  | nil => simp [attached, filesBeneathList]
  | cons e es ihl =>
      have h1 := ihl (fun e1 he1 => ih e1 (List.mem_cons_of_mem _ he1))
      rw [filesBeneathList]
      by_cases hh : (!a.showHidden && stringsHasPrefix e.name ".") = true
      · have h2 : attachOne a path depth e = none := by simp [attachOne, hh]
        rw [attached_cons_none es h2, if_pos hh]
        simpa using h1
      · rw [if_neg hh]
        cases hr : analyzeNode a (filepathJoin path e.name) (depth + 1) e with
        | error err =>
            have h2 : attachOne a path depth e = none := by simp [attachOne, hh, hr]
            rw [attached_cons_none es h2, analyzeNode_error_filesBeneath _ hr]
            simpa using h1
        | ok c =>
            obtain ⟨h3, h4⟩ := ih e (List.mem_cons_self _ _) (by simpa using hh) c hr
            have hs : c.Size ≥ a.minSize := by
              rw [hm, h3]
              exact Int.natCast_nonneg _
            have h2 : attachOne a path depth e = some c := by simp [attachOne, hh, hr, hs]
            rw [attached_cons_some es h2]
            simp only [List.map_cons, List.sum_cons, List.sum_append, List.length_append,
              Nat.cast_add]
            rw [h1.1, h1.2, h3, h4]
            exact ⟨rfl, rfl⟩

/-- With `minSize = 0`, and either `showHidden = true` or no directory cut off at the depth
limit beneath the entry, the totals of the node returned for an entry are the bytes and the
number of the files the survey reaches beneath it, hidden ones left out when they are
skipped. -/
theorem analyzeNode_visible_totals (a : Analyzer) (hm : a.minSize = 0) :
    ∀ (e : FsEntry) (path : Path) (depth : Int) (node : DiskNode),
      analyzeNode a path depth e = .ok node →
      (a.showHidden = true ∨ depth + (height e : Int) ≤ a.maxDepth) →
      (allFileSizes e).sum < 9223372036854775808 →
      node.Size = ((filesBeneath (!a.showHidden) e).sum : Nat) ∧
        node.ItemCount = ((filesBeneath (!a.showHidden) e).length : Nat) := by
  intro e
  induction e using fsEntry_induct with
  | hfile n size =>
      intro path depth node h _ _
      obtain ⟨_, _, h3, h4, _⟩ := analyzeNode_file_isDirectory h
      simp [filesBeneath, h3, h4]
  | hnoStat n =>
      intro path depth node h
      simp [analyzeNode] at h
  | hdir n l es ih =>
      intro path depth node h hb hsz
      by_cases hf : a.maxDepth ≤ depth ∨ l = false
      · rw [analyzeNode_dir_fallback a path depth n l es hf] at h
        cases h
        have hle := filesBeneath_sum_le false (.dir n l es)
        rw [GetDirSize_exact path (.dir n l es) (by omega)]
        simp only []
        cases l with
        | false => simp [filesBeneath]
        | true =>
            have hd : a.maxDepth ≤ depth := by simpa using hf
            rcases hb with hsh | hb
            · rw [hsh]
              exact ⟨rfl, rfl⟩
            · simp only [height] at hb
              push_cast at hb
              omega
      · have hd : depth < a.maxDepth := by
          by_contra hcon
          exact hf (Or.inl (not_lt.mp hcon))
        have hl : l = true := by
          cases l
          · exact absurd (Or.inr rfl) hf
          · rfl
        subst hl
        rw [analyzeNode_dir_expanded a path depth n es hd] at h
        cases h
        simp only [filesBeneath, if_true]
        have hat := attached_visible_totals a hm path depth es (fun e0 he0 _ c hc => by
          have hle := allFileSizes_mem_le he0
          simp only [allFileSizes] at hsz
          apply ih e0 he0 _ _ _ hc _ (by omega)
          rcases hb with hsh | hb
          · exact Or.inl hsh
          · right
            have h3 := height_le_heightList he0
            simp only [height] at hb
            push_cast at hb
            omega)
        refine ⟨?_, hat.2⟩
        have hle := filesBeneath_sum_le (!a.showHidden) (.dir n true es)
        simp only [filesBeneath, if_true] at hle
        rw [sumInt64_of_inRange, hat.1]
        · rw [hat.1]
          omega
        · rw [hat.1]
          omega

theorem analyzeNode_ok_of_stat (a : Analyzer) (path : Path) (depth : Int) (e : FsEntry)
    (info : FileInfo) (h : osStat e = .ok info) :
    ∃ node, analyzeNode a path depth e = .ok node := by
  cases e with
  | noStat n => simp [osStat] at h
  | file n size => exact ⟨_, by rw [analyzeNode]⟩
  | dir n l es =>
      by_cases hf : a.maxDepth ≤ depth ∨ l = false
      · exact ⟨_, analyzeNode_dir_fallback a path depth n l es hf⟩
      · have hd : depth < a.maxDepth := by
          by_contra hcon
          exact hf (Or.inl (not_lt.mp hcon))
        have hl : l = true := by
          cases l
          · exact absurd (Or.inr rfl) hf
          · rfl
        subst hl
        exact ⟨_, analyzeNode_dir_expanded a path depth n es hd⟩

theorem osStat_ok_of_allAccessible {e : FsEntry} (h : allAccessible e = true) :
    ∃ info, osStat e = .ok info := by
  cases e with
  | noStat n => simp [allAccessible] at h
  | file n size => exact ⟨_, rfl⟩
  | dir n l es => exact ⟨_, rfl⟩

theorem scenario_survey_min15 :
    AnalyzePath scenarioCfgMin15 ["R"] scenarioFs = .ok scenarioTreeMin15 := by
  rfl

/-! ## Large files -/

theorem collectFilesLoop_countP (p : DiskNode → Bool) (cs : List DiskNode) :
    (collectFilesLoop cs []).countP p = (cs.map (fun c => (collectFiles c []).countP p)).sum := by
  induction cs with
  | nil => simp [collectFilesLoop]
  | cons c cs ih =>
      rw [collectFilesLoop, collectFilesLoop_append cs (fun c1 _ => collectFiles_append c1)]
      simp [ih]

theorem largeFileNodes_file {n : DiskNode} (h : n.IsDirectory = false) :
    largeFileNodes n = if n.Size > 104857600 then 1 else 0 := by
  unfold largeFileNodes
  rw [collectFiles_eq, h]
  simp [List.countP_cons]

theorem largeFileNodes_dir {n : DiskNode} (h : n.IsDirectory = true) :
    largeFileNodes n = (n.Children.map largeFileNodes).sum := by
  unfold largeFileNodes
  rw [collectFiles_eq, h]
  simp only [Bool.not_true, Bool.false_eq_true, if_false]
  rw [collectFilesLoop_countP]

/-- The `LargeFiles` a call of `analyzeNode` returns is the number of large file nodes of
the returned subtree. -/
theorem analyzeNode_largeFiles (a : Analyzer) : ∀ (e : FsEntry) (path : Path) (depth : Int)
    (node : DiskNode), analyzeNode a path depth e = .ok node →
    node.LargeFiles = (largeFileNodes node : Int) := by
  intro e
  induction e using fsEntry_induct with
  | hfile n size =>
      intro path depth node h
      have h1 := (analyzeNode_file_isDirectory h).1
      rw [largeFileNodes_file h1]
      simp only [analyzeNode] at h
      cases h
      by_cases hs : (size : Int) > 100 * 1024 * 1024
      · have hs2 : (size : Int) > 104857600 := by omega
        simp [newNode, hs, hs2]
      · have hs2 : ¬ (size : Int) > 104857600 := by omega
        simp [newNode, hs, hs2]
  | hnoStat n =>
      intro path depth node h
      simp [analyzeNode] at h
  | hdir n l es ih =>
      intro path depth node h
      by_cases hf : a.maxDepth ≤ depth ∨ l = false
      · rw [analyzeNode_dir_fallback a path depth n l es hf] at h
        cases h
        rw [largeFileNodes_dir rfl]
        simp
      · have hd : depth < a.maxDepth := by
          by_contra hcon
          exact hf (Or.inl (not_lt.mp hcon))
        have hl : l = true := by
          cases l
          · exact absurd (Or.inr rfl) hf
          · rfl
        subst hl
        rw [analyzeNode_dir_expanded a path depth n es hd] at h
        cases h
        rw [largeFileNodes_dir rfl]
        simp only []
        have hp := sortSlice_perm (fun x y : DiskNode => decide (x.Size > y.Size))
          (attached a path depth es)
        rw [(hp.map _).sum_eq]
        have hc : ∀ c ∈ attached a path depth es, c.LargeFiles = (largeFileNodes c : Int) := by
          intro c hc
          obtain ⟨e0, he0, hat⟩ := mem_attached.mp hc
          obtain ⟨_, hrun, _⟩ := attachOne_some hat
          exact ih e0 he0 _ _ _ hrun
        rw [List.map_congr_left hc, Nat.cast_list_sum, List.map_map]
        rfl

/-! ## More on `GetDirSize` -/

theorem walkNames_getDirSizeFn_eq (es : List FsEntry) (path : Path) (s : Int × Int) :
    walkNames getDirSizeFn path es s =
      ((addAllInt64 s.1 ((filesBeneathList false es).map (fun n : Nat => (n : Int))),
        s.2 + ((filesBeneathList false es).length : Nat)), none) :=
  walkNames_getDirSizeFn es (fun e _ => walk_getDirSizeFn e) path s

theorem filesBeneathList_false_append (es1 es2 : List FsEntry) :
    filesBeneathList false (es1 ++ es2) =
      filesBeneathList false es1 ++ filesBeneathList false es2 := by
  induction es1 with
  | nil => simp [filesBeneathList]
  | cons e es ih => simp [filesBeneathList, ih]

/-- An entry that yields no reachable file can be left out of a directory without changing
what the loop of the walk computes. -/
theorem walkNames_skip (es1 es2 : List FsEntry) (bad : FsEntry)
    (hbad : filesBeneath false bad = []) (path : Path) (s : Int × Int) :
    walkNames getDirSizeFn path (es1 ++ bad :: es2) s =
      walkNames getDirSizeFn path (es1 ++ es2) s := by
  rw [walkNames_getDirSizeFn_eq, walkNames_getDirSizeFn_eq, filesBeneathList_false_append,
    filesBeneathList_false_append, filesBeneathList_false_cons, hbad]
  simp

theorem filesBeneath_eq_allFileSizes : ∀ e : FsEntry, allAccessible e = true →
    filesBeneath false e = allFileSizes e := by
  intro e
  induction e using fsEntry_induct with
  | hfile n size => intro _; simp [filesBeneath, allFileSizes]
  | hnoStat n => intro h; simp [allAccessible] at h
  | hdir n l es ih =>
      intro h
      simp only [allAccessible, Bool.and_eq_true] at h
      obtain ⟨hl, hes⟩ := h
      subst hl
      simp only [filesBeneath, allFileSizes, if_true]
      clear n
      induction es with
      | nil => simp [filesBeneathList, allFileSizesList]
      | cons e es ihl =>
          simp only [allAccessibleList, Bool.and_eq_true] at hes
          rw [filesBeneathList_false_cons, allFileSizesList,
            ih e (List.mem_cons_self _ _) hes.1,
            ihl (fun e1 he1 => ih e1 (List.mem_cons_of_mem _ he1)) hes.2]

/-! ## `SafeDelete` -/

theorem osStatAt_of_none {w : World} {path : Path} (h : w.fs path = none) :
    osStatAt w path = (none, some .notExist) := by
  simp [osStatAt, h]

theorem osStatAt_of_some {w : World} {path : Path} {e : FsEntry} {info : FileInfo}
    (h : w.fs path = some e) (hi : osStat e = .ok info) :
    osStatAt w path = (some info, none) := by
  simp [osStatAt, h, hi]

theorem osStat_error_eq {e : FsEntry} {err : FsError} (h : osStat e = .error err) :
    err = .statFailed := by
  cases e <;> simp [osStat] at h
  exact h.symm

theorem osStatAt_of_fault {w : World} {path : Path} {e : FsEntry} {err : FsError}
    (h : w.fs path = some e) (hi : osStat e = .error err) :
    osStatAt w path = (none, some .statFailed) := by
  have := osStat_error_eq hi
  subst this
  simp [osStatAt, h, hi]

theorem safeDeleteLoop_absent {w : World} {path : Path} (n : Nat) (lastErr : Option FsError)
    (h : w.fs path = none) : safeDeleteLoop path (n + 1) lastErr w = .ok (none, w) := by
  simp [safeDeleteLoop, osStatAt_of_none h, osIsNotExist]

theorem safeDeleteLoop_fault {w : World} {path : Path} {e : FsEntry} {err : FsError}
    (n : Nat) (lastErr : Option FsError) (h : w.fs path = some e)
    (hi : osStat e = .error err) :
    safeDeleteLoop path (n + 1) lastErr w = .error .nilDereference := by
  simp [safeDeleteLoop, osStatAt_of_fault h hi, osIsNotExist]

theorem removal_eq {w : World} {path : Path} {e : FsEntry} (info : FileInfo)
    (h : w.fs path = some e) :
    (if info.isDir then osRemoveAll w path else osRemove w path) =
      removeAttempt w (removalOp info path) path := by
  unfold removalOp
  split <;> simp [osRemoveAll, osRemove, h]

theorem safeDeleteLoop_present {w : World} {path : Path} {e : FsEntry} {info : FileInfo}
    (n : Nat) (lastErr : Option FsError) (h : w.fs path = some e) (hi : osStat e = .ok info) :
    safeDeleteLoop path (n + 1) lastErr w =
      if (removeAttempt w (removalOp info path) path).1 = none then
        .ok (none, (removeAttempt w (removalOp info path) path).2)
      else
        safeDeleteLoop path n (removeAttempt w (removalOp info path) path).1
          (removeAttempt w (removalOp info path) path).2 := by
  rw [safeDeleteLoop]
  simp only [osStatAt_of_some h hi, osIsNotExist, Bool.false_eq_true, if_false]
  rw [removal_eq info h]

theorem without_self (w : World) (path : Path) : w.without path path = none := by
  have h : path.isPrefixOf path = true := by
    rw [List.isPrefixOf_iff_prefix]
  simp [World.without, h]

theorem removeAttempt_fs (w : World) (op : FsOp) (path : Path) :
    (removeAttempt w op path).2.fs = w.fs ∨
      (removeAttempt w op path).2.fs = w.without path := by
  unfold removeAttempt
  split <;> simp

theorem removeAttempt_ok {w : World} {op : FsOp} {path : Path}
    (h : (removeAttempt w op path).1 = none) :
    (removeAttempt w op path).2.fs path = none := by
  unfold removeAttempt at h ⊢
  split at h
  · simp at h
  · simp [without_self]
  · simp [without_self]

theorem removeAttempt_fail {w : World} {op : FsOp} {path : Path} {err : FsError}
    {rest : List (Option FsError)} (h : w.outcomes = some err :: rest) :
    removeAttempt w op path =
      (some err, { w with outcomes := rest, log := w.log ++ [op] }) := by
  simp [removeAttempt, h]

theorem removeAttempt_success {w : World} {op : FsOp} {path : Path}
    {rest : List (Option FsError)} (h : w.outcomes = none :: rest) :
    removeAttempt w op path =
      (none, { fs := w.without path, outcomes := rest, log := w.log ++ [op] }) := by
  simp [removeAttempt, h]

/-- When the loop of `SafeDelete` returns nil after a failed attempt or with an iteration
still to run, the path does not exist in the state it leaves. -/
theorem safeDeleteLoop_nil_absent (path : Path) : ∀ (n : Nat) (lastErr : Option FsError)
    (w w1 : World), safeDeleteLoop path n lastErr w = .ok (none, w1) →
    (lastErr ≠ none ∨ 0 < n) → w1.fs path = none := by
  intro n
  induction n with
  | zero =>
      intro lastErr w w1 h hn
      simp only [safeDeleteLoop, Except.ok.injEq, Prod.mk.injEq] at h
      rcases hn with hn | hn
      · exact absurd h.1 hn
      · exact absurd hn (lt_irrefl 0)
  | succ n ih =>
      intro lastErr w w1 h _
      cases hfs : w.fs path with
      | none =>
          rw [safeDeleteLoop_absent n lastErr hfs] at h
          simp only [Except.ok.injEq, Prod.mk.injEq, true_and] at h
          rw [← h]
          exact hfs
      | some e =>
          cases hi : osStat e with
          | error err =>
              rw [safeDeleteLoop_fault n lastErr hfs hi] at h
              cases h
          | ok info =>
              rw [safeDeleteLoop_present n lastErr hfs hi] at h
              by_cases hr : (removeAttempt w (removalOp info path) path).1 = none
              · rw [if_pos hr] at h
                simp only [Except.ok.injEq, Prod.mk.injEq, true_and] at h
                rw [← h]
                exact removeAttempt_ok hr
              · rw [if_neg hr] at h
                exact ih _ _ _ h (Or.inl hr)

theorem safeDelete_absent (path : Path) (maxRetries : Int) (w : World)
    (h : w.fs path = none) : SafeDelete path maxRetries w = .ok (none, w) := by
  unfold SafeDelete
  cases maxRetries.toNat with
  | zero => rfl
  | succ n => exact safeDeleteLoop_absent n none h

theorem safeDelete_nil_absent (path : Path) (maxRetries : Int) (w w1 : World)
    (hm : 1 ≤ maxRetries) (h : SafeDelete path maxRetries w = .ok (none, w1)) :
    w1.fs path = none := by
  unfold SafeDelete at h
  refine safeDeleteLoop_nil_absent path _ none w w1 h (Or.inr ?_)
  omega

/-- The loop of `SafeDelete` when the next `errs.length` removal attempts fail and no more
iterations are left after them. -/
theorem safeDeleteLoop_all_fail (path : Path) (e : FsEntry) (info : FileInfo)
    (hi : osStat e = .ok info) : ∀ (errs : List FsError) (rest : List (Option FsError))
    (lastErr : Option FsError) (w : World), w.fs path = some e →
    w.outcomes = errs.map some ++ rest →
    safeDeleteLoop path errs.length lastErr w =
      .ok (errs.foldl (fun _ err => some err) lastErr,
        { w with outcomes := rest,
                 log := w.log ++ List.replicate errs.length (removalOp info path) }) := by
  intro errs
  induction errs with
  | nil =>
      intro rest lastErr w _ ho
      simp only [List.map_nil, List.nil_append] at ho
      simp [safeDeleteLoop, ← ho]
  | cons err errs ih =>
      intro rest lastErr w hfs ho
      simp only [List.map_cons, List.cons_append] at ho
      simp only [List.length_cons]
      rw [safeDeleteLoop_present errs.length lastErr hfs hi, removeAttempt_fail ho]
      simp only [reduceCtorEq, if_false]
      rw [ih rest (some err) ⟨w.fs, List.map some errs ++ rest, w.log ++ [removalOp info path]⟩
        hfs rfl]
      simp [List.replicate_succ]

/-- The loop of `SafeDelete` when the next `errs.length` removal attempts fail, the one
after them succeeds and enough iterations are left for it. -/
theorem safeDeleteLoop_first_success (path : Path) (e : FsEntry) (info : FileInfo)
    (hi : osStat e = .ok info) : ∀ (errs : List FsError) (rest : List (Option FsError))
    (n : Nat) (lastErr : Option FsError) (w : World), w.fs path = some e →
    w.outcomes = errs.map some ++ none :: rest → errs.length < n →
    safeDeleteLoop path n lastErr w =
      .ok (none,
        { fs := w.without path, outcomes := rest,
          log := w.log ++ List.replicate (errs.length + 1) (removalOp info path) }) := by
  intro errs
  induction errs with
  | nil =>
      intro rest n lastErr w hfs ho hn
      simp only [List.map_nil, List.nil_append] at ho
      obtain ⟨k, rfl⟩ : ∃ k, n = k + 1 := ⟨n - 1, by simp at hn; omega⟩
      rw [safeDeleteLoop_present k lastErr hfs hi, removeAttempt_success ho]
      simp
  | cons err errs ih =>
      intro rest n lastErr w hfs ho hn
      simp only [List.map_cons, List.cons_append] at ho
      simp only [List.length_cons] at hn
      obtain ⟨k, rfl⟩ : ∃ k, n = k + 1 := ⟨n - 1, by omega⟩
      rw [safeDeleteLoop_present k lastErr hfs hi, removeAttempt_fail ho]
      simp only [reduceCtorEq, if_false]
      rw [ih rest k (some err)
        ⟨w.fs, List.map some errs ++ none :: rest, w.log ++ [removalOp info path]⟩
        hfs rfl (by omega)]
      simp [List.replicate_succ]
      rfl

theorem foldl_last_error (errs : List FsError) (lastErr : Option FsError) (h : errs ≠ []) :
    errs.foldl (fun _ err => some err) lastErr = errs.getLast? := by
  induction errs generalizing lastErr with
  | nil => exact absurd rfl h
  | cons err errs ih =>
      cases errs with
      | nil => simp
      | cons err2 errs2 =>
          rw [List.foldl_cons, ih (some err) (by simp)]
          simp [List.getLast?_cons_cons]

/-! ## The cleanup manager -/

theorem statNeverFaults_removeAttempt {w : World} (op : FsOp) (path : Path)
    (h : statNeverFaults w) : statNeverFaults (removeAttempt w op path).2 := by
  intro p e hp
  rcases removeAttempt_fs w op path with hfs | hfs
  · rw [hfs] at hp
    exact h p e hp
  · rw [hfs] at hp
    unfold World.without at hp
    split at hp
    · cases hp
    · exact h p e hp

/-- In a state where no stat faults, the loop of `SafeDelete` returns, and no stat faults in
the state it leaves. -/
theorem safeDeleteLoop_returns (path : Path) : ∀ (n : Nat) (lastErr : Option FsError)
    (w : World), statNeverFaults w →
    ∃ err w1, safeDeleteLoop path n lastErr w = .ok (err, w1) ∧ statNeverFaults w1 := by
  intro n
  induction n with
  | zero =>
      intro lastErr w hw
      exact ⟨lastErr, w, rfl, hw⟩
  | succ n ih =>
      intro lastErr w hw
      cases hfs : w.fs path with
      | none => exact ⟨none, w, safeDeleteLoop_absent n lastErr hfs, hw⟩
      | some e =>
          obtain ⟨info, hi⟩ := hw path e hfs
          rw [safeDeleteLoop_present n lastErr hfs hi]
          by_cases hr : (removeAttempt w (removalOp info path) path).1 = none
          · rw [if_pos hr]
            exact ⟨none, _, rfl, statNeverFaults_removeAttempt _ path hw⟩
          · rw [if_neg hr]
            exact ih _ _ (statNeverFaults_removeAttempt _ path hw)

theorem cleanTarget_dryRun {cm : CleanupManager} (t : CleanupTarget) (w : World)
    (hd : cm.dryRun = true) :
    cleanTarget cm t w =
      .ok ({ Target := t, Success := true, SpaceFreed := t.Size, FilesRemoved := t.ItemCount,
             Error := none }, w) := by
  simp [cleanTarget, hd]

theorem cleanTarget_deleted {cm : CleanupManager} {t : CleanupTarget} {w w1 : World}
    (hd : cm.dryRun = false) (h : SafeDelete t.Path 3 w = .ok (none, w1)) :
    cleanTarget cm t w =
      .ok ({ Target := t, Success := true, SpaceFreed := t.Size, FilesRemoved := t.ItemCount,
             Error := none }, w1) := by
  simp [cleanTarget, hd, h]

theorem cleanTarget_failed {cm : CleanupManager} {t : CleanupTarget} {w w1 : World}
    {err : FsError} (hd : cm.dryRun = false) (h : SafeDelete t.Path 3 w = .ok (some err, w1)) :
    cleanTarget cm t w =
      .ok ({ Target := t, Success := false, SpaceFreed := 0, FilesRemoved := 0,
             Error := some err }, w1) := by
  simp [cleanTarget, hd, h]

theorem cleanTarget_fault {cm : CleanupManager} {t : CleanupTarget} {w : World} {p : Panic}
    (hd : cm.dryRun = false) (h : SafeDelete t.Path 3 w = .error p) :
    cleanTarget cm t w = .error p := by
  simp [cleanTarget, hd, h]

/-- The result `cleanTarget` returns is for the target it was given. -/
theorem cleanTarget_target {cm : CleanupManager} {t : CleanupTarget} {w w1 : World}
    {r : CleanupResult} (h : cleanTarget cm t w = .ok (r, w1)) : r.Target = t := by
  cases hd : cm.dryRun with
  | true =>
      rw [cleanTarget_dryRun t w hd] at h
      cases h
      rfl
  | false =>
      cases hs : SafeDelete t.Path 3 w with
      | error p =>
          rw [cleanTarget_fault hd hs] at h
          cases h
      | ok res =>
          obtain ⟨err, w2⟩ := res
          cases err with
          | none =>
              rw [cleanTarget_deleted hd hs] at h
              cases h
              rfl
          | some err =>
              rw [cleanTarget_failed hd hs] at h
              cases h
              rfl

/-- In dry-run mode, or in a state where no stat faults, `cleanTarget` returns. -/
theorem cleanTarget_returns (cm : CleanupManager) (t : CleanupTarget) (w : World)
    (h : cm.dryRun = true ∨ statNeverFaults w) :
    ∃ r w1, cleanTarget cm t w = .ok (r, w1) ∧ (cm.dryRun = true ∨ statNeverFaults w1) := by
  cases hd : cm.dryRun with
  | true => exact ⟨_, w, cleanTarget_dryRun t w hd, Or.inl rfl⟩
  | false =>
      have hw : statNeverFaults w := by
        rcases h with h | h
        · rw [hd] at h
          cases h
        · exact h
      obtain ⟨err, w1, hs, hw1⟩ := safeDeleteLoop_returns t.Path (3 : Int).toNat none w hw
      cases err with
      | none => exact ⟨_, w1, cleanTarget_deleted hd hs, Or.inr hw1⟩
      | some err => exact ⟨_, w1, cleanTarget_failed hd hs, Or.inr hw1⟩

theorem executeCleanupLoop_protected (cm : CleanupManager) {t : CleanupTarget}
    (rest : List CleanupTarget) (s : CleanupSummary) (w : World) (hp : t.Protected = true) :
    executeCleanupLoop cm (t :: rest) s w = executeCleanupLoop cm rest s w := by
  simp [executeCleanupLoop, hp]

theorem executeCleanupLoop_fault (cm : CleanupManager) {t : CleanupTarget}
    (rest : List CleanupTarget) (s : CleanupSummary) {w : World} {p : Panic}
    (hp : t.Protected = false) (hc : cleanTarget cm t w = .error p) :
    executeCleanupLoop cm (t :: rest) s w = .error p := by
  simp [executeCleanupLoop, hp, hc]

theorem executeCleanupLoop_success (cm : CleanupManager) {t : CleanupTarget}
    (rest : List CleanupTarget) (s : CleanupSummary) {w w1 : World} {r : CleanupResult}
    (hp : t.Protected = false) (hc : cleanTarget cm t w = .ok (r, w1))
    (hs : r.Success = true) :
    executeCleanupLoop cm (t :: rest) s w =
      executeCleanupLoop cm rest
        { s with
          Results := s.Results ++ [r]
          SuccessfulCleans := s.SuccessfulCleans + 1
          TotalSpaceFreed := wrapInt64 (s.TotalSpaceFreed + r.SpaceFreed)
          TotalFilesRemoved := wrapInt64 (s.TotalFilesRemoved + r.FilesRemoved) } w1 := by
  simp [executeCleanupLoop, hp, hc, hs]

theorem executeCleanupLoop_failure (cm : CleanupManager) {t : CleanupTarget}
    (rest : List CleanupTarget) (s : CleanupSummary) {w w1 : World} {r : CleanupResult}
    (hp : t.Protected = false) (hc : cleanTarget cm t w = .ok (r, w1))
    (hs : r.Success = false) :
    executeCleanupLoop cm (t :: rest) s w =
      executeCleanupLoop cm rest
        { s with Results := s.Results ++ [r], FailedCleans := s.FailedCleans + 1 } w1 := by
  simp [executeCleanupLoop, hp, hc, hs]

theorem nonProtected_cons_protected {t : CleanupTarget} (rest : List CleanupTarget)
    (hp : t.Protected = true) : nonProtected (t :: rest) = nonProtected rest := by
  simp [nonProtected, hp]

theorem nonProtected_cons {t : CleanupTarget} (rest : List CleanupTarget)
    (hp : t.Protected = false) : nonProtected (t :: rest) = t :: nonProtected rest := by
  simp [nonProtected, hp]

/-- What the loop of `ExecuteCleanup` does to the summary when it returns: it appends one
result for every target that is not protected, in order, and counts them. -/
theorem executeCleanupLoop_ok (cm : CleanupManager) : ∀ (ts : List CleanupTarget)
    (s : CleanupSummary) (w : World) (s1 : CleanupSummary) (w1 : World),
    executeCleanupLoop cm ts s w = .ok (s1, w1) →
    s1.TotalTargets = s.TotalTargets ∧
    ∃ R : List CleanupResult, s1.Results = s.Results ++ R ∧
      R.map (·.Target) = nonProtected ts ∧
      s1.SuccessfulCleans = s.SuccessfulCleans + (R.countP (·.Success) : Nat) ∧
      s1.FailedCleans = s.FailedCleans + (R.countP (fun r => !r.Success) : Nat) ∧
      s1.TotalSpaceFreed =
        addAllInt64 s.TotalSpaceFreed ((R.filter (·.Success)).map (·.SpaceFreed)) ∧
      s1.TotalFilesRemoved =
        addAllInt64 s.TotalFilesRemoved ((R.filter (·.Success)).map (·.FilesRemoved)) := by
  intro ts
  induction ts with
  | nil =>
      intro s w s1 w1 h
      simp only [executeCleanupLoop, Except.ok.injEq, Prod.mk.injEq] at h
      obtain ⟨rfl, _⟩ := h
      exact ⟨rfl, [], by simp [nonProtected, addAllInt64_nil]⟩
  | cons t ts ih =>
      intro s w s1 w1 h
      cases hp : t.Protected with
      | true =>
          rw [executeCleanupLoop_protected cm ts s w hp] at h
          rw [nonProtected_cons_protected ts hp]
          exact ih s w s1 w1 h
      | false =>
          cases hc : cleanTarget cm t w with
          | error p =>
              rw [executeCleanupLoop_fault cm ts s hp hc] at h
              cases h
          | ok res =>
              obtain ⟨r, w2⟩ := res
              have ht := cleanTarget_target hc
              rw [nonProtected_cons ts hp]
              cases hs : r.Success with
              | true =>
                  rw [executeCleanupLoop_success cm ts s hp hc hs] at h
                  obtain ⟨h1, R, h2, h3, h4, h5, h6, h7⟩ := ih _ _ _ _ h
                  refine ⟨h1, r :: R, ?_, ?_, ?_, ?_, ?_, ?_⟩
                  · simp [h2]
                  · simp [h3, ht]
                  · simp only [h4, List.countP_cons, hs, if_true]
                    push_cast
                    omega
                  · simp only [h5, List.countP_cons, hs]
                    simp
                  · simp only [h6, List.filter_cons, hs, if_true, List.map_cons,
                      addAllInt64_cons]
                  · simp only [h7, List.filter_cons, hs, if_true, List.map_cons,
                      addAllInt64_cons]
              | false =>
                  rw [executeCleanupLoop_failure cm ts s hp hc hs] at h
                  obtain ⟨h1, R, h2, h3, h4, h5, h6, h7⟩ := ih _ _ _ _ h
                  refine ⟨h1, r :: R, ?_, ?_, ?_, ?_, ?_, ?_⟩
                  · simp [h2]
                  · simp [h3, ht]
                  · simp only [h4, List.countP_cons, hs]
                    simp
                  · simp only [h5, List.countP_cons, hs]
                    push_cast
                    simp
                    omega
                  · simp only [h6, List.filter_cons, hs]
                    simp
                  · simp only [h7, List.filter_cons, hs]
                    simp

/-- In dry-run mode, or in a state where no stat faults, the loop of `ExecuteCleanup`
returns a summary. -/
theorem executeCleanupLoop_returns (cm : CleanupManager) : ∀ (ts : List CleanupTarget)
    (s : CleanupSummary) (w : World), (cm.dryRun = true ∨ statNeverFaults w) →
    ∃ s1 w1, executeCleanupLoop cm ts s w = .ok (s1, w1) := by
  intro ts
  induction ts with
  | nil =>
      intro s w _
      exact ⟨s, w, rfl⟩
  | cons t ts ih =>
      intro s w hw
      cases hp : t.Protected with
      | true =>
          rw [executeCleanupLoop_protected cm ts s w hp]
          exact ih s w hw
      | false =>
          obtain ⟨r, w2, hc, hw2⟩ := cleanTarget_returns cm t w hw
          cases hs : r.Success with
          | true =>
              rw [executeCleanupLoop_success cm ts s hp hc hs]
              exact ih _ _ hw2
          | false =>
              rw [executeCleanupLoop_failure cm ts s hp hc hs]
              exact ih _ _ hw2

/-- In dry-run mode the loop of `ExecuteCleanup` returns in the state it started in, with
one success counted for every target that is not protected. -/
theorem executeCleanupLoop_dryRun (cm : CleanupManager) (hd : cm.dryRun = true) :
    ∀ (ts : List CleanupTarget) (s : CleanupSummary) (w : World),
    ∃ s1, executeCleanupLoop cm ts s w = .ok (s1, w) ∧
      s1.SuccessfulCleans = s.SuccessfulCleans + ((nonProtected ts).length : Nat) ∧
      s1.FailedCleans = s.FailedCleans ∧
      s1.TotalSpaceFreed = addAllInt64 s.TotalSpaceFreed ((nonProtected ts).map (·.Size)) ∧
      s1.TotalFilesRemoved =
        addAllInt64 s.TotalFilesRemoved ((nonProtected ts).map (·.ItemCount)) := by
  intro ts
  induction ts with
  | nil =>
      intro s w
      exact ⟨s, rfl, by simp [nonProtected, addAllInt64_nil]⟩
  | cons t ts ih =>
      intro s w
      cases hp : t.Protected with
      | true =>
          rw [executeCleanupLoop_protected cm ts s w hp, nonProtected_cons_protected ts hp]
          exact ih s w
      | false =>
          rw [executeCleanupLoop_success cm ts s hp (cleanTarget_dryRun t w hd) rfl,
            nonProtected_cons ts hp]
          obtain ⟨s1, h1, h2, h3, h4, h5⟩ := ih
            { s with
              Results := s.Results ++ [{ Target := t, Success := true, SpaceFreed := t.Size,
                                         FilesRemoved := t.ItemCount, Error := none }]
              SuccessfulCleans := s.SuccessfulCleans + 1
              TotalSpaceFreed := wrapInt64 (s.TotalSpaceFreed + t.Size)
              TotalFilesRemoved := wrapInt64 (s.TotalFilesRemoved + t.ItemCount) } w
          refine ⟨s1, h1, ?_, h3, ?_, ?_⟩
          · rw [h2]
            simp only [List.length_cons]
            push_cast
            omega
          · rw [h4]
            simp only [List.map_cons, addAllInt64_cons]
          · rw [h5]
            simp only [List.map_cons, addAllInt64_cons]

theorem demoWorld_statNeverFaults (outcomes : List (Option FsError)) :
    statNeverFaults (demoWorld outcomes) := by
  intro p e h
  simp only [demoWorld, demoFs] at h
  split at h
  · cases h
    exact ⟨_, rfl⟩
  · split at h
    · cases h
      exact ⟨_, rfl⟩
    · cases h

/-! ## The queries on a built tree -/

theorem preorder_eq (n : DiskNode) : preorder n = n :: preorderList n.Children := by
  cases n
  simp [preorder]

theorem mem_preorderList {cs : List DiskNode} {x : DiskNode} :
    x ∈ preorderList cs ↔ ∃ c ∈ cs, x ∈ preorder c := by
  induction cs with
  | nil => simp [preorderList]
  | cons c cs ih => simp [preorderList, ih]

theorem filesAreLeaves_child {n c : DiskNode} (h : filesAreLeaves n = true)
    (hc : c ∈ n.Children) : filesAreLeaves c = true := by
  unfold filesAreLeaves at h ⊢
  rw [List.all_eq_true] at h ⊢
  intro x hx
  apply h
  rw [preorder_eq]
  exact List.mem_cons_of_mem _ (mem_preorderList.mpr ⟨c, hc, hx⟩)

theorem filesAreLeaves_self {n : DiskNode} (h : filesAreLeaves n = true)
    (hf : n.IsDirectory = false) : n.Children = [] := by
  unfold filesAreLeaves at h
  rw [List.all_eq_true] at h
  have := h n (by rw [preorder_eq]; exact List.mem_cons_self _ _)
  rw [hf] at this
  simpa using this

theorem collectFilesLoop_fileNodes (cs : List DiskNode)
    (ih : ∀ c ∈ cs, collectFiles c [] = fileNodes c) :
    collectFilesLoop cs [] = (preorderList cs).filter (fun n => !n.IsDirectory) := by
  induction cs with
  | nil => simp [collectFilesLoop, preorderList]
  | cons c cs ihl =>
      rw [collectFilesLoop, collectFilesLoop_append cs (fun c1 _ => collectFiles_append c1),
        ih c (List.mem_cons_self _ _), ihl (fun c1 hc1 => ih c1 (List.mem_cons_of_mem _ hc1)),
        preorderList, List.filter_append]
      rfl

/-- On a tree whose files have no children, `collectFiles` yields the non-directory nodes in
pre-order. -/
theorem collectFiles_fileNodes : ∀ n : DiskNode, filesAreLeaves n = true →
    collectFiles n [] = fileNodes n := by
  intro n
  induction n using diskNode_induct with
  | step n ih =>
      intro hwf
      rw [collectFiles_eq]
      unfold fileNodes
      rw [preorder_eq]
      cases hd : n.IsDirectory with
      | false =>
          rw [filesAreLeaves_self hwf hd]
          simp [preorderList, hd]
      | true =>
          simp only [Bool.not_true, Bool.false_eq_true, if_false]
          rw [collectFilesLoop_fileNodes n.Children
            (fun c hc => ih c hc (filesAreLeaves_child hwf hc))]
          simp [hd]

theorem collectFiles_only_files : ∀ (n : DiskNode), ∀ x ∈ collectFiles n [],
    x.IsDirectory = false := by
  intro n
  induction n using diskNode_induct with
  | step n ih =>
      intro x hx
      rw [collectFiles_eq] at hx
      cases hd : n.IsDirectory with
      | false =>
          simp [hd] at hx
          rw [hx]
          exact hd
      | true =>
          simp only [hd, Bool.not_true, Bool.false_eq_true, if_false] at hx
          have hl : ∀ (cs : List DiskNode), (∀ c ∈ cs, ∀ y ∈ collectFiles c [],
              y.IsDirectory = false) → ∀ y ∈ collectFilesLoop cs [], y.IsDirectory = false := by
            intro cs
            induction cs with
            | nil => intro _ y hy; simp [collectFilesLoop] at hy
            | cons c cs ihl =>
                intro hcs y hy
                rw [collectFilesLoop,
                  collectFilesLoop_append cs (fun c1 _ => collectFiles_append c1)] at hy
                rcases List.mem_append.mp hy with h1 | h1
                · exact hcs c (List.mem_cons_self _ _) y h1
                · exact ihl (fun c1 hc1 => hcs c1 (List.mem_cons_of_mem _ hc1)) y h1
          exact hl n.Children ih x hx

theorem preorder_eq_nodesAt : ∀ (n : DiskNode) (d : Int),
    (nodesAt d n).map (·.2) = preorder n := by
  intro n
  induction n using diskNode_induct with
  | step n ih =>
      intro d
      rw [nodesAt_eq, preorder_eq]
      simp only [List.map_cons, List.cons.injEq, true_and]
      have hl : ∀ (cs : List DiskNode), (∀ c ∈ cs, ∀ d1 : Int,
          (nodesAt d1 c).map (·.2) = preorder c) → ∀ d1 : Int,
          (nodesAtList d1 cs).map (·.2) = preorderList cs := by
        intro cs
        induction cs with
        | nil => intro _ d1; simp [nodesAtList, preorderList]
        | cons c cs ihl =>
            intro hcs d1
            rw [nodesAtList, preorderList, List.map_append, hcs c (List.mem_cons_self _ _),
              ihl (fun c1 hc1 => hcs c1 (List.mem_cons_of_mem _ hc1))]
      exact hl n.Children ih (d + 1)

/-- Every tree `analyzeNode` returns satisfies the invariant that files have no children. -/
theorem analyzeNode_filesAreLeaves (a : Analyzer) (path : Path) (depth : Int) (e : FsEntry)
    (root : DiskNode) (h : analyzeNode a path depth e = .ok root) :
    filesAreLeaves root = true := by
  unfold filesAreLeaves
  rw [List.all_eq_true]
  intro x hx
  rw [← preorder_eq_nodesAt root depth] at hx
  obtain ⟨y, hy, rfl⟩ := List.mem_map.mp hx
  obtain ⟨p1, e1, h1⟩ := nodesAt_generated_plain a e path depth root h y hy
  obtain ⟨yd, yn⟩ := y
  simp only [] at h1 ⊢
  cases e1 with
  | noStat n => simp [analyzeNode] at h1
  | file n size =>
      have := analyzeNode_file_isDirectory h1
      simp [this.1, this.2.1]
  | dir n l es =>
      have hdir : yn.IsDirectory = true := by
        by_cases hf : a.maxDepth ≤ yd ∨ l = false
        · rw [analyzeNode_dir_fallback a p1 yd n l es hf] at h1
          cases h1
          rfl
        · have hd : yd < a.maxDepth := by
            by_contra hcon
            exact hf (Or.inl (not_lt.mp hcon))
          have hl : l = true := by
            cases l
            · exact absurd (Or.inr rfl) hf
            · rfl
          subst hl
          rw [analyzeNode_dir_expanded a p1 yd n es hd] at h1
          cases h1
          rfl
      simp [hdir]

theorem sizeMapGet_addFiles (m : SizeMap) (l : List DiskNode) (k : Int) :
    sizeMapGet (addFiles m l) k =
      sizeMapGet m k ++ l.filter (fun n => !n.IsDirectory && decide (n.Size = k)) := by
  unfold sizeMapGet addFiles
  by_cases h : (l.filter (fun n => !n.IsDirectory && decide (n.Size = k))).isEmpty = true
  · rw [if_pos h]
    rw [List.isEmpty_iff] at h
    rw [h]
    simp
  · rw [if_neg h]
    simp [sizeMapGet]

theorem addFiles_nil (m : SizeMap) : addFiles m [] = m := by
  funext k
  simp [addFiles]

theorem addFiles_append (m : SizeMap) (l1 l2 : List DiskNode) :
    addFiles (addFiles m l1) l2 = addFiles m (l1 ++ l2) := by
  funext k
  show (if _ then addFiles m l1 k else some (sizeMapGet (addFiles m l1) k ++ _)) = _
  rw [sizeMapGet_addFiles]
  unfold addFiles
  simp only [List.filter_append, List.isEmpty_iff, List.append_eq_nil]
  by_cases h2 : l2.filter (fun n => !n.IsDirectory && decide (n.Size = k)) = []
  · by_cases h1 : l1.filter (fun n => !n.IsDirectory && decide (n.Size = k)) = []
    · simp [h1, h2]
    · simp [h1, h2]
  · simp [h2, List.append_assoc]

theorem sizeMapSet_eq_addFiles (m : SizeMap) (n : DiskNode) (hf : n.IsDirectory = false) :
    sizeMapSet m n.Size (sizeMapGet m n.Size ++ [n]) = addFiles m [n] := by
  funext k
  unfold sizeMapSet addFiles
  by_cases hk : k = n.Size
  · subst hk
    simp [hf]
  · have hk2 : ¬ n.Size = k := fun h => hk h.symm
    simp [hf, hk, hk2]

theorem addFiles_dir (m : SizeMap) (n : DiskNode) (hd : n.IsDirectory = true) :
    addFiles m [n] = m := by
  funext k
  simp [addFiles, hd]

theorem collectBySi_eq (n : DiskNode) (m : SizeMap) :
    collectBySi n m =
      collectBySiLoop n.Children
        (if !n.IsDirectory then sizeMapSet m n.Size (sizeMapGet m n.Size ++ [n]) else m) := by
  cases n
  simp [collectBySi]

/-- The closure `collectBySi` appends every non-directory node of the tree, in pre-order,
to the entry of its size. -/
theorem collectBySi_addFiles : ∀ (n : DiskNode) (m : SizeMap),
    collectBySi n m = addFiles m (preorder n) := by
  intro n
  induction n using diskNode_induct with
  | step n ih =>
      intro m
      have hl : ∀ (cs : List DiskNode), (∀ c ∈ cs, ∀ m1 : SizeMap,
          collectBySi c m1 = addFiles m1 (preorder c)) → ∀ m1 : SizeMap,
          collectBySiLoop cs m1 = addFiles m1 (preorderList cs) := by
        intro cs
        induction cs with
        | nil => intro _ m1; simp [collectBySiLoop, preorderList, addFiles_nil]
        | cons c cs ihl =>
            intro hcs m1
            rw [collectBySiLoop, hcs c (List.mem_cons_self _ _),
              ihl (fun c1 hc1 => hcs c1 (List.mem_cons_of_mem _ hc1)), addFiles_append,
              preorderList]
      rw [collectBySi_eq, hl n.Children ih, preorder_eq]
      have hcons : n :: preorderList n.Children = [n] ++ preorderList n.Children := rfl
      rw [hcons, ← addFiles_append]
      cases hd : n.IsDirectory with
      | false =>
          simp only [Bool.not_false, if_true]
          rw [sizeMapSet_eq_addFiles m n hd]
      | true =>
          simp only [Bool.not_true, Bool.false_eq_true, if_false]
          rw [addFiles_dir m n hd]

/-! ## `FormatBytes` -/

theorem formatBytesLoop_lt {n : Int} (div : Int) (exp : Nat) (h : n < 1024) :
    formatBytesLoop n div exp = (div, exp) := by
  rw [formatBytesLoop, if_neg (not_le.mpr h)]

theorem formatBytesLoop_ge {n : Int} (div : Int) (exp : Nat) (h : 1024 ≤ n) :
    formatBytesLoop n div exp = formatBytesLoop (n / 1024) (div * 1024) (exp + 1) := by
  rw [formatBytesLoop, if_pos h]

/-- Below `1024 ^ 5` the loop of `FormatBytes` raises `exp` by at most 4. -/
theorem formatBytesLoop_exp_le (n div : Int) (exp : Nat) (h : n < 1125899906842624) :
    (formatBytesLoop n div exp).2 ≤ exp + 4 := by
  by_cases h1 : n < 1024
  · rw [formatBytesLoop_lt _ _ h1]; simp
  rw [formatBytesLoop_ge _ _ (not_lt.mp h1)]
  by_cases h2 : n / 1024 < 1024
  · rw [formatBytesLoop_lt _ _ h2]; simp
  rw [formatBytesLoop_ge _ _ (not_lt.mp h2)]
  by_cases h3 : n / 1024 / 1024 < 1024
  · rw [formatBytesLoop_lt _ _ h3]; simp
  rw [formatBytesLoop_ge _ _ (not_lt.mp h3)]
  by_cases h4 : n / 1024 / 1024 / 1024 < 1024
  · rw [formatBytesLoop_lt _ _ h4]; simp
  rw [formatBytesLoop_ge _ _ (not_lt.mp h4)]
  have h5 : n / 1024 / 1024 / 1024 / 1024 < 1024 := by omega
  rw [formatBytesLoop_lt _ _ h5]

/-- From `1024 ^ 5` up to the quotients an `int64` argument can give, the loop of
`FormatBytes` raises `exp` by exactly 5. -/
theorem formatBytesLoop_exp_five (n div : Int) (exp : Nat) (h : 1125899906842624 ≤ n)
    (hmax : n < 9007199254740992) : (formatBytesLoop n div exp).2 = exp + 5 := by
  rw [formatBytesLoop_ge _ _ (by omega), formatBytesLoop_ge _ _ (by omega),
    formatBytesLoop_ge _ _ (by omega), formatBytesLoop_ge _ _ (by omega),
    formatBytesLoop_ge _ _ (by omega), formatBytesLoop_lt _ _ (by omega)]

/-- For `1024 ≤ b < 2 ^ 60` the index `FormatBytes` computes is at most 4 and the call
returns. -/
theorem formatBytes_below_EiB (b : Int) (h1 : 1024 ≤ b) (h2 : b < 1152921504606846976) :
    (formatBytesLoop (b / 1024) 1024 0).2 ≤ 4 ∧
      ∃ u, FormatBytes b = .ok (.scaled b (formatBytesLoop (b / 1024) 1024 0).1 u) := by
  have hle := formatBytesLoop_exp_le (b / 1024) 1024 0 (by omega)
  simp only [zero_add] at hle
  refine ⟨hle, ?_⟩
  unfold FormatBytes
  rw [if_neg (not_lt.mpr h1)]
  simp only []
  have hlt : (formatBytesLoop (b / 1024) 1024 0).2 < unitsTable.length := by
    simp only [unitsTable, List.length_cons, List.length_nil]
    omega
  rw [List.getElem?_eq_getElem hlt]
  exact ⟨_, rfl⟩

/-- For an `int64` argument from `2 ^ 60` on, the index `FormatBytes` computes is 5 and the
lookup in the five-entry table faults. -/
theorem formatBytes_from_EiB (b : Int) (h1 : 1152921504606846976 ≤ b)
    (h2 : b < 9223372036854775808) :
    (formatBytesLoop (b / 1024) 1024 0).2 = 5 ∧ FormatBytes b = .error .indexOutOfRange := by
  have h5 := formatBytesLoop_exp_five (b / 1024) 1024 0 (by omega) (by omega)
  simp only [zero_add] at h5
  refine ⟨h5, ?_⟩
  unfold FormatBytes
  rw [if_neg (by omega)]
  simp only [h5]
  rfl

theorem formatBytes_small (b : Int) (h0 : 0 ≤ b) (h1 : b < 1024) :
    FormatBytes b = .ok (.plain (Nat.repr b.toNat ++ " B")) := by
  unfold FormatBytes
  rw [if_pos h1]
  obtain ⟨m, rfl⟩ := Int.eq_ofNat_of_zero_le h0
  rfl

/-! ## `CleanDirectory` -/

theorem removeAttempt_fs_of_fail {w : World} {op : FsOp} {path : Path}
    (h : (removeAttempt w op path).1 ≠ none) : (removeAttempt w op path).2.fs = w.fs := by
  unfold removeAttempt at h ⊢
  split
  · rfl
  · simp [removeAttempt, *] at h
  · simp [removeAttempt, *] at h

theorem osStatAt_congr {w w1 : World} (path : Path) (h : w1.fs = w.fs) :
    osStatAt w1 path = osStatAt w path := by
  unfold osStatAt
  rw [h]

theorem osStatAt_ok {w : World} {path : Path} (h : (osStatAt w path).2 = none) :
    ∃ e info, w.fs path = some e ∧ osStat e = .ok info ∧ (osStatAt w path).1 = some info := by
  cases hfs : w.fs path with
  | none =>
      rw [osStatAt_of_none hfs] at h
      cases h
  | some e =>
      cases hi : osStat e with
      | error err =>
          rw [osStatAt_of_fault hfs hi] at h
          cases h
      | ok info =>
          refine ⟨e, info, rfl, hi, ?_⟩
          rw [osStatAt_of_some hfs hi]

/-- When the stat of the path succeeds, the loop of `SafeDelete` returns. -/
theorem safeDeleteLoop_returns_of_stat (path : Path) : ∀ (n : Nat) (lastErr : Option FsError)
    (w : World), (osStatAt w path).2 = none →
    ∃ err w1, safeDeleteLoop path n lastErr w = .ok (err, w1) := by
  intro n
  induction n with
  | zero =>
      intro lastErr w _
      exact ⟨lastErr, w, rfl⟩
  | succ n ih =>
      intro lastErr w h
      obtain ⟨e, info, hfs, hi, _⟩ := osStatAt_ok h
      rw [safeDeleteLoop_present n lastErr hfs hi]
      by_cases hr : (removeAttempt w (removalOp info path) path).1 = none
      · rw [if_pos hr]
        exact ⟨_, _, rfl⟩
      · rw [if_neg hr]
        apply ih
        rw [osStatAt_congr path (removeAttempt_fs_of_fail hr)]
        exact h

theorem cleanFileEntry_returns (fullPath : Path) (maxRetries : Int) (acc : Int × Int × Int)
    (w : World) : ∃ acc1 w1, cleanFileEntry fullPath maxRetries acc w = .ok (acc1, w1) := by
  unfold cleanFileEntry
  simp only []
  by_cases hs : (osStatAt w fullPath).2 ≠ none
  · rw [if_pos hs]
    exact ⟨_, _, rfl⟩
  · rw [if_neg hs]
    have hs2 : (osStatAt w fullPath).2 = none := not_not.mp hs
    obtain ⟨e, info, _, _, h3⟩ := osStatAt_ok hs2
    rw [h3]
    obtain ⟨err, w1, hsd⟩ := safeDeleteLoop_returns_of_stat fullPath maxRetries.toNat none w hs2
    have hsd2 : SafeDelete fullPath maxRetries w = .ok (err, w1) := hsd
    rw [hsd2]
    simp only []
    split
    · exact ⟨_, _, rfl⟩
    · exact ⟨_, _, rfl⟩

/-- The loop of `CleanDirectory` returns with a nil error when the calls on the entries
return. -/
theorem cleanDirectoryLoop_returns (maxRetries : Int) (es : List FsEntry)
    (ih : ∀ e ∈ es, ∀ (dirPath : Path) (w : World),
      ∃ r w1, CleanDirectory dirPath maxRetries e w = .ok (r, w1)) :
    ∀ (dirPath : Path) (acc : Int × Int × Int) (w : World),
      ∃ r w1, cleanDirectoryLoop dirPath maxRetries es acc w = .ok (r, w1) ∧
        r.2.2.2 = none := by
  induction es with
  | nil =>
      intro dirPath acc w
      exact ⟨_, _, by rw [cleanDirectoryLoop], rfl⟩
  | cons e es ihl =>
      intro dirPath acc w
      have ih2 := ihl (fun e1 he1 => ih e1 (List.mem_cons_of_mem _ he1))
      cases e with
      | dir n l sub =>
          obtain ⟨r, w1, hr⟩ := ih (.dir n l sub) (List.mem_cons_self _ _)
            (filepathJoin dirPath n) w
          rw [cleanDirectoryLoop, hr]
          exact ih2 _ _ _
      | file n size =>
          obtain ⟨acc1, w1, hr⟩ := cleanFileEntry_returns (filepathJoin dirPath n) maxRetries
            acc w
          rw [cleanDirectoryLoop, hr]
          exact ih2 _ _ _
      | noStat n =>
          obtain ⟨acc1, w1, hr⟩ := cleanFileEntry_returns (filepathJoin dirPath n) maxRetries
            acc w
          rw [cleanDirectoryLoop, hr]
          exact ih2 _ _ _

/-- The call `CleanDirectory` always returns; its error is non-nil exactly when the listing
of the directory itself fails, and then its three totals are zero. -/
theorem cleanDirectory_returns (maxRetries : Int) : ∀ (e : FsEntry) (dirPath : Path)
    (w : World), ∃ r w1, CleanDirectory dirPath maxRetries e w = .ok (r, w1) ∧
      (r.2.2.2 ≠ none ↔ ∃ x, osReadDir e = .error x) ∧
      (r.2.2.2 ≠ none → r.1 = 0 ∧ r.2.1 = 0 ∧ r.2.2.1 = 0) := by
  intro e
  induction e using fsEntry_induct with
  | hfile n size =>
      intro dirPath w
      exact ⟨_, _, by rw [CleanDirectory], by simp [osReadDir], fun _ => ⟨rfl, rfl, rfl⟩⟩
  | hnoStat n =>
      intro dirPath w
      exact ⟨_, _, by rw [CleanDirectory], by simp [osReadDir], fun _ => ⟨rfl, rfl, rfl⟩⟩
  | hdir n l es ih =>
      intro dirPath w
      cases l with
      | false =>
          exact ⟨_, _, by rw [CleanDirectory]; rfl, by simp [osReadDir],
            fun _ => ⟨rfl, rfl, rfl⟩⟩
      | true =>
          obtain ⟨r, w1, hr, hnil⟩ := cleanDirectoryLoop_returns maxRetries es
            (fun e he dp w0 => by
              obtain ⟨r0, w2, h0, _⟩ := ih e he dp w0
              exact ⟨r0, w2, h0⟩) dirPath (0, 0, 0) w
          refine ⟨r, w1, ?_, ?_, ?_⟩
          · rw [CleanDirectory]
            simpa using hr
          · simp [hnil, osReadDir]
          · intro hne
            exact absurd hnil hne

/-! ## The summary of a cleanup -/

theorem cleanTarget_failure_zero {cm : CleanupManager} {t : CleanupTarget} {w w1 : World}
    {r : CleanupResult} (h : cleanTarget cm t w = .ok (r, w1)) (hs : r.Success = false) :
    r.SpaceFreed = 0 ∧ r.FilesRemoved = 0 := by
  cases hd : cm.dryRun with
  | true =>
      rw [cleanTarget_dryRun t w hd] at h
      cases h
      cases hs
  | false =>
      cases hsd : SafeDelete t.Path 3 w with
      | error p =>
          rw [cleanTarget_fault hd hsd] at h
          cases h
      | ok res =>
          obtain ⟨err, w2⟩ := res
          cases err with
          | none =>
              rw [cleanTarget_deleted hd hsd] at h
              cases h
              cases hs
          | some err =>
              rw [cleanTarget_failed hd hsd] at h
              cases h
              exact ⟨rfl, rfl⟩

/-- What the loop of `ExecuteCleanup` adds to the counters of the summary, in terms of all
the results it appends. -/
theorem executeCleanupLoop_sums (cm : CleanupManager) : ∀ (ts : List CleanupTarget)
    (s : CleanupSummary) (w : World) (s1 : CleanupSummary) (w1 : World),
    executeCleanupLoop cm ts s w = .ok (s1, w1) →
    wrapInt64 s.TotalSpaceFreed = s.TotalSpaceFreed →
    wrapInt64 s.TotalFilesRemoved = s.TotalFilesRemoved →
    ∃ R : List CleanupResult, s1.Results = s.Results ++ R ∧
      s1.SuccessfulCleans = s.SuccessfulCleans + (R.countP (·.Success) : Nat) ∧
      s1.SuccessfulCleans + s1.FailedCleans =
        s.SuccessfulCleans + s.FailedCleans + (R.length : Nat) ∧
      s1.TotalSpaceFreed = wrapInt64 (s.TotalSpaceFreed + (R.map (·.SpaceFreed)).sum) ∧
      s1.TotalFilesRemoved = wrapInt64 (s.TotalFilesRemoved + (R.map (·.FilesRemoved)).sum) := by
  intro ts
  induction ts with
  | nil =>
      intro s w s1 w1 h hs1 hs2
      simp only [executeCleanupLoop, Except.ok.injEq, Prod.mk.injEq] at h
      obtain ⟨rfl, _⟩ := h
      exact ⟨[], by simp [hs1, hs2]⟩
  | cons t ts ih =>
      intro s w s1 w1 h hs1 hs2
      cases hp : t.Protected with
      | true =>
          rw [executeCleanupLoop_protected cm ts s w hp] at h
          exact ih s w s1 w1 h hs1 hs2
      | false =>
          cases hc : cleanTarget cm t w with
          | error p =>
              rw [executeCleanupLoop_fault cm ts s hp hc] at h
              cases h
          | ok res =>
              obtain ⟨r, w2⟩ := res
              cases hs : r.Success with
              | true =>
                  rw [executeCleanupLoop_success cm ts s hp hc hs] at h
                  obtain ⟨R, h2, h3, h4, h5, h6⟩ := ih _ _ _ _ h (wrapInt64_idem _)
                    (wrapInt64_idem _)
                  refine ⟨r :: R, ?_, ?_, ?_, ?_, ?_⟩
                  · simp [h2]
                  · simp only [h3, List.countP_cons, hs, if_true]
                    push_cast
                    omega
                  · simp only [h4, List.length_cons]
                    push_cast
                    omega
                  · simp only [h5, List.map_cons, List.sum_cons]
                    rw [wrapInt64_add_left, add_assoc]
                  · simp only [h6, List.map_cons, List.sum_cons]
                    rw [wrapInt64_add_left, add_assoc]
              | false =>
                  obtain ⟨hz1, hz2⟩ := cleanTarget_failure_zero hc hs
                  rw [executeCleanupLoop_failure cm ts s hp hc hs] at h
                  obtain ⟨R, h2, h3, h4, h5, h6⟩ := ih _ _ _ _ h hs1 hs2
                  refine ⟨r :: R, ?_, ?_, ?_, ?_, ?_⟩
                  · simp [h2]
                  · simp only [h3, List.countP_cons, hs]
                    simp
                  · simp only [h4, List.length_cons]
                    push_cast
                    omega
                  · simp only [h5, List.map_cons, List.sum_cons, hz1, zero_add]
                  · simp only [h6, List.map_cons, List.sum_cons, hz2, zero_add]

/-! ## The discovery of cleanup targets -/

theorem catalog_eq_table (paths : String → Path) :
    getTempTargets paths ++ getCacheTargets paths ++ getBrowserTargets paths ++
        getWindowsUpdateTargets paths ++ getLogTargets paths ++ getOtherTargets paths =
      catalogTable.map (rowEntry paths) := by
  simp [getTempTargets, getCacheTargets, getBrowserTargets, getWindowsUpdateTargets,
    getLogTargets, getOtherTargets, catalogTable, rowEntry, filepathJoinElems]

theorem mem_condAppend {p : Prop} [Decidable p] {l g : List CleanupTarget}
    {c : CleanupTarget} (h : c ∈ (if p then l ++ g else l)) : c ∈ l ∨ c ∈ g := by
  split at h
  · exact List.mem_append.mp h
  · exact Or.inl h

/-- Every entry `DiscoverTargets` selects is an entry of the catalog. -/
theorem mem_discoverCandidates {paths : String → Path} {categories : List String}
    {c : CleanupTarget} (h : c ∈ discoverCandidates paths categories) :
    ∃ row ∈ catalogTable, c = rowEntry paths row := by
  have hall : c ∈ getTempTargets paths ++ getCacheTargets paths ++ getBrowserTargets paths ++
      getWindowsUpdateTargets paths ++ getLogTargets paths ++ getOtherTargets paths := by
    unfold discoverCandidates at h
    simp only [List.mem_append]
    rcases List.mem_append.mp h with h | h
    · rcases mem_condAppend h with h | h
      · rcases mem_condAppend h with h | h
        · rcases mem_condAppend h with h | h
          · rcases mem_condAppend h with h | h
            · rcases mem_condAppend h with h | h
              · cases h
              · tauto
            · tauto
          · tauto
        · tauto
      · tauto
    · tauto
  rw [catalog_eq_table] at hall
  obtain ⟨row, hrow, rfl⟩ := List.mem_map.mp hall
  exact ⟨row, hrow, rfl⟩

/-- The entries of the group `getOtherTargets` are selected whatever the filter is. -/
theorem otherTargets_always_selected (paths : String → Path) (categories : List String) :
    ∀ c ∈ getOtherTargets paths, c ∈ discoverCandidates paths categories := by
  intro c hc
  unfold discoverCandidates
  exact List.mem_append.mpr (Or.inr hc)

theorem measureTarget_of_exists {cm : CleanupManager} {w : World} {c : CleanupTarget}
    (h : PathExists w c.Path = true) : measureTarget cm w c = measured cm w c := by
  simp [measureTarget, measured, h]

theorem measureTarget_of_missing {cm : CleanupManager} {w : World} {c : CleanupTarget}
    (h : PathExists w c.Path = false) : measureTarget cm w c = c := by
  simp [measureTarget, h]

theorem measureTarget_name_path (cm : CleanupManager) (w : World) (c : CleanupTarget) :
    (measureTarget cm w c).Name = c.Name ∧ (measureTarget cm w c).Path = c.Path := by
  unfold measureTarget
  split <;> exact ⟨rfl, rfl⟩

/-- A catalog entry passes the final filter of `DiscoverTargets` exactly when its path
exists and `GetDirSize` gives it a positive size. -/
theorem measureTarget_size_pos (cm : CleanupManager) (w : World) (c : CleanupTarget)
    (h0 : c.Size = 0) :
    decide ((measureTarget cm w c).Size > 0) =
      (PathExists w c.Path && decide ((GetDirSizeAt w c.Path).1 > 0)) := by
  cases hp : PathExists w c.Path with
  | true =>
      rw [measureTarget_of_exists hp]
      simp [measured]
  | false =>
      rw [measureTarget_of_missing hp, h0]
      simp

theorem discoverTargets_eq (cm : CleanupManager) (getenv : String → Path) (w : World)
    (categories : List String) :
    (DiscoverTargets cm getenv w categories).1 =
      ((discoverCandidates (GetSystemPaths getenv) categories).filter
        (fun c => PathExists w c.Path && decide ((GetDirSizeAt w c.Path).1 > 0))).map
        (measured cm w) := by
  unfold DiscoverTargets
  simp only []
  rw [List.filter_map]
  have hf : (discoverCandidates (GetSystemPaths getenv) categories).filter
      ((fun target => decide (target.Size > 0)) ∘ measureTarget cm w) =
      (discoverCandidates (GetSystemPaths getenv) categories).filter
        (fun c => PathExists w c.Path && decide ((GetDirSizeAt w c.Path).1 > 0)) := by
    apply List.filter_congr
    intro c hc
    obtain ⟨row, _, rfl⟩ := mem_discoverCandidates hc
    exact measureTarget_size_pos cm w _ rfl
  rw [hf]
  apply List.map_congr_left
  intro c hc
  have hc2 := (List.mem_filter.mp hc).2
  rw [Bool.and_eq_true] at hc2
  exact measureTarget_of_exists hc2.1

theorem getSystemPaths_of_row {getenv : String → Path}
    {row : String × String × List String × String × String} (h : row ∈ catalogTable) :
    GetSystemPaths getenv row.2.1 = getenv row.2.1 := by
  simp only [catalogTable, List.mem_cons, List.mem_singleton, List.not_mem_nil, or_false] at h
  rcases h with h | h | h | h | h | h | h | h | h | h | h | h | h | h | h | h | h | h <;>
    subst h <;> rfl

theorem pathExists_nil {w : World} (h : w.fs [] = none) : PathExists w [] = false := by
  simp [PathExists, osStatAt, h]

/-! ## Where the nodes of a survey come from -/

theorem analyzeNode_path {a : Analyzer} {path : Path} {depth : Int} {e : FsEntry}
    {node : DiskNode} (h : analyzeNode a path depth e = .ok node) : node.Path = path := by
  cases e with
  | noStat n => simp [analyzeNode] at h
  | file n size =>
      simp only [analyzeNode] at h
      cases h
      split <;> rfl
  | dir n l es =>
      by_cases hf : a.maxDepth ≤ depth ∨ l = false
      · rw [analyzeNode_dir_fallback a path depth n l es hf] at h
        cases h
        rfl
      · have hd : depth < a.maxDepth := by
          by_contra hcon
          exact hf (Or.inl (not_lt.mp hcon))
        have hl : l = true := by
          cases l
          · exact absurd (Or.inr rfl) hf
          · rfl
        subst hl
        rw [analyzeNode_dir_expanded a path depth n es hd] at h
        cases h
        rfl

theorem mem_entriesBelow_self (skip : Bool) (e : FsEntry) : ([], e) ∈ entriesBelow skip e := by
  cases e <;> simp [entriesBelow]

theorem mem_entriesBelowList {skip : Bool} {es : List FsEntry} {e0 : FsEntry}
    {q : List String × FsEntry} (he0 : e0 ∈ es)
    (hv : (skip && stringsHasPrefix e0.name ".") = false) (hq : q ∈ entriesBelow skip e0) :
    (e0.name :: q.1, q.2) ∈ entriesBelowList skip es := by
  induction es with
  | nil => cases he0
  | cons x xs ih =>
      rw [entriesBelowList]
      rcases List.mem_cons.mp he0 with rfl | h1
      · rw [hv]
        apply List.mem_append_left
        simp only [Bool.false_eq_true, if_false]
        exact List.mem_map.mpr ⟨q, hq, rfl⟩
      · exact List.mem_append_right _ (ih h1)

/-- Every node of a returned tree is the result of the call of `analyzeNode` on an entry the
survey reaches from the surveyed entry, at the path made of the surveyed path and the names
that lead to that entry, and at the depth the node has in the tree. -/
theorem nodesAt_located (a : Analyzer) : ∀ (e : FsEntry) (path : Path) (depth : Int)
    (root : DiskNode), analyzeNode a path depth e = .ok root →
    ∀ x ∈ nodesAt depth root, ∃ q ∈ entriesBelow (!a.showHidden) e,
      analyzeNode a (path ++ q.1) x.1 q.2 = .ok x.2 ∧
      x.1 + (height q.2 : Int) ≤ depth + (height e : Int) ∧
      (allFileSizes q.2).sum ≤ (allFileSizes e).sum := by
  intro e
  induction e using fsEntry_induct with
  | hfile n s =>
      intro path depth root h x hx
      have hc : root.Children = [] := (analyzeNode_file_isDirectory h).2.1
      rw [nodesAt_eq, hc] at hx
      simp [nodesAtList] at hx
      subst hx
      exact ⟨([], .file n s), mem_entriesBelow_self _ _, by simpa using h, le_refl _, le_refl _⟩
  | hnoStat n =>
      intro path depth root h
      simp [analyzeNode] at h
  | hdir n l es ih =>
      intro path depth root h x hx
      rw [nodesAt_eq] at hx
      rcases List.mem_cons.mp hx with rfl | hx1
      · exact ⟨([], .dir n l es), mem_entriesBelow_self _ _, by simpa using h, le_refl _,
          le_refl _⟩
      · by_cases hf : a.maxDepth ≤ depth ∨ l = false
        · rw [analyzeNode_dir_fallback a path depth n l es hf] at h
          cases h
          simp [nodesAtList] at hx1
        · have hd : depth < a.maxDepth := by
            by_contra hcon
            exact hf (Or.inl (not_lt.mp hcon))
          have hl : l = true := by
            cases l
            · exact absurd (Or.inr rfl) hf
            · rfl
          subst hl
          rw [analyzeNode_dir_expanded a path depth n es hd] at h
          cases h
          simp only [] at hx1
          obtain ⟨c, hc, hxc⟩ := mem_nodesAtList.mp hx1
          rw [mem_sortSlice] at hc
          obtain ⟨e0, he0, hat⟩ := mem_attached.mp hc
          obtain ⟨hvis, hrun, _⟩ := attachOne_some hat
          obtain ⟨q, hq, h1, h2, h3⟩ := ih e0 he0 _ _ _ hrun x hxc
          refine ⟨(e0.name :: q.1, q.2), ?_, ?_, ?_, ?_⟩
          · simp only [entriesBelow, if_true]
            exact List.mem_cons_of_mem _ (mem_entriesBelowList he0 hvis hq)
          · have hp : path ++ (e0.name :: q.1) = filepathJoin path e0.name ++ q.1 := by
              simp [filepathJoin]
            simp only []
            rw [hp]
            exact h1
          · have h4 := height_le_heightList he0
            simp only [height]
            push_cast
            omega
          · have h4 := allFileSizes_mem_le he0
            simp only [allFileSizes]
            omega

/-! ## Large files beneath an entry -/

theorem largeFilesBeneath_dir (skip : Bool) (n : String) (es : List FsEntry) :
    largeFilesBeneath skip (.dir n true es) =
      (filesBeneathList skip es).countP (fun size => decide (size > 104857600)) := by
  simp [largeFilesBeneath, filesBeneath]

theorem attached_largeFiles (a : Analyzer) (hm : a.minSize ≤ 104857601) (path : Path)
    (depth : Int) (es : List FsEntry)
    (ih : ∀ e0 ∈ es, (!a.showHidden && stringsHasPrefix e0.name ".") = false → ∀ c,
      analyzeNode a (filepathJoin path e0.name) (depth + 1) e0 = .ok c →
      c.LargeFiles = (largeFilesBeneath (!a.showHidden) e0 : Nat) ∧
        (0 < largeFilesBeneath (!a.showHidden) e0 → c.Size > 104857600) ∧ 0 ≤ c.Size) :
    ((attached a path depth es).map (·.LargeFiles)).sum =
        ((filesBeneathList (!a.showHidden) es).countP
          (fun size => decide (size > 104857600)) : Nat) ∧
      (0 < (filesBeneathList (!a.showHidden) es).countP
          (fun size => decide (size > 104857600)) →
        ((attached a path depth es).map (·.Size)).sum > 104857600) ∧
      0 ≤ ((attached a path depth es).map (·.Size)).sum := by
  induction es with
  | nil => simp [attached, filesBeneathList]
  | cons e es ihl =>
      have h1 := ihl (fun e1 he1 => ih e1 (List.mem_cons_of_mem _ he1))
      rw [filesBeneathList]
      by_cases hh : (!a.showHidden && stringsHasPrefix e.name ".") = true
      · have h2 : attachOne a path depth e = none := by simp [attachOne, hh]
        rw [attached_cons_none es h2, if_pos hh]
        simpa using h1
      · rw [if_neg hh]
        cases hr : analyzeNode a (filepathJoin path e.name) (depth + 1) e with
        | error err =>
            have h2 : attachOne a path depth e = none := by simp [attachOne, hh, hr]
            rw [attached_cons_none es h2, analyzeNode_error_filesBeneath _ hr]
            simpa using h1
        | ok c =>
            obtain ⟨h3, h4, h5⟩ := ih e (List.mem_cons_self _ _) (by simpa using hh) c hr
            unfold largeFilesBeneath at h3 h4
            rw [List.countP_append]
            by_cases hs : c.Size ≥ a.minSize
            · have h2 : attachOne a path depth e = some c := by simp [attachOne, hh, hr, hs]
              rw [attached_cons_some es h2]
              simp only [List.map_cons, List.sum_cons]
              refine ⟨?_, ?_, ?_⟩
              · rw [h1.1, h3]
                push_cast
                rfl
              · intro hpos
                by_cases hc0 : 0 < (filesBeneath (!a.showHidden) e).countP
                    (fun size => decide (size > 104857600))
                · have := h4 hc0
                  have := h1.2.2
                  omega
                · have := h1.2.1 (by omega)
                  omega
              · have := h1.2.2
                omega
            · have h2 : attachOne a path depth e = none := by simp [attachOne, hh, hr, hs]
              rw [attached_cons_none es h2]
              have hz : (filesBeneath (!a.showHidden) e).countP
                  (fun size => decide (size > 104857600)) = 0 := by
                by_contra hne
                have := h4 (Nat.pos_of_ne_zero hne)
                omega
              rw [hz]
              simpa using h1

/-- With `minSize` at most one byte above 100 MiB, no directory cut off at the depth limit
beneath the entry and files that total less than `2 ^ 63` bytes, the `LargeFiles` of the node
returned for an entry is the number of files above 100 MiB the survey reaches beneath it. -/
theorem analyzeNode_largeFiles_beneath (a : Analyzer) (hm : a.minSize ≤ 104857601) :
    ∀ (e : FsEntry) (path : Path) (depth : Int) (node : DiskNode),
      analyzeNode a path depth e = .ok node →
      depth + (height e : Int) ≤ a.maxDepth →
      (allFileSizes e).sum < 9223372036854775808 →
      node.LargeFiles = (largeFilesBeneath (!a.showHidden) e : Nat) ∧
        (0 < largeFilesBeneath (!a.showHidden) e → node.Size > 104857600) := by
  intro e
  induction e using fsEntry_induct with
  | hfile n size =>
      intro path depth node h _ _
      simp only [analyzeNode] at h
      cases h
      by_cases hs : (size : Int) > 100 * 1024 * 1024
      · have hs2 : size > 104857600 := by omega
        simp [newNode, hs, largeFilesBeneath, filesBeneath, hs2]
      · have hs2 : ¬ size > 104857600 := by omega
        simp [newNode, hs, largeFilesBeneath, filesBeneath, hs2]
  | hnoStat n =>
      intro path depth node h
      simp [analyzeNode] at h
  | hdir n l es ih =>
      intro path depth node h hb hsz
      have hd : depth < a.maxDepth := by
        simp only [height] at hb
        push_cast at hb
        omega
      cases l with
      | false =>
          rw [analyzeNode_dir_fallback a path depth n false es (Or.inr rfl)] at h
          cases h
          simp [largeFilesBeneath, filesBeneath]
      | true =>
          rw [analyzeNode_dir_expanded a path depth n es hd] at h
          cases h
          rw [largeFilesBeneath_dir]
          simp only [allFileSizes] at hsz
          have hat := attached_largeFiles a hm path depth es (fun e0 he0 _ c hc => by
            have hle := allFileSizes_mem_le he0
            have h3 := height_le_heightList he0
            have hr := analyzeNode_size_range a e0 _ _ c hc (by omega)
            obtain ⟨h1, h2⟩ := ih e0 he0 _ _ c hc (by
              simp only [height] at hb
              push_cast at hb
              omega) (by omega)
            exact ⟨h1, h2, hr.1⟩)
          have hbd := attached_sizes_bounds a path depth es (fun e0 he0 c hc => by
            have hle := allFileSizes_mem_le he0
            obtain ⟨h1, h2, _⟩ := analyzeNode_size_range a e0 _ _ c hc (by omega)
            exact ⟨h1, h2⟩)
          refine ⟨hat.1, ?_⟩
          intro hpos
          have hex : sumInt64 ((attached a path depth es).map (·.Size)) =
              ((attached a path depth es).map (·.Size)).sum :=
            sumInt64_of_inRange (by omega) (by omega)
          simp only []
          rw [hex]
          exact hat.2.1 hpos

/-- A directory node comes from a directory entry, which has at least one directory level:
when the levels beneath the depth of the node fit under `maxDepth`, the node is above the
depth limit. -/
theorem dir_node_above_limit {a : Analyzer} {path : Path} {depth : Int} {e : FsEntry}
    {node : DiskNode} (h : analyzeNode a path depth e = .ok node)
    (hdir : node.IsDirectory = true) (hh : depth + (height e : Int) ≤ a.maxDepth) :
    depth < a.maxDepth := by
  cases e with
  | noStat n => simp [analyzeNode] at h
  | file n size =>
      have := (analyzeNode_file_isDirectory h).1
      rw [this] at hdir
      cases hdir
  | dir n l es =>
      simp only [height] at hh
      push_cast at hh
      omega

theorem discoverCandidates_nil (paths : String → Path) :
    discoverCandidates paths [] = catalogTable.map (rowEntry paths) := by
  rw [← catalog_eq_table]
  simp [discoverCandidates]

theorem measured_path (cm : CleanupManager) (w : World) (c : CleanupTarget) :
    (measured cm w c).Path = c.Path := rfl

/-! ## The claims -/

/-- C1. In the tree `AnalyzePath` returns, every directory node at a depth below `maxDepth`
(an expanded directory; also one whose listing failed, which has no children and size 0) has
`Size` equal to the sum of the `Size` of the nodes in its `Children` list: the sum as the
`int64` additions of the program give it, on every tree, and the exact sum when the files of
the surveyed tree total less than `2 ^ 63` bytes. In particular, when `maxDepth` is at least
the number of directory levels of the filesystem tree (so when it is greater than the height
of the tree), this holds for every directory node of the returned tree, whatever `minSize`
is. -/
theorem expanded_dir_size_is_children_sum (a : Analyzer) (path : Path) (e : FsEntry)
    (root : DiskNode) (h : AnalyzePath a path e = .ok root) :
    (∀ x ∈ nodesAt 0 root, x.2.IsDirectory = true → x.1 < a.maxDepth →
        x.2.Size = sumInt64 (x.2.Children.map (·.Size))) ∧
    ((height e : Int) ≤ a.maxDepth →
      ∀ x ∈ nodesAt 0 root, x.2.IsDirectory = true →
        x.2.Size = sumInt64 (x.2.Children.map (·.Size))) ∧
    ((allFileSizes e).sum < 9223372036854775808 →
      (∀ x ∈ nodesAt 0 root, x.2.IsDirectory = true → x.1 < a.maxDepth →
        x.2.Size = (x.2.Children.map (·.Size)).sum) ∧
      ((height e : Int) ≤ a.maxDepth →
        ∀ x ∈ nodesAt 0 root, x.2.IsDirectory = true →
          x.2.Size = (x.2.Children.map (·.Size)).sum)) := by
  refine ⟨?_, ?_, ?_⟩
  · intro x hx hdir hd
    obtain ⟨p1, e1, h1⟩ := nodesAt_generated_plain a e path 0 root h x hx
    exact (analyzeNode_totals h1 hdir hd).1
  · intro hh x hx hdir
    obtain ⟨q, _, h1, h2, _⟩ := nodesAt_located a e path 0 root h x hx
    exact (analyzeNode_totals h1 hdir (dir_node_above_limit h1 hdir (by omega))).1
  · intro hb
    constructor
    · intro x hx hdir hd
      obtain ⟨q, _, h1, _, h3⟩ := nodesAt_located a e path 0 root h x hx
      exact (analyzeNode_size_range a q.2 _ _ x.2 h1 (by omega)).2.2 hdir hd
    · intro hh x hx hdir
      obtain ⟨q, _, h1, h2, h3⟩ := nodesAt_located a e path 0 root h x hx
      exact (analyzeNode_size_range a q.2 _ _ x.2 h1 (by omega)).2.2 hdir
        (dir_node_above_limit h1 hdir (by omega))

theorem mem_nodesAt_self (d : Int) (n : DiskNode) : (d, n) ∈ nodesAt d n := by
  rw [nodesAt_eq]
  exact List.mem_cons_self _ _

theorem expanded_dir_size_is_children_sum_witness :
    AnalyzePath scenarioCfg ["R"] scenarioFs = .ok scenarioTree ∧
    (height scenarioFs : Int) ≤ scenarioCfg.maxDepth ∧
    (allFileSizes scenarioFs).sum < 9223372036854775808 ∧
    ((0 : Int), scenarioTree) ∈ nodesAt 0 scenarioTree ∧
    scenarioTree.IsDirectory = true ∧
    scenarioTree.Size = sumInt64 (scenarioTree.Children.map (·.Size)) ∧
    scenarioTree.Size = (scenarioTree.Children.map (·.Size)).sum :=
  ⟨scenario_survey, by decide, by decide, mem_nodesAt_self 0 scenarioTree, rfl,
    (expanded_dir_size_is_children_sum scenarioCfg ["R"] scenarioFs scenarioTree
      scenario_survey).2.1 (by decide) (0, scenarioTree) (mem_nodesAt_self 0 scenarioTree) rfl,
    ((expanded_dir_size_is_children_sum scenarioCfg ["R"] scenarioFs scenarioTree
      scenario_survey).2.2 (by decide)).2 (by decide) (0, scenarioTree)
      (mem_nodesAt_self 0 scenarioTree) rfl⟩

/-- C2. In a survey in which no visited directory is cut off at the depth limit or
unlistable, the `ItemCount` of every node of the returned tree is the number of
non-directory nodes of that node's subtree: the length of the list `collectFiles` builds for
the node. Directories are never counted. -/
theorem itemCount_is_collectFiles_length (a : Analyzer) (path : Path) (e : FsEntry)
    (root : DiskNode) (h : AnalyzePath a path e = .ok root)
    (hfull : expandsFully a 0 e = true) :
    ∀ x ∈ nodesAt 0 root, x.2.ItemCount = ((collectFiles x.2 []).length : Int) := by
  intro x hx
  obtain ⟨p1, e1, h1, h2⟩ := nodesAt_generated a (fun d e1 => expandsFully a d e1 = true)
    (fun d n es e0 hr _ he0 hv => by
      simp only [expandsFully, Bool.and_eq_true] at hr
      exact expandsFullyList_mem hr.2 he0 hv)
    e path 0 root h hfull x hx
  exact analyzeNode_itemCount a e1 p1 x.1 x.2 h1 h2

theorem itemCount_is_collectFiles_length_witness :
    AnalyzePath scenarioCfg ["R"] scenarioFs = .ok scenarioTree ∧
    expandsFully scenarioCfg 0 scenarioFs = true ∧
    ((0 : Int), scenarioTree) ∈ nodesAt 0 scenarioTree ∧
    scenarioTree.ItemCount = ((collectFiles scenarioTree []).length : Int) :=
  ⟨scenario_survey, by decide, mem_nodesAt_self 0 scenarioTree,
    itemCount_is_collectFiles_length scenarioCfg ["R"] scenarioFs scenarioTree scenario_survey
      (by decide) (0, scenarioTree) (mem_nodesAt_self 0 scenarioTree)⟩

/-- C3. With `minSize = M`, every node in a `Children` list of the returned tree has
`Size ≥ M`; the totals of every directory node that was not cut off at the depth limit are
the sums over its attached children only (for `Size` the sum as the `int64` additions give
it, which is the exact sum when the files of the surveyed tree total less than `2 ^ 63`
bytes); and in the loop of `analyzeNode` a child whose computed `Size` is below `M` leaves the
parent exactly as it was, so it adds nothing to the parent's `Size`, `ItemCount` or
`LargeFiles`. -/
theorem minSize_filter_is_lossy (a : Analyzer) (path : Path) (e : FsEntry)
    (root : DiskNode) (h : AnalyzePath a path e = .ok root) :
    (∀ x ∈ nodesAt 0 root, ∀ c ∈ x.2.Children, c.Size ≥ a.minSize) ∧
    (∀ x ∈ nodesAt 0 root, x.2.IsDirectory = true → x.1 < a.maxDepth →
        x.2.Size = sumInt64 (x.2.Children.map (·.Size)) ∧
        x.2.ItemCount = (x.2.Children.map (·.ItemCount)).sum ∧
        x.2.LargeFiles = (x.2.Children.map (·.LargeFiles)).sum) ∧
    ((allFileSizes e).sum < 9223372036854775808 →
      ∀ x ∈ nodesAt 0 root, x.2.IsDirectory = true → x.1 < a.maxDepth →
        x.2.Size = (x.2.Children.map (·.Size)).sum) ∧
    (∀ (p : Path) (d : Int) (e0 : FsEntry) (es : List FsEntry) (parent c : DiskNode),
        analyzeNode a (filepathJoin p e0.name) (d + 1) e0 = .ok c → c.Size < a.minSize →
        analyzeEntries a p d (e0 :: es) parent = analyzeEntries a p d es parent) := by
  refine ⟨?_, ?_, ?_, ?_⟩
  · intro x hx c hc
    obtain ⟨p1, e1, h1⟩ := nodesAt_generated_plain a e path 0 root h x hx
    obtain ⟨e0, _, _, h3⟩ := analyzeNode_children h1 c hc
    exact h3
  · intro x hx hdir hd
    obtain ⟨p1, e1, h1⟩ := nodesAt_generated_plain a e path 0 root h x hx
    exact analyzeNode_totals h1 hdir hd
  · intro hb x hx hdir hd
    obtain ⟨q, _, h1, _, h3⟩ := nodesAt_located a e path 0 root h x hx
    exact (analyzeNode_size_range a q.2 _ _ x.2 h1 (by omega)).2.2 hdir hd
  · intro p d e0 es parent c hc hlt
    rw [analyzeEntries]
    by_cases hh : (!a.showHidden && stringsHasPrefix e0.name ".") = true
    · rw [if_pos hh]
    · rw [if_neg hh, hc]
      simp only []
      rw [if_neg (not_le.mpr hlt)]

theorem minSize_filter_is_lossy_witness :
    AnalyzePath scenarioCfgMin15 ["R"] scenarioFs = .ok scenarioTreeMin15 ∧
    ((0 : Int), scenarioTreeMin15) ∈ nodesAt 0 scenarioTreeMin15 ∧
    (∀ c ∈ scenarioTreeMin15.Children, c.Size ≥ scenarioCfgMin15.minSize) ∧
    (allFileSizes scenarioFs).sum < 9223372036854775808 ∧
    scenarioTreeMin15.Size = (scenarioTreeMin15.Children.map (·.Size)).sum ∧
    analyzeNode scenarioCfgMin15 (filepathJoin ["R"] (FsEntry.file "a" 10).name) (0 + 1)
      (.file "a" 10) = .ok scenarioNodeA ∧
    (10 : Int) < scenarioCfgMin15.minSize ∧
    analyzeEntries scenarioCfgMin15 ["R"] 0 [.file "a" 10] (newNode ["R"] true) =
      analyzeEntries scenarioCfgMin15 ["R"] 0 [] (newNode ["R"] true) :=
  ⟨scenario_survey_min15, mem_nodesAt_self 0 scenarioTreeMin15,
    (minSize_filter_is_lossy scenarioCfgMin15 ["R"] scenarioFs scenarioTreeMin15
      scenario_survey_min15).1 (0, scenarioTreeMin15) (mem_nodesAt_self 0 scenarioTreeMin15),
    by decide,
    (minSize_filter_is_lossy scenarioCfgMin15 ["R"] scenarioFs scenarioTreeMin15
      scenario_survey_min15).2.2.1 (by decide) (0, scenarioTreeMin15)
      (mem_nodesAt_self 0 scenarioTreeMin15) rfl (by decide),
    rfl, by decide,
    (minSize_filter_is_lossy scenarioCfgMin15 ["R"] scenarioFs scenarioTreeMin15
      scenario_survey_min15).2.2.2 ["R"] 0 (.file "a" 10) [] (newNode ["R"] true) scenarioNodeA
      rfl (by decide)⟩

/-- C4. With `showHidden = false`, no node in a `Children` list, at any level of the tree
`AnalyzePath` returns, has a name beginning with a dot. -/
theorem no_hidden_child (a : Analyzer) (path : Path) (e : FsEntry) (root : DiskNode)
    (hs : a.showHidden = false) (h : AnalyzePath a path e = .ok root) :
    ∀ x ∈ nodesAt 0 root, ∀ c ∈ x.2.Children, stringsHasPrefix c.Name "." = false := by
  intro x hx c hc
  obtain ⟨p1, e1, h1⟩ := nodesAt_generated_plain a e path 0 root h x hx
  obtain ⟨e0, hv, hrun, _⟩ := analyzeNode_children h1 c hc
  rw [analyzeNode_name hrun, filepathBase_join]
  rw [hs] at hv
  simpa using hv

theorem no_hidden_child_witness :
    scenarioCfg.showHidden = false ∧
    AnalyzePath scenarioCfg ["R"] scenarioFs = .ok scenarioTree ∧
    ((0 : Int), scenarioTree) ∈ nodesAt 0 scenarioTree ∧
    (∀ c ∈ scenarioTree.Children, stringsHasPrefix c.Name "." = false) :=
  ⟨rfl, scenario_survey, mem_nodesAt_self 0 scenarioTree,
    no_hidden_child scenarioCfg ["R"] scenarioFs scenarioTree rfl scenario_survey
      (0, scenarioTree) (mem_nodesAt_self 0 scenarioTree)⟩

/-- C5, as stated, fails. With `maxDepth = 0`, `showHidden = false` and `minSize = 0` the
root of the scenario is cut off at the depth limit and takes its totals from `GetDirSize`:
`Size = 35` and `ItemCount = 3`, although the files beneath it without a dot-named component
on the way amount to 30 bytes in 2 files; the 5 bytes of `.hidden` are counted. And with no
directory cut off, on a tree whose subdirectory `B` holds `2 ^ 63` bytes, the `Size` of `B`
wraps around to a negative value, `B` fails the test `Size ≥ minSize` and the root is left
with `Size = 10` and `ItemCount = 1`. -/
theorem hidden_counted_at_depth_limit :
    (∃ root, AnalyzePath (NewAnalyzer false false 0 0) ["R"] scenarioFs = .ok root ∧
      root.Size = 35 ∧ root.ItemCount = 3 ∧
      (filesBeneath true scenarioFs).sum = 30 ∧ (filesBeneath true scenarioFs).length = 2) ∧
    (∃ root, AnalyzePath (NewAnalyzer false false 5 0) ["R"] overflowFs = .ok root ∧
      root.Size = 10 ∧ root.ItemCount = 1 ∧
      (filesBeneath true overflowFs).sum = 9223372036854775818 ∧
      (filesBeneath true overflowFs).length = 3) :=
  ⟨⟨_, rfl, by decide, by decide, by decide, by decide⟩,
    ⟨_, rfl, by decide, by decide, by decide, by decide⟩⟩

/-- C5, amended. On a filesystem tree (without symbolic links) whose files total less than
`2 ^ 63` bytes, with `showHidden = false`, `minSize = 0` and `maxDepth` not below the height
of the tree (so that no directory is cut off at the depth limit), a survey of a root whose
stat succeeds returns a tree in which the root, and every node, has a `Size` equal to the sum
of the sizes of exactly the files the survey can reach beneath the entry at the node's path
with no dot-named component on the way down from it, and an `ItemCount` equal to their
number. -/
theorem hidden_excluded_without_truncation (a : Analyzer) (path : Path) (e : FsEntry)
    (info : FileInfo) (hs : a.showHidden = false) (hm : a.minSize = 0)
    (hh : (height e : Int) ≤ a.maxDepth)
    (hb : (allFileSizes e).sum < 9223372036854775808) (hst : osStat e = .ok info) :
    ∃ root, AnalyzePath a path e = .ok root ∧
      root.Size = ((filesBeneath true e).sum : Nat) ∧
      root.ItemCount = ((filesBeneath true e).length : Nat) ∧
      ∀ x ∈ nodesAt 0 root, ∃ q ∈ entriesBelow true e, x.2.Path = path ++ q.1 ∧
        x.2.Size = ((filesBeneath true q.2).sum : Nat) ∧
        x.2.ItemCount = ((filesBeneath true q.2).length : Nat) := by
  obtain ⟨root, h⟩ := analyzeNode_ok_of_stat a path 0 e info hst
  have hroot := analyzeNode_visible_totals a hm e path 0 root h (Or.inr (by omega)) hb
  rw [hs] at hroot
  refine ⟨root, h, hroot.1, hroot.2, ?_⟩
  intro x hx
  obtain ⟨q, hq, h1, h2, h3⟩ := nodesAt_located a e path 0 root h x hx
  have h4 := analyzeNode_visible_totals a hm q.2 _ x.1 x.2 h1 (Or.inr (by omega)) (by omega)
  rw [hs] at hq h4
  exact ⟨q, hq, analyzeNode_path h1, h4⟩

theorem hidden_excluded_without_truncation_witness :
    scenarioCfg.showHidden = false ∧ scenarioCfg.minSize = 0 ∧
    (height scenarioFs : Int) ≤ scenarioCfg.maxDepth ∧
    (allFileSizes scenarioFs).sum < 9223372036854775808 ∧
    osStat scenarioFs = .ok ⟨true, 0⟩ ∧
    AnalyzePath scenarioCfg ["R"] scenarioFs = .ok scenarioTree ∧
    (filesBeneath true scenarioFs).sum = 30 ∧
    ∃ root, AnalyzePath scenarioCfg ["R"] scenarioFs = .ok root ∧
      root.Size = ((filesBeneath true scenarioFs).sum : Nat) ∧
      root.ItemCount = ((filesBeneath true scenarioFs).length : Nat) ∧
      ∀ x ∈ nodesAt 0 root, ∃ q ∈ entriesBelow true scenarioFs, x.2.Path = ["R"] ++ q.1 ∧
        x.2.Size = ((filesBeneath true q.2).sum : Nat) ∧
        x.2.ItemCount = ((filesBeneath true q.2).length : Nat) :=
  ⟨rfl, rfl, by decide, by decide, rfl, scenario_survey, by decide,
    hidden_excluded_without_truncation scenarioCfg ["R"] scenarioFs ⟨true, 0⟩ rfl rfl
      (by decide) (by decide) rfl⟩

/-- C6. With `maxDepth = 0`, for every root directory and every `showHidden` and `minSize`,
`AnalyzePath` returns a root node with an empty `Children` list whose `Size` and `ItemCount`
are the size and the count `GetDirSize` returns for the root path. -/
theorem maxDepth_zero_is_flat_scan (debug showHidden : Bool) (minSize : Int) (path : Path)
    (n : String) (l : Bool) (es : List FsEntry) :
    ∃ root, AnalyzePath (NewAnalyzer debug showHidden 0 minSize) path (.dir n l es) = .ok root ∧
      root.Children = [] ∧
      root.Size = (GetDirSize path (.dir n l es)).1 ∧
      root.ItemCount = (GetDirSize path (.dir n l es)).2.1 :=
  ⟨_, analyzeNode_dir_fallback (NewAnalyzer debug showHidden 0 minSize) path 0 n l es
    (Or.inl (le_refl _)), rfl, rfl, rfl⟩

/-- C7, as stated, fails. On the tree `R` whose subdirectory `B` holds two files of `2 ^ 62`
bytes, every entry accessible, with `showHidden = true` and `minSize = 0`: at `maxDepth = 5`
the `Size` of `B` wraps around to `-2 ^ 63`, `B` fails the test `Size ≥ minSize` and the root
has `Size = 10` and `ItemCount = 1`; at `maxDepth = 0` the root has the size and the count of
`GetDirSize`, `-9223372036854775798` and `3`. -/
theorem truncation_changes_totals_on_wraparound :
    allAccessible overflowFs = true ∧
    (∃ root, AnalyzePath (NewAnalyzer false true 5 0) ["R"] overflowFs = .ok root ∧
      root.Size = 10 ∧ root.ItemCount = 1) ∧
    (∃ root, AnalyzePath (NewAnalyzer false true 0 0) ["R"] overflowFs = .ok root ∧
      root.Size = -9223372036854775798 ∧ root.ItemCount = 3) ∧
    GetDirSize ["R"] overflowFs = (-9223372036854775798, 3, none) :=
  ⟨by decide, ⟨_, rfl, by decide, by decide⟩, ⟨_, rfl, by decide, by decide⟩, by decide⟩

/-- C7, amended. Depth truncation loses no bytes on a filesystem tree (without symbolic
links) in which every entry is accessible and whose files total less than `2 ^ 63` bytes:
with `showHidden = true` and `minSize = 0`, for every `maxDepth` (in particular every
`maxDepth ≥ 0`) the call of `AnalyzePath` returns a root whose `Size` and `ItemCount` are the
size and the count that `GetDirSize` returns for the root path, which are the total and the
number of the files of the tree; so they are the same for every `maxDepth`. -/
theorem truncation_loses_no_bytes (debug : Bool) (maxDepth : Int) (path : Path) (e : FsEntry)
    (hacc : allAccessible e = true) (hb : (allFileSizes e).sum < 9223372036854775808) :
    ∃ root, AnalyzePath (NewAnalyzer debug true maxDepth 0) path e = .ok root ∧
      root.Size = (GetDirSize path e).1 ∧ root.ItemCount = (GetDirSize path e).2.1 ∧
      root.Size = ((allFileSizes e).sum : Nat) ∧
      root.ItemCount = ((allFileSizes e).length : Nat) := by
  obtain ⟨info, hinfo⟩ := osStat_ok_of_allAccessible hacc
  obtain ⟨root, hroot⟩ :=
    analyzeNode_ok_of_stat (NewAnalyzer debug true maxDepth 0) path 0 e info hinfo
  have h3 := analyzeNode_visible_totals (NewAnalyzer debug true maxDepth 0) rfl e path 0 root
    hroot (Or.inl rfl) hb
  have heq := filesBeneath_eq_allFileSizes e hacc
  have h4 : (!(NewAnalyzer debug true maxDepth 0).showHidden) = false := rfl
  rw [h4, heq] at h3
  have hg := GetDirSize_exact path e (by rw [heq]; exact hb)
  rw [heq] at hg
  refine ⟨root, hroot, ?_, ?_, h3.1, h3.2⟩
  · rw [hg]
    exact h3.1
  · rw [hg]
    exact h3.2

theorem truncation_loses_no_bytes_witness :
    allAccessible scenarioFs = true ∧ (allFileSizes scenarioFs).sum < 9223372036854775808 ∧
    (allFileSizes scenarioFs).sum = 35 ∧
    ∃ root, AnalyzePath (NewAnalyzer false true 1 0) ["R"] scenarioFs = .ok root ∧
      root.Size = (GetDirSize ["R"] scenarioFs).1 ∧
      root.ItemCount = (GetDirSize ["R"] scenarioFs).2.1 ∧
      root.Size = ((allFileSizes scenarioFs).sum : Nat) ∧
      root.ItemCount = ((allFileSizes scenarioFs).length : Nat) :=
  ⟨by decide, by decide, by decide,
    truncation_loses_no_bytes false 1 ["R"] scenarioFs (by decide) (by decide)⟩

/-- C8. In the tree `AnalyzePath` returns, the `Children` list of every node is
non-increasing in `Size` from left to right; and the `Children` list of an expanded
directory is a permutation of the children its loop attached, so sorting neither loses nor
duplicates a child. -/
theorem children_sorted_desc_and_kept (a : Analyzer) (path : Path) (e : FsEntry)
    (root : DiskNode) (h : AnalyzePath a path e = .ok root) :
    (∀ x ∈ nodesAt 0 root, x.2.Children.Pairwise (fun c1 c2 => c1.Size ≥ c2.Size)) ∧
    (∀ (p : Path) (d : Int) (n : String) (es : List FsEntry), d < a.maxDepth →
      ∃ node, analyzeNode a p d (.dir n true es) = .ok node ∧
        node.Children.Perm (analyzeEntries a p d es (newNode p true)).Children) := by
  constructor
  · intro x hx
    obtain ⟨p1, e1, h1⟩ := nodesAt_generated_plain a e path 0 root h x hx
    exact analyzeNode_children_sorted h1
  · intro p d n es hd
    refine ⟨_, analyzeNode_dir_expanded a p d n es hd, ?_⟩
    rw [analyzeEntries_eq]
    simpa [newNode] using sortSlice_perm (fun x y : DiskNode => decide (x.Size > y.Size))
      (attached a p d es)

theorem children_sorted_desc_and_kept_witness :
    AnalyzePath scenarioCfg ["R"] scenarioFs = .ok scenarioTree ∧
    ((0 : Int), scenarioTree) ∈ nodesAt 0 scenarioTree ∧
    scenarioTree.Children.Pairwise (fun c1 c2 => c1.Size ≥ c2.Size) ∧
    (0 : Int) < scenarioCfg.maxDepth ∧
    ∃ node, analyzeNode scenarioCfg ["R"] 0 (.dir "R" true [.file "a" 10]) = .ok node ∧
      node.Children.Perm
        (analyzeEntries scenarioCfg ["R"] 0 [.file "a" 10] (newNode ["R"] true)).Children :=
  ⟨scenario_survey, mem_nodesAt_self 0 scenarioTree,
    (children_sorted_desc_and_kept scenarioCfg ["R"] scenarioFs scenarioTree
      scenario_survey).1 (0, scenarioTree) (mem_nodesAt_self 0 scenarioTree),
    by decide,
    (children_sorted_desc_and_kept scenarioCfg ["R"] scenarioFs scenarioTree
      scenario_survey).2 ["R"] 0 "R" [.file "a" 10] (by decide)⟩

/-- C9. The scenario: `R` holds `a` (10 bytes), `.hidden` (5 bytes) and `B` with `b`
(20 bytes). With `maxDepth = 5`, `showHidden = false`, `minSize = 0` the survey returns `R`
with `Size = 30`, `ItemCount = 2` and children `[B (20), a (10)]`; with `showHidden = true` it
returns `R` with `Size = 35` and `ItemCount = 3`. -/
theorem scenario_totals :
    (∃ r, AnalyzePath (NewAnalyzer false false 5 0) ["R"] scenarioFs = .ok r ∧
      r.Size = 30 ∧ r.ItemCount = 2 ∧
      r.Children.map (fun c => (c.Name, c.Size)) = [("B", 20), ("a", 10)]) ∧
    (∃ r, AnalyzePath (NewAnalyzer false true 5 0) ["R"] scenarioFs = .ok r ∧
      r.Size = 35 ∧ r.ItemCount = 3) :=
  ⟨⟨_, rfl, by decide, by decide, by decide⟩, ⟨_, rfl, by decide, by decide⟩⟩

/-- C10. The call `AnalyzePath` fails exactly when the stat of the root path fails. Deeper
failures are absorbed: in the loop a child whose stat fails is passed over and leaves the
parent as it was, and a directory that cannot be listed is returned without children, with
the totals `GetDirSize` gives. -/
theorem only_root_stat_failure_surfaces (a : Analyzer) :
    (∀ (path : Path) (e : FsEntry),
      (∃ err, AnalyzePath a path e = .error err) ↔ ∃ err, osStat e = .error err) ∧
    (∀ (p : Path) (d : Int) (n : String) (es : List FsEntry) (parent : DiskNode),
      analyzeEntries a p d (.noStat n :: es) parent = analyzeEntries a p d es parent) ∧
    (∀ (p : Path) (d : Int) (n : String) (es : List FsEntry),
      ∃ node, analyzeNode a p d (.dir n false es) = .ok node ∧ node.Children = [] ∧
        node.Size = (GetDirSize p (.dir n false es)).1 ∧
        node.ItemCount = (GetDirSize p (.dir n false es)).2.1) := by
  refine ⟨?_, ?_, ?_⟩
  · intro path e
    cases e with
    | noStat n => simp [AnalyzePath, analyzeNode, osStat]
    | file n size => simp [AnalyzePath, analyzeNode, osStat]
    | dir n l es =>
        obtain ⟨node, hn⟩ := analyzeNode_ok_of_stat a path 0 (.dir n l es) ⟨true, 0⟩ rfl
        simp [AnalyzePath, hn, osStat]
  · intro p d n es parent
    rw [analyzeEntries]
    by_cases hh : (!a.showHidden && stringsHasPrefix (FsEntry.noStat n).name ".") = true
    · rw [if_pos hh]
    · rw [if_neg hh]
      simp [analyzeNode]
  · intro p d n es
    exact ⟨_, analyzeNode_dir_fallback a p d n false es (Or.inr rfl), rfl, rfl, rfl⟩

/-- C11, as stated, fails. The directory `D` holds a file of 200 MiB. With `maxDepth = 0` the
root is cut off at the depth limit and has `LargeFiles = 0`; with `minSize` of 300 MiB the
file is dropped and the root has `LargeFiles = 0`; and when the file has a dot-name and
`showHidden = false` it is skipped and the root has `LargeFiles = 0`: each time one file
beneath the root exceeds 100 MiB. -/
theorem largeFiles_misses_files_not_attached :
    largeFilesBeneath false largeFs = 1 ∧
    (∃ root, AnalyzePath (NewAnalyzer false true 0 0) ["D"] largeFs = .ok root ∧
      root.LargeFiles = 0) ∧
    (∃ root, AnalyzePath (NewAnalyzer false true 5 314572800) ["D"] largeFs = .ok root ∧
      root.LargeFiles = 0) ∧
    largeFilesBeneath false hiddenLargeFs = 1 ∧
    (∃ root, AnalyzePath (NewAnalyzer false false 5 0) ["D"] hiddenLargeFs = .ok root ∧
      root.LargeFiles = 0) :=
  ⟨by decide, ⟨_, rfl, by decide⟩, ⟨_, rfl, by decide⟩, by decide, ⟨_, rfl, by decide⟩⟩

/-- C11, amended. In every tree `AnalyzePath` returns, a file node has `LargeFiles = 1` when
its `Size` is above 104857600 bytes and `LargeFiles = 0` otherwise. And in a survey with
`minSize` at most 104857601 and `maxDepth` not below the height of the tree (no directory is
cut off at the depth limit), on a tree whose files total less than `2 ^ 63` bytes and whose
root stat succeeds, the root and every node have `LargeFiles` equal to the number of files
above 104857600 bytes that the survey can reach beneath the entry at the node's path (the
entry itself when it is a file), dot-named entries left out when `showHidden = false`. -/
theorem largeFiles_counts_reachable_files (a : Analyzer) (path : Path) (e : FsEntry) :
    (∀ root, AnalyzePath a path e = .ok root → ∀ x ∈ nodesAt 0 root,
      x.2.IsDirectory = false →
        x.2.LargeFiles = if x.2.Size > 104857600 then 1 else 0) ∧
    (∀ info : FileInfo, a.minSize ≤ 104857601 → (height e : Int) ≤ a.maxDepth →
      (allFileSizes e).sum < 9223372036854775808 → osStat e = .ok info →
      ∃ root, AnalyzePath a path e = .ok root ∧
        root.LargeFiles = (largeFilesBeneath (!a.showHidden) e : Nat) ∧
        ∀ x ∈ nodesAt 0 root, ∃ q ∈ entriesBelow (!a.showHidden) e,
          x.2.Path = path ++ q.1 ∧
          x.2.LargeFiles = (largeFilesBeneath (!a.showHidden) q.2 : Nat)) := by
  constructor
  · intro root h x hx hfile
    obtain ⟨p1, e1, h1⟩ := nodesAt_generated_plain a e path 0 root h x hx
    rw [analyzeNode_largeFiles a e1 p1 x.1 x.2 h1, largeFileNodes_file hfile]
    split <;> simp
  · intro info hm hh hb hst
    obtain ⟨root, h⟩ := analyzeNode_ok_of_stat a path 0 e info hst
    refine ⟨root, h, (analyzeNode_largeFiles_beneath a hm e path 0 root h (by omega) hb).1, ?_⟩
    intro x hx
    obtain ⟨q, hq, h1, h2, h3⟩ := nodesAt_located a e path 0 root h x hx
    exact ⟨q, hq, analyzeNode_path h1,
      (analyzeNode_largeFiles_beneath a hm q.2 _ x.1 x.2 h1 (by omega) (by omega)).1⟩

theorem largeFiles_counts_reachable_files_witness :
    AnalyzePath scenarioCfg ["D"] largeFs = .ok largeTree ∧
    scenarioCfg.minSize ≤ 104857601 ∧ (height largeFs : Int) ≤ scenarioCfg.maxDepth ∧
    (allFileSizes largeFs).sum < 9223372036854775808 ∧ osStat largeFs = .ok ⟨true, 0⟩ ∧
    largeFilesBeneath (!scenarioCfg.showHidden) largeFs = 1 ∧
    (∃ root, AnalyzePath scenarioCfg ["D"] largeFs = .ok root ∧
      root.LargeFiles = (largeFilesBeneath (!scenarioCfg.showHidden) largeFs : Nat) ∧
      ∀ x ∈ nodesAt 0 root, ∃ q ∈ entriesBelow (!scenarioCfg.showHidden) largeFs,
        x.2.Path = ["D"] ++ q.1 ∧
        x.2.LargeFiles = (largeFilesBeneath (!scenarioCfg.showHidden) q.2 : Nat)) ∧
    (∀ x ∈ nodesAt 0 largeTree, x.2.IsDirectory = false →
      x.2.LargeFiles = if x.2.Size > 104857600 then 1 else 0) :=
  ⟨rfl, by decide, by decide, by decide, rfl, by decide,
    (largeFiles_counts_reachable_files scenarioCfg ["D"] largeFs).2 ⟨true, 0⟩ (by decide)
      (by decide) (by decide) rfl,
    (largeFiles_counts_reachable_files scenarioCfg ["D"] largeFs).1 largeTree rfl⟩

/-- C12. The error `GetDirSize` returns is nil for every path and every state of the
filesystem: for a path whose stat fails (one that does not exist) the result is `(0, 0, nil)`,
for a directory that cannot be listed as well; and at every directory of the walk an entry
whose stat fails, or a subdirectory whose listing fails, adds nothing to the size or the
count and does not stop the loop over the entries after it. -/
theorem getDirSize_never_fails :
    (∀ (path : Path) (e : FsEntry), (GetDirSize path e).2.2 = none) ∧
    (∀ (path : Path) (n : String), GetDirSize path (.noStat n) = (0, 0, none)) ∧
    (∀ (path : Path) (n : String) (es : List FsEntry),
      GetDirSize path (.dir n false es) = (0, 0, none)) ∧
    (∀ (path : Path) (s : Int × Int) (es1 es2 : List FsEntry) (m : String),
      walkNames getDirSizeFn path (es1 ++ .noStat m :: es2) s =
        walkNames getDirSizeFn path (es1 ++ es2) s) ∧
    (∀ (path : Path) (s : Int × Int) (es1 es2 sub : List FsEntry) (m : String),
      walkNames getDirSizeFn path (es1 ++ .dir m false sub :: es2) s =
        walkNames getDirSizeFn path (es1 ++ es2) s) := by
  refine ⟨?_, ?_, ?_, ?_, ?_⟩
  · intro path e
    rw [GetDirSize_eq]
  · intro path n
    rw [GetDirSize_eq]
    simp [filesBeneath, sumInt64, addAllInt64]
  · intro path n es
    rw [GetDirSize_eq]
    simp [filesBeneath, sumInt64, addAllInt64]
  · intro path s es1 es2 m
    exact walkNames_skip es1 es2 _ (by simp [filesBeneath]) path s
  · intro path s es1 es2 sub m
    exact walkNames_skip es1 es2 _ (by simp [filesBeneath]) path s

/-- C13. On a filesystem tree in which every entry is accessible, `GetDirSize` returns the
sum of the sizes of all the files of the subtree rooted at the path (the sum as the `int64`
additions of the program give it, which is the exact sum when the files total less than
`2 ^ 63` bytes), their number, and a nil error; directories add nothing (an empty directory
among the entries changes neither value); and for a path that is a plain file the result is
its size and the count 1. -/
theorem getDirSize_totals_all_files :
    (∀ (path : Path) (e : FsEntry), allAccessible e = true →
      GetDirSize path e =
        (sumInt64 ((allFileSizes e).map (fun n : Nat => (n : Int))),
          (((allFileSizes e).length : Nat) : Int), none)) ∧
    (∀ (path : Path) (e : FsEntry), allAccessible e = true →
      (allFileSizes e).sum < 9223372036854775808 →
      GetDirSize path e =
        ((((allFileSizes e).sum : Nat) : Int), (((allFileSizes e).length : Nat) : Int), none)) ∧
    (∀ (path : Path) (n m : String) (es1 es2 : List FsEntry),
      GetDirSize path (.dir n true (es1 ++ .dir m true [] :: es2)) =
        GetDirSize path (.dir n true (es1 ++ es2))) ∧
    (∀ (path : Path) (n : String) (size : Nat), size < 9223372036854775808 →
      GetDirSize path (.file n size) = ((size : Int), 1, none)) := by
  refine ⟨?_, ?_, ?_, ?_⟩
  · intro path e h
    rw [GetDirSize_eq, filesBeneath_eq_allFileSizes e h]
  · intro path e h hb
    have heq := filesBeneath_eq_allFileSizes e h
    rw [GetDirSize_exact path e (by rw [heq]; exact hb), heq]
  · intro path n m es1 es2
    rw [GetDirSize_eq, GetDirSize_eq]
    simp [filesBeneath, filesBeneathList_false_append, filesBeneathList_false_cons,
      filesBeneathList]
  · intro path n size hs
    rw [GetDirSize_exact path (.file n size) (by simpa [filesBeneath] using hs)]
    simp [filesBeneath]

theorem getDirSize_totals_all_files_witness :
    allAccessible scenarioFs = true ∧ (allFileSizes scenarioFs).sum < 9223372036854775808 ∧
    GetDirSize ["R"] scenarioFs =
      (sumInt64 ((allFileSizes scenarioFs).map (fun n : Nat => (n : Int))),
        (((allFileSizes scenarioFs).length : Nat) : Int), none) ∧
    GetDirSize ["R"] scenarioFs =
      ((((allFileSizes scenarioFs).sum : Nat) : Int),
        (((allFileSizes scenarioFs).length : Nat) : Int), none) ∧
    (allFileSizes scenarioFs).sum = 35 ∧ (allFileSizes scenarioFs).length = 3 ∧
    allAccessible overflowFs = true ∧
    GetDirSize ["R"] overflowFs =
      (sumInt64 ((allFileSizes overflowFs).map (fun n : Nat => (n : Int))),
        (((allFileSizes overflowFs).length : Nat) : Int), none) ∧
    sumInt64 ((allFileSizes overflowFs).map (fun n : Nat => (n : Int))) =
      -9223372036854775798 :=
  ⟨by decide, by decide, getDirSize_totals_all_files.1 ["R"] scenarioFs (by decide),
    getDirSize_totals_all_files.2.1 ["R"] scenarioFs (by decide) (by decide), by decide,
    by decide, by decide, getDirSize_totals_all_files.1 ["R"] overflowFs (by decide),
    by decide⟩

/-- C14. For a path that does not exist and every `maxRetries`, `SafeDelete` returns nil and
leaves the state as it was: no removal call is made and the filesystem is unchanged.
Consequently the same call repeated right after one that returned nil returns nil again, and
after a `SafeDelete` with `maxRetries ≥ 1` that returned nil, a `SafeDelete` of the same path
with any `maxRetries` returns nil and changes nothing. -/
theorem safeDelete_of_absent_path (path : Path) :
    (∀ (maxRetries : Int) (w : World), w.fs path = none →
      SafeDelete path maxRetries w = .ok (none, w)) ∧
    (∀ (maxRetries : Int) (w w1 : World), SafeDelete path maxRetries w = .ok (none, w1) →
      SafeDelete path maxRetries w1 = .ok (none, w1)) ∧
    (∀ (m1 m2 : Int) (w w1 : World), 1 ≤ m1 → SafeDelete path m1 w = .ok (none, w1) →
      SafeDelete path m2 w1 = .ok (none, w1)) := by
  refine ⟨?_, ?_, ?_⟩
  · intro maxRetries w h
    exact safeDelete_absent path maxRetries w h
  · intro maxRetries w w1 h
    by_cases hm : 1 ≤ maxRetries
    · exact safeDelete_absent path maxRetries w1 (safeDelete_nil_absent path maxRetries w w1 hm h)
    · have h0 : maxRetries.toNat = 0 := by omega
      unfold SafeDelete
      rw [h0]
      rfl
  · intro m1 m2 w w1 hm h
    exact safeDelete_absent path m2 w1 (safeDelete_nil_absent path m1 w w1 hm h)

theorem safeDelete_of_absent_path_witness :
    (demoWorld [some .removeFailed]).fs ["gone"] = none ∧
    SafeDelete ["gone"] 3 (demoWorld [some .removeFailed]) =
      .ok (none, demoWorld [some .removeFailed]) ∧
    (1 : Int) ≤ 3 ∧
    SafeDelete ["tmp"] 3 (demoWorld [some .removeFailed, none]) =
      .ok (none, ⟨(demoWorld []).without ["tmp"], [],
        [.removeAll ["tmp"], .removeAll ["tmp"]]⟩) ∧
    SafeDelete ["tmp"] 1 ⟨(demoWorld []).without ["tmp"], [],
        [.removeAll ["tmp"], .removeAll ["tmp"]]⟩ =
      .ok (none, ⟨(demoWorld []).without ["tmp"], [],
        [.removeAll ["tmp"], .removeAll ["tmp"]]⟩) :=
  ⟨rfl, (safeDelete_of_absent_path ["gone"]).1 3 (demoWorld [some .removeFailed]) rfl,
    by decide, rfl,
    (safeDelete_of_absent_path ["tmp"]).2.2 3 1 (demoWorld [some .removeFailed, none]) _
      (by decide) rfl⟩

/-- C15. For a path that exists and `maxRetries ≥ 1`: when the next `maxRetries` removal
attempts all fail, `SafeDelete` makes exactly `maxRetries` removal calls and returns the
error of the last one; when the attempts fail until attempt `k ≤ maxRetries` succeeds, it
returns nil after exactly `k` removal calls, the path is gone, and the outcomes of later
attempts are left unconsumed. -/
theorem safeDelete_retry_budget (path : Path) (e : FsEntry) (info : FileInfo) (w : World)
    (maxRetries : Int) (hfs : w.fs path = some e) (hi : osStat e = .ok info)
    (hm : 1 ≤ maxRetries) :
    (∀ (errs : List FsError) (rest : List (Option FsError)),
      w.outcomes = errs.map some ++ rest → (errs.length : Int) = maxRetries →
      SafeDelete path maxRetries w =
        .ok (errs.getLast?,
          { w with outcomes := rest,
                   log := w.log ++ List.replicate errs.length (removalOp info path) })) ∧
    (∀ (errs : List FsError) (rest : List (Option FsError)),
      w.outcomes = errs.map some ++ none :: rest → (errs.length : Int) + 1 ≤ maxRetries →
      SafeDelete path maxRetries w =
        .ok (none,
          { fs := w.without path, outcomes := rest,
            log := w.log ++ List.replicate (errs.length + 1) (removalOp info path) })) := by
  constructor
  · intro errs rest ho hlen
    have hn : maxRetries.toNat = errs.length := by omega
    have hne : errs ≠ [] := by
      intro hnil
      rw [hnil] at hlen
      simp at hlen
      omega
    unfold SafeDelete
    rw [hn, safeDeleteLoop_all_fail path e info hi errs rest none w hfs ho,
      foldl_last_error errs none hne]
  · intro errs rest ho hlen
    unfold SafeDelete
    exact safeDeleteLoop_first_success path e info hi errs rest _ none w hfs ho (by omega)

theorem safeDelete_retry_budget_witness :
    (demoWorld [some .removeFailed, some .statFailed, some .readDirFailed, none]).fs ["tmp"] =
      some (.dir "tmp" true [.file "a.log" 7]) ∧
    osStat (.dir "tmp" true [.file "a.log" 7]) = .ok ⟨true, 0⟩ ∧ (1 : Int) ≤ 3 ∧
    SafeDelete ["tmp"] 3
        (demoWorld [some .removeFailed, some .statFailed, some .readDirFailed, none]) =
      .ok (some .readDirFailed,
        ⟨demoFs, [none], [.removeAll ["tmp"], .removeAll ["tmp"], .removeAll ["tmp"]]⟩) ∧
    SafeDelete ["tmp"] 3 (demoWorld [some .removeFailed, none, some .statFailed]) =
      .ok (none,
        ⟨(demoWorld []).without ["tmp"], [some .statFailed],
          [.removeAll ["tmp"], .removeAll ["tmp"]]⟩) :=
  ⟨rfl, rfl, by decide,
    (safeDelete_retry_budget ["tmp"] (.dir "tmp" true [.file "a.log" 7]) ⟨true, 0⟩
      (demoWorld [some .removeFailed, some .statFailed, some .readDirFailed, none]) 3
      rfl rfl (by decide)).1 [.removeFailed, .statFailed, .readDirFailed] [none] rfl rfl,
    (safeDelete_retry_budget ["tmp"] (.dir "tmp" true [.file "a.log" 7]) ⟨true, 0⟩
      (demoWorld [some .removeFailed, none, some .statFailed]) 3
      rfl rfl (by decide)).2 [.removeFailed] [some .statFailed] rfl (by decide)⟩

/-- C16, as stated, fails. With `maxRetries = 0` the loop of `SafeDelete` does not run: the
call returns nil without a removal call, and the directory `tmp` still exists in the state
it returns. -/
theorem safeDelete_zero_retries_keeps_path :
    SafeDelete ["tmp"] 0 (demoWorld []) = .ok (none, demoWorld []) ∧
    (demoWorld []).fs ["tmp"] = some (.dir "tmp" true [.file "a.log" 7]) ∧
    (demoWorld []).log = [] :=
  ⟨rfl, rfl, rfl⟩

/-- C16, amended. For every path, every `maxRetries ≥ 1` and every state of the filesystem,
if `SafeDelete` returns nil then the path does not exist in the state it leaves. With
`maxRetries ≤ 0` it returns nil and leaves the state untouched. -/
theorem safeDelete_nil_means_gone (path : Path) (maxRetries : Int) (w : World) :
    (1 ≤ maxRetries → ∀ w1, SafeDelete path maxRetries w = .ok (none, w1) →
      w1.fs path = none) ∧
    (maxRetries ≤ 0 → SafeDelete path maxRetries w = .ok (none, w)) := by
  constructor
  · intro hm w1 h
    exact safeDelete_nil_absent path maxRetries w w1 hm h
  · intro hm
    have h0 : maxRetries.toNat = 0 := by omega
    unfold SafeDelete
    rw [h0]
    rfl

theorem safeDelete_nil_means_gone_witness :
    (1 : Int) ≤ 3 ∧
    SafeDelete ["tmp"] 3 (demoWorld [some .removeFailed, none]) =
      .ok (none, ⟨(demoWorld []).without ["tmp"], [],
        [.removeAll ["tmp"], .removeAll ["tmp"]]⟩) ∧
    (demoWorld []).without ["tmp"] ["tmp"] = none :=
  ⟨by decide, rfl,
    (safeDelete_nil_means_gone ["tmp"] 3 (demoWorld [some .removeFailed, none])).1
      (by decide) ⟨(demoWorld []).without ["tmp"], [],
        [.removeAll ["tmp"], .removeAll ["tmp"]]⟩ rfl⟩

/-- C17. With `dryRun = true`, for every list of targets `ExecuteCleanup` returns in the
state it was called in (no removal call is made, the filesystem is unchanged), and the
summary has `SuccessfulCleans = N`, `FailedCleans = 0`, `TotalSpaceFreed` the sum of `Size`
and `TotalFilesRemoved` the sum of `ItemCount` over the `N` targets that are not protected:
the sums as the 64-bit additions of the program give them, which are the exact sums when
those are in the 64-bit range. -/
theorem dryRun_deletes_nothing (cm : CleanupManager) (targets : List CleanupTarget)
    (w : World) (hd : cm.dryRun = true) :
    ∃ summary, ExecuteCleanup cm targets w = .ok (summary, w) ∧
      summary.SuccessfulCleans = ((nonProtected targets).length : Nat) ∧
      summary.FailedCleans = 0 ∧
      summary.TotalSpaceFreed = sumInt64 ((nonProtected targets).map (·.Size)) ∧
      summary.TotalFilesRemoved = sumInt64 ((nonProtected targets).map (·.ItemCount)) ∧
      (-9223372036854775808 ≤ ((nonProtected targets).map (·.Size)).sum →
        ((nonProtected targets).map (·.Size)).sum < 9223372036854775808 →
        summary.TotalSpaceFreed = ((nonProtected targets).map (·.Size)).sum) ∧
      (-9223372036854775808 ≤ ((nonProtected targets).map (·.ItemCount)).sum →
        ((nonProtected targets).map (·.ItemCount)).sum < 9223372036854775808 →
        summary.TotalFilesRemoved = ((nonProtected targets).map (·.ItemCount)).sum) := by
  obtain ⟨s1, h1, h2, h3, h4, h5⟩ := executeCleanupLoop_dryRun cm hd targets
    { TotalTargets := targets.length, SuccessfulCleans := 0, FailedCleans := 0,
      TotalSpaceFreed := 0, TotalFilesRemoved := 0, Results := [] } w
  have h4b : s1.TotalSpaceFreed = sumInt64 ((nonProtected targets).map (·.Size)) := h4
  have h5b : s1.TotalFilesRemoved = sumInt64 ((nonProtected targets).map (·.ItemCount)) := h5
  refine ⟨s1, h1, ?_, ?_, h4b, h5b, ?_, ?_⟩
  · simpa using h2
  · simpa using h3
  · intro hlo hhi
    rw [h4b, sumInt64_of_inRange hlo hhi]
  · intro hlo hhi
    rw [h5b, sumInt64_of_inRange hlo hhi]

theorem dryRun_deletes_nothing_witness :
    (NewCleanupManager false true).dryRun = true ∧
    ((nonProtected [demoTarget, demoProtected, demoMissing]).map (·.Size)).sum = 10 ∧
    ((nonProtected [demoTarget, demoProtected, demoMissing]).map (·.ItemCount)).sum = 2 ∧
    ∃ summary, ExecuteCleanup (NewCleanupManager false true)
        [demoTarget, demoProtected, demoMissing] (demoWorld [some .removeFailed]) =
        .ok (summary, demoWorld [some .removeFailed]) ∧
      summary.SuccessfulCleans =
        ((nonProtected [demoTarget, demoProtected, demoMissing]).length : Nat) ∧
      summary.FailedCleans = 0 ∧
      summary.TotalSpaceFreed = 10 ∧ summary.TotalFilesRemoved = 2 := by
  refine ⟨rfl, by decide, by decide, ?_⟩
  obtain ⟨summary, h1, h2, h3, _, _, h6, h7⟩ :=
    dryRun_deletes_nothing (NewCleanupManager false true)
      [demoTarget, demoProtected, demoMissing] (demoWorld [some .removeFailed]) rfl
  exact ⟨summary, h1, h2, h3, h6 (by decide) (by decide), h7 (by decide) (by decide)⟩

/-- C18. For every list of targets and either value of `dryRun`: whenever `ExecuteCleanup`
returns, the targets of `Summary.Results` are exactly the targets of the list that are not
protected, each once and in input order; it does return in dry-run mode and in every state
where no stat fails with an error other than not-exist, whatever removals fail. A protected
target is passed over without any call (the loop goes on with the same summary and state),
and a target whose deletion failed is recorded as a failure and the loop goes on with the
targets after it. -/
theorem results_are_nonProtected_in_order (cm : CleanupManager) (targets : List CleanupTarget)
    (w : World) :
    (∀ summary w1, ExecuteCleanup cm targets w = .ok (summary, w1) →
      summary.Results.map (·.Target) = nonProtected targets) ∧
    ((cm.dryRun = true ∨ statNeverFaults w) →
      ∃ summary w1, ExecuteCleanup cm targets w = .ok (summary, w1)) ∧
    (∀ (t : CleanupTarget) (rest : List CleanupTarget) (s : CleanupSummary) (w0 : World),
      t.Protected = true →
      executeCleanupLoop cm (t :: rest) s w0 = executeCleanupLoop cm rest s w0) ∧
    (∀ (t : CleanupTarget) (rest : List CleanupTarget) (s : CleanupSummary) (w0 w1 : World)
      (r : CleanupResult), t.Protected = false → cleanTarget cm t w0 = .ok (r, w1) →
      r.Success = false →
      executeCleanupLoop cm (t :: rest) s w0 =
        executeCleanupLoop cm rest
          { s with Results := s.Results ++ [r], FailedCleans := s.FailedCleans + 1 } w1) := by
  refine ⟨?_, ?_, ?_, ?_⟩
  · intro summary w1 h
    obtain ⟨_, R, h2, h3, _⟩ := executeCleanupLoop_ok cm targets _ w summary w1 h
    rw [h2]
    simpa using h3
  · intro hw
    exact executeCleanupLoop_returns cm targets _ w hw
  · intro t rest s w0 hp
    exact executeCleanupLoop_protected cm rest s w0 hp
  · intro t rest s w0 w1 r hp hc hs
    exact executeCleanupLoop_failure cm rest s hp hc hs

theorem results_are_nonProtected_in_order_witness :
    statNeverFaults (demoWorld [some .removeFailed, some .removeFailed, some .removeFailed]) ∧
    ∃ summary w1, ExecuteCleanup (NewCleanupManager false false)
        [demoProtected, demoTarget, demoMissing]
        (demoWorld [some .removeFailed, some .removeFailed, some .removeFailed]) =
        .ok (summary, w1) ∧
      summary.Results.map (·.Target) = nonProtected [demoProtected, demoTarget, demoMissing] ∧
      summary.Results.map (·.Success) = [false, true] := by
  refine ⟨demoWorld_statNeverFaults _, ?_⟩
  have T := results_are_nonProtected_in_order (NewCleanupManager false false)
    [demoProtected, demoTarget, demoMissing]
    (demoWorld [some .removeFailed, some .removeFailed, some .removeFailed])
  exact ⟨_, _, rfl, T.1 _ _ rfl, rfl⟩

/-- C19. For a target cleaned with `dryRun = false`: if `SafeDelete(target.Path, 3)` returns
nil, the result has `Success = true`, no error, `SpaceFreed` the target's `Size` and
`FilesRemoved` the target's `ItemCount`, as they were before the deletion; if it returns an
error, the result has `Success = false`, that error, `SpaceFreed = 0` and
`FilesRemoved = 0`. -/
theorem cleanTarget_records_outcome (cm : CleanupManager) (target : CleanupTarget)
    (w w1 : World) (hd : cm.dryRun = false) :
    (SafeDelete target.Path 3 w = .ok (none, w1) →
      cleanTarget cm target w =
        .ok ({ Target := target, Success := true, SpaceFreed := target.Size,
               FilesRemoved := target.ItemCount, Error := none }, w1)) ∧
    (∀ err : FsError, SafeDelete target.Path 3 w = .ok (some err, w1) →
      cleanTarget cm target w =
        .ok ({ Target := target, Success := false, SpaceFreed := 0, FilesRemoved := 0,
               Error := some err }, w1)) :=
  ⟨fun h => cleanTarget_deleted hd h, fun _ h => cleanTarget_failed hd h⟩

theorem cleanTarget_records_outcome_witness :
    (NewCleanupManager false false).dryRun = false ∧
    SafeDelete demoTarget.Path 3 (demoWorld [some .removeFailed, none]) =
      .ok (none, ⟨(demoWorld []).without ["tmp"], [],
        [.removeAll ["tmp"], .removeAll ["tmp"]]⟩) ∧
    cleanTarget (NewCleanupManager false false) demoTarget
        (demoWorld [some .removeFailed, none]) =
      .ok ({ Target := demoTarget, Success := true, SpaceFreed := 7, FilesRemoved := 1,
             Error := none },
        ⟨(demoWorld []).without ["tmp"], [], [.removeAll ["tmp"], .removeAll ["tmp"]]⟩) ∧
    SafeDelete demoTarget.Path 3
        (demoWorld [some .removeFailed, some .removeFailed, some .statFailed]) =
      .ok (some .statFailed,
        ⟨demoFs, [], [.removeAll ["tmp"], .removeAll ["tmp"], .removeAll ["tmp"]]⟩) ∧
    cleanTarget (NewCleanupManager false false) demoTarget
        (demoWorld [some .removeFailed, some .removeFailed, some .statFailed]) =
      .ok ({ Target := demoTarget, Success := false, SpaceFreed := 0, FilesRemoved := 0,
             Error := some .statFailed },
        ⟨demoFs, [], [.removeAll ["tmp"], .removeAll ["tmp"], .removeAll ["tmp"]]⟩) :=
  ⟨rfl, rfl,
    (cleanTarget_records_outcome (NewCleanupManager false false) demoTarget
      (demoWorld [some .removeFailed, none]) _ rfl).1 rfl,
    rfl,
    (cleanTarget_records_outcome (NewCleanupManager false false) demoTarget
      (demoWorld [some .removeFailed, some .removeFailed, some .statFailed]) _ rfl).2
      .statFailed rfl⟩

/-- C20, as stated, fails. For the list holding one protected target, `ExecuteCleanup`
returns a summary with `TotalTargets = 1`, although no target of the list is unprotected and
`SuccessfulCleans + FailedCleans = 0`. -/
theorem totalTargets_counts_protected :
    ∃ summary, ExecuteCleanup (NewCleanupManager false false) [demoProtected] (demoWorld []) =
        .ok (summary, demoWorld []) ∧
      summary.TotalTargets = 1 ∧ (nonProtected [demoProtected]).length = 0 ∧
      summary.SuccessfulCleans + summary.FailedCleans = 0 :=
  ⟨_, rfl, rfl, rfl, rfl⟩

/-- C20, amended. Whenever `ExecuteCleanup` returns, `TotalTargets` is the length of the
whole input list, protected targets included, and `SuccessfulCleans + FailedCleans` is the
number of targets of the list that are not protected; it returns in dry-run mode and in
every state where no stat fails with an error other than not-exist. -/
theorem totalTargets_is_input_length (cm : CleanupManager) (targets : List CleanupTarget)
    (w : World) :
    (∀ summary w1, ExecuteCleanup cm targets w = .ok (summary, w1) →
      summary.TotalTargets = (targets.length : Nat) ∧
      summary.SuccessfulCleans + summary.FailedCleans =
        ((nonProtected targets).length : Nat)) ∧
    ((cm.dryRun = true ∨ statNeverFaults w) →
      ∃ summary w1, ExecuteCleanup cm targets w = .ok (summary, w1)) := by
  constructor
  · intro summary w1 h
    obtain ⟨h1, R, _, h3, h4, h5, _⟩ := executeCleanupLoop_ok cm targets _ w summary w1 h
    refine ⟨h1, ?_⟩
    rw [h4, h5, ← h3, List.length_map]
    have hc := List.length_eq_countP_add_countP (fun r : CleanupResult => r.Success) R
    simp only [zero_add]
    have hc2 : R.countP (fun r => !r.Success) = R.countP (fun r => ¬ r.Success = true) := by
      congr 1
      funext r
      simp
    rw [hc2, hc]
    push_cast
    rfl
  · intro hw
    exact executeCleanupLoop_returns cm targets _ w hw

theorem totalTargets_is_input_length_witness :
    statNeverFaults (demoWorld [some .removeFailed, some .removeFailed, some .removeFailed]) ∧
    ∃ summary w1, ExecuteCleanup (NewCleanupManager false false)
        [demoProtected, demoTarget, demoMissing]
        (demoWorld [some .removeFailed, some .removeFailed, some .removeFailed]) =
        .ok (summary, w1) ∧
      summary.TotalTargets = 3 ∧ summary.SuccessfulCleans + summary.FailedCleans = 2 := by
  refine ⟨demoWorld_statNeverFaults _, ?_⟩
  have T := totalTargets_is_input_length (NewCleanupManager false false)
    [demoProtected, demoTarget, demoMissing]
    (demoWorld [some .removeFailed, some .removeFailed, some .removeFailed])
  exact ⟨_, _, rfl, (T.1 _ _ rfl).1, rfl⟩

/-- C24. On every tree of the data model (files have no children, as in every tree
`AnalyzePath` returns) `collectFiles` appends to the list it is given exactly the
non-directory nodes of the tree, each once, in pre-order with the children of a node taken
from left to right. On any tree whatever it appends no directory node. The tree is a value
that the function only reads. -/
theorem collectFiles_is_preorder_of_files :
    (∀ (root : DiskNode) (files : List DiskNode), filesAreLeaves root = true →
      collectFiles root files = files ++ fileNodes root) ∧
    (∀ (root : DiskNode) (files : List DiskNode), ∀ x ∈ collectFiles root files,
      x ∈ files ∨ x.IsDirectory = false) ∧
    (∀ (a : Analyzer) (path : Path) (e : FsEntry) (root : DiskNode),
      AnalyzePath a path e = .ok root → filesAreLeaves root = true) := by
  refine ⟨?_, ?_, ?_⟩
  · intro root files hwf
    rw [collectFiles_append, collectFiles_fileNodes root hwf]
  · intro root files x hx
    rw [collectFiles_append] at hx
    rcases List.mem_append.mp hx with h | h
    · exact Or.inl h
    · exact Or.inr (collectFiles_only_files root x h)
  · intro a path e root h
    exact analyzeNode_filesAreLeaves a path 0 e root h

theorem collectFiles_is_preorder_of_files_witness :
    filesAreLeaves dupTree = true ∧
    collectFiles dupTree [scenarioNodeA] = [scenarioNodeA] ++ fileNodes dupTree ∧
    (fileNodes dupTree).map (·.Name) = ["b", "c", "a"] ∧
    AnalyzePath scenarioCfg ["R"] scenarioFs = .ok scenarioTree ∧
    filesAreLeaves scenarioTree = true :=
  ⟨by decide, collectFiles_is_preorder_of_files.1 dupTree [scenarioNodeA] (by decide),
    by decide, scenario_survey,
    collectFiles_is_preorder_of_files.2.2 scenarioCfg ["R"] scenarioFs scenarioTree
      scenario_survey⟩

/-- C25. On every tree of the data model and for every `n ≥ 0`, `GetLargestFiles(root, n)`
returns `min(n, k)` nodes, `k` being the number of non-directory nodes of the tree; the
returned nodes are non-directory nodes of the tree, in non-increasing `Size` order, and
together with the file nodes that are not returned they make up the file nodes of the tree,
each returned node having a `Size` at least that of every node not returned. -/
theorem getLargestFiles_top_n (root : DiskNode) (n : Int)
    (hwf : filesAreLeaves root = true) (hn : 0 ≤ n) :
    ∃ res rest, GetLargestFiles root n = .ok res ∧
      res.length = min n.toNat (fileNodes root).length ∧
      (∀ x ∈ res, x ∈ fileNodes root) ∧
      res.Pairwise (fun x y => x.Size ≥ y.Size) ∧
      (res ++ rest).Perm (fileNodes root) ∧
      (∀ x ∈ res, ∀ y ∈ rest, x.Size ≥ y.Size) := by
  have hp := sortSlice_perm (fun x y : DiskNode => decide (x.Size > y.Size))
    (collectFiles root [])
  have hs := sortSlice_bySize_sorted (collectFiles root [])
  rw [collectFiles_fileNodes root hwf] at hp hs
  unfold GetLargestFiles
  rw [collectFiles_fileNodes root hwf]
  simp only []
  by_cases hlen : ((sortSlice (fun x y : DiskNode => decide (x.Size > y.Size))
      (fileNodes root)).length : Int) > n
  · rw [if_pos hlen, if_neg (not_lt.mpr hn)]
    refine ⟨_, (sortSlice (fun x y : DiskNode => decide (x.Size > y.Size))
      (fileNodes root)).drop n.toNat, rfl, ?_, ?_, ?_, ?_, ?_⟩
    · rw [List.length_take, hp.length_eq]
    · intro x hx
      exact hp.mem_iff.mp (List.mem_of_mem_take hx)
    · exact hs.sublist (List.take_sublist _ _)
    · rw [List.take_append_drop]
      exact hp
    · have h2 := hs
      rw [← List.take_append_drop n.toNat (sortSlice (fun x y : DiskNode =>
        decide (x.Size > y.Size)) (fileNodes root)), List.pairwise_append] at h2
      exact h2.2.2
  · rw [if_neg hlen]
    refine ⟨_, [], rfl, ?_, ?_, hs, ?_, ?_⟩
    · rw [hp.length_eq] at hlen ⊢
      have : (fileNodes root).length ≤ n.toNat := by omega
      omega
    · intro x hx
      exact hp.mem_iff.mp hx
    · simpa using hp
    · intro x _ y hy
      cases hy

theorem getLargestFiles_top_n_witness :
    filesAreLeaves dupTree = true ∧ (0 : Int) ≤ 2 ∧
    ∃ res rest, GetLargestFiles dupTree 2 = .ok res ∧
      res.length = min (2 : Int).toNat (fileNodes dupTree).length ∧
      (∀ x ∈ res, x ∈ fileNodes dupTree) ∧
      res.Pairwise (fun x y => x.Size ≥ y.Size) ∧
      (res ++ rest).Perm (fileNodes dupTree) ∧
      (∀ x ∈ res, ∀ y ∈ rest, x.Size ≥ y.Size) :=
  ⟨by decide, by decide, getLargestFiles_top_n dupTree 2 (by decide) (by decide)⟩

/-- C26. For every tree, a size `s` is a key of the map `GetDuplicates` returns exactly when
at least two non-directory nodes of the tree have `Size = s`, and the value at `s` is then
the list of all the non-directory nodes of the tree with `Size = s`, each once, in pre-order;
so no directory node is in any value. -/
theorem getDuplicates_groups_by_size (root : DiskNode) (s : Int) :
    ((GetDuplicates root s).isSome = true ↔
      2 ≤ ((preorder root).filter
        (fun n => !n.IsDirectory && decide (n.Size = s))).length) ∧
    (∀ nodes, GetDuplicates root s = some nodes →
      nodes = (preorder root).filter (fun n => !n.IsDirectory && decide (n.Size = s)) ∧
      ∀ x ∈ nodes, x.IsDirectory = false ∧ x.Size = s) := by
  have hval : GetDuplicates root s =
      if 2 ≤ ((preorder root).filter
          (fun n => !n.IsDirectory && decide (n.Size = s))).length then
        some ((preorder root).filter (fun n => !n.IsDirectory && decide (n.Size = s)))
      else none := by
    unfold GetDuplicates
    simp only [collectBySi_addFiles]
    unfold addFiles sizeMapEmpty
    by_cases he : ((preorder root).filter
        (fun n => !n.IsDirectory && decide (n.Size = s))).isEmpty = true
    · rw [if_pos he]
      rw [List.isEmpty_iff] at he
      simp [he]
    · rw [if_neg he]
      simp only [sizeMapGet, Option.getD_none, List.nil_append]
      by_cases h2 : 2 ≤ ((preorder root).filter
          (fun n => !n.IsDirectory && decide (n.Size = s))).length
      · rw [if_pos h2, if_pos (by omega)]
      · rw [if_neg h2, if_neg (by omega)]
  constructor
  · rw [hval]
    split <;> simp_all
  · intro nodes hn
    rw [hval] at hn
    split at hn
    · cases hn
      refine ⟨rfl, ?_⟩
      intro x hx
      have := (List.mem_filter.mp hx).2
      simpa using this
    · cases hn

theorem getDuplicates_groups_by_size_witness :
    GetDuplicates dupTree 20 = some ((preorder dupTree).filter
      (fun n => !n.IsDirectory && decide (n.Size = 20))) ∧
    ((preorder dupTree).filter
      (fun n => !n.IsDirectory && decide (n.Size = 20))).map (·.Name) = ["b", "c"] ∧
    (GetDuplicates dupTree 10).isSome = false ∧
    (GetDuplicates dupTree 20).isSome = true ∧
    (∀ x ∈ (preorder dupTree).filter (fun n => !n.IsDirectory && decide (n.Size = 20)),
      x.IsDirectory = false ∧ x.Size = 20) :=
  ⟨rfl, by decide, rfl,
    (getDuplicates_groups_by_size dupTree 20).1.mpr (by decide),
    ((getDuplicates_groups_by_size dupTree 20).2 _ rfl).2⟩

/-- C27. The call `CleanDirectory(dirPath, maxRetries)` always returns, and the error it
returns is non-nil exactly when listing `dirPath` itself fails; in that case it returns 0
bytes freed, 0 files removed and 0 files skipped. Whatever happens below (a subdirectory
that cannot be listed, a file whose stat fails, a deletion that fails), a directory that can
be listed gives a nil error. -/
theorem cleanDirectory_error_iff_listing_fails (dirPath : Path) (maxRetries : Int)
    (e : FsEntry) (w : World) :
    ∃ size removed skipped err w1,
      CleanDirectory dirPath maxRetries e w = .ok ((size, removed, skipped, err), w1) ∧
      (err ≠ none ↔ ∃ x, osReadDir e = .error x) ∧
      (err ≠ none → size = 0 ∧ removed = 0 ∧ skipped = 0) := by
  obtain ⟨r, w1, h1, h2, h3⟩ := cleanDirectory_returns maxRetries e dirPath w
  exact ⟨r.1, r.2.1, r.2.2.1, r.2.2.2, w1, h1, h2, h3⟩

theorem cleanDirectory_error_iff_listing_fails_witness :
    CleanDirectory ["tmp"] 3 messyDir (demoWorld [some .removeFailed]) =
      .ok ((7, 1, 1, none),
        ⟨(demoWorld []).without ["tmp", "a.log"], [],
          [.remove ["tmp", "a.log"], .remove ["tmp", "a.log"]]⟩) ∧
    (∃ size removed skipped err w1,
      CleanDirectory ["tmp"] 3 messyDir (demoWorld [some .removeFailed]) =
        .ok ((size, removed, skipped, err), w1) ∧
      (err ≠ none ↔ ∃ x, osReadDir messyDir = .error x) ∧
      (err ≠ none → size = 0 ∧ removed = 0 ∧ skipped = 0)) ∧
    CleanDirectory ["tmp", "sub"] 3 (.dir "sub" false [.file "x" 1]) (demoWorld []) =
      .ok ((0, 0, 0, some .readDirFailed), demoWorld []) :=
  ⟨rfl,
    cleanDirectory_error_iff_listing_fails ["tmp"] 3 messyDir (demoWorld [some .removeFailed]),
    rfl⟩

/-- C28. Whenever `ExecuteCleanup` returns, its summary is consistent:
`SuccessfulCleans + FailedCleans = len(Results)`, `SuccessfulCleans` is the number of results
with `Success = true`, `TotalSpaceFreed` is the sum of `SpaceFreed` and `TotalFilesRemoved`
the sum of `FilesRemoved` over all the results: the sums as the 64-bit additions of the
program give them, which are the exact sums when those are in the 64-bit range. It returns
in dry-run mode and in every state where no stat fails with an error other than not-exist,
whatever removals fail. -/
theorem summary_is_consistent (cm : CleanupManager) (targets : List CleanupTarget)
    (w : World) :
    (∀ summary w1, ExecuteCleanup cm targets w = .ok (summary, w1) →
      summary.SuccessfulCleans + summary.FailedCleans = (summary.Results.length : Nat) ∧
      summary.SuccessfulCleans = (summary.Results.countP (·.Success) : Nat) ∧
      summary.TotalSpaceFreed = sumInt64 (summary.Results.map (·.SpaceFreed)) ∧
      summary.TotalFilesRemoved = sumInt64 (summary.Results.map (·.FilesRemoved)) ∧
      (-9223372036854775808 ≤ (summary.Results.map (·.SpaceFreed)).sum →
        (summary.Results.map (·.SpaceFreed)).sum < 9223372036854775808 →
        summary.TotalSpaceFreed = (summary.Results.map (·.SpaceFreed)).sum) ∧
      (-9223372036854775808 ≤ (summary.Results.map (·.FilesRemoved)).sum →
        (summary.Results.map (·.FilesRemoved)).sum < 9223372036854775808 →
        summary.TotalFilesRemoved = (summary.Results.map (·.FilesRemoved)).sum)) ∧
    ((cm.dryRun = true ∨ statNeverFaults w) →
      ∃ summary w1, ExecuteCleanup cm targets w = .ok (summary, w1)) := by
  constructor
  · intro summary w1 h
    obtain ⟨R, h2, h3, h4, h5, h6⟩ := executeCleanupLoop_sums cm targets _ w summary w1 h
      (show wrapInt64 0 = 0 by decide) (show wrapInt64 0 = 0 by decide)
    simp only [List.nil_append, zero_add] at h2 h3 h4 h5 h6
    rw [h2]
    rw [← sumInt64_eq_wrap] at h5 h6
    refine ⟨h4, h3, h5, h6, ?_, ?_⟩
    · intro hlo hhi
      rw [h5, sumInt64_of_inRange hlo hhi]
    · intro hlo hhi
      rw [h6, sumInt64_of_inRange hlo hhi]
  · intro hw
    exact executeCleanupLoop_returns cm targets _ w hw

theorem summary_is_consistent_witness :
    statNeverFaults (demoWorld [some .removeFailed, some .removeFailed, some .removeFailed]) ∧
    ∃ summary w1, ExecuteCleanup (NewCleanupManager false false)
        [demoProtected, demoTarget, demoMissing]
        (demoWorld [some .removeFailed, some .removeFailed, some .removeFailed]) =
        .ok (summary, w1) ∧
      summary.SuccessfulCleans + summary.FailedCleans = (summary.Results.length : Nat) ∧
      summary.SuccessfulCleans = (summary.Results.countP (·.Success) : Nat) ∧
      summary.TotalSpaceFreed = sumInt64 (summary.Results.map (·.SpaceFreed)) ∧
      summary.TotalFilesRemoved = sumInt64 (summary.Results.map (·.FilesRemoved)) ∧
      summary.TotalSpaceFreed = (summary.Results.map (·.SpaceFreed)).sum ∧
      summary.TotalFilesRemoved = (summary.Results.map (·.FilesRemoved)).sum ∧
      summary.Results.map (·.Success) = [false, true] ∧
      summary.TotalSpaceFreed = 3 := by
  refine ⟨demoWorld_statNeverFaults _, ?_⟩
  have T := summary_is_consistent (NewCleanupManager false false)
    [demoProtected, demoTarget, demoMissing]
    (demoWorld [some .removeFailed, some .removeFailed, some .removeFailed])
  obtain ⟨h1, h2, h3, h4, h5, h6⟩ := T.1 _ _ rfl
  exact ⟨_, _, rfl, h1, h2, h3, h4, h5 (by decide) (by decide), h6 (by decide) (by decide),
    rfl, rfl⟩

/-- C29 fails on the code. In a state where the stat of the path fails with an error other
than not-exist, `os.IsNotExist(err)` is false, `SafeDelete` goes on to call `info.IsDir()` on
the nil `info` of the failed stat and faults, for every `maxRetries ≥ 1`; the fault reaches
`ExecuteCleanup`. -/
theorem safeDelete_faults_on_failed_stat :
    osStatAt lockedWorld ["locked"] = (none, some .statFailed) ∧
    osIsNotExist (some .statFailed) = false ∧
    SafeDelete ["locked"] 3 lockedWorld = .error .nilDereference ∧
    (∀ m : Nat, SafeDelete ["locked"] ((m : Int) + 1) lockedWorld = .error .nilDereference) ∧
    ExecuteCleanup (NewCleanupManager false false) [lockedTarget] lockedWorld =
      .error .nilDereference := by
  refine ⟨rfl, rfl, rfl, ?_, rfl⟩
  intro m
  unfold SafeDelete
  have hm : ((m : Int) + 1).toNat = m + 1 := by omega
  rw [hm]
  exact safeDeleteLoop_fault (e := .noStat "locked") m none rfl rfl

/-- C30 fails on the code. For `b = 2 ^ 60` (one exbibyte) the repeated division by 1024
gives the unit index 5, the table of units has the five entries `KB` to `PB`, and the lookup
faults; so it does for the largest `int64`. Below 1024 the result is the decimal digits and
`" B"`. -/
theorem formatBytes_faults_at_one_EiB :
    (formatBytesLoop (1152921504606846976 / 1024) 1024 0).2 = 5 ∧
    unitsTable.length = 5 ∧
    FormatBytes 1152921504606846976 = .error .indexOutOfRange ∧
    FormatBytes 9223372036854775807 = .error .indexOutOfRange ∧
    FormatBytes 1023 = .ok (.plain "1023 B") :=
  ⟨(formatBytes_from_EiB 1152921504606846976 (by norm_num) (by norm_num)).1, rfl,
    (formatBytes_from_EiB 1152921504606846976 (by norm_num) (by norm_num)).2,
    (formatBytes_from_EiB 9223372036854775807 (by norm_num) (by norm_num)).2,
    by rw [formatBytes_small 1023 (by norm_num) (by norm_num)]; rfl⟩

/-- C21 fails on the code. With the filter `["temp"]`, in an environment where `TEMP` and
`SYSTEMROOT` are set and the recycle bin holds 9 bytes, `DiscoverTargets` returns the entry
`Recycle Bin` of the group `getOtherTargets` next to `User Temp`: that group is appended
whatever the filter names, while the five groups before it are appended only when the filter
is empty or names them. -/
theorem filter_does_not_reach_other_group :
    contains ["temp"] "temp" = true ∧ contains ["temp"] "logs" = false ∧
    (DiscoverTargets (NewCleanupManager false false) demoEnv discoverWorld ["temp"]).1.map
        (fun t => (t.Name, t.Category, t.Size)) =
      [("User Temp", "Temporary Files", 4), ("Recycle Bin", "Recycle Bin", 9)] ∧
    (discoverCandidates (GetSystemPaths demoEnv) ["temp"]).map (·.Name) =
      ["Windows Temp", "User Temp", "Local Temp", "Recycle Bin", "Windows Error Reporting"] :=
  ⟨by decide, by decide, by decide, by decide⟩

/-- C22. For every filter, environment and state of the filesystem, every target
`DiscoverTargets` returns has `Size > 0`, and the returned list is the list of the selected
catalog entries whose path exists with a `GetDirSize` size above 0, in catalog order, each
with `Size` and `ItemCount` set to what `GetDirSize` gives for its path. -/
theorem discoverTargets_keeps_nonempty (cm : CleanupManager) (getenv : String → Path)
    (w : World) (categories : List String) :
    (∀ t ∈ (DiscoverTargets cm getenv w categories).1, t.Size > 0) ∧
    (DiscoverTargets cm getenv w categories).1 =
      ((discoverCandidates (GetSystemPaths getenv) categories).filter
        (fun c => PathExists w c.Path && decide ((GetDirSizeAt w c.Path).1 > 0))).map
        (measured cm w) ∧
    (∀ c : CleanupTarget, (measured cm w c).Size = (GetDirSizeAt w c.Path).1 ∧
      (measured cm w c).ItemCount = (GetDirSizeAt w c.Path).2.1 ∧
      (measured cm w c).Name = c.Name ∧ (measured cm w c).Path = c.Path) := by
  refine ⟨?_, discoverTargets_eq cm getenv w categories, fun c => ⟨rfl, rfl, rfl, rfl⟩⟩
  intro t ht
  unfold DiscoverTargets at ht
  simp only [] at ht
  have := (List.mem_filter.mp ht).2
  simpa using this

theorem discoverTargets_keeps_nonempty_witness :
    (DiscoverTargets (NewCleanupManager false false) demoEnv discoverWorld []).1.map
        (fun t => (t.Name, t.Size, t.ItemCount)) =
      [("User Temp", 4, 1), ("Recycle Bin", 9, 1)] ∧
    (∀ t ∈ (DiscoverTargets (NewCleanupManager false false) demoEnv discoverWorld []).1,
      t.Size > 0) :=
  ⟨by decide,
    (discoverTargets_keeps_nonempty (NewCleanupManager false false) demoEnv discoverWorld
      []).1⟩

/-- C23, as stated, fails. With no variable set, `filepath.Join(paths["WINDIR"], "Temp")` is
the relative path `Temp`; in a state where that path is a directory holding 4 bytes,
`DiscoverTargets` returns the target `Windows Temp`, built from a template that uses the
unset variable `WINDIR`. -/
theorem unset_variable_yields_relative_target :
    (DiscoverTargets (NewCleanupManager false false) (fun _ => []) relativeWorld []).2 = none ∧
    (DiscoverTargets (NewCleanupManager false false) (fun _ => []) relativeWorld []).1.map
        (fun t => (t.Name, t.Path, t.Size)) =
      [("Windows Temp", ["Temp"], 4)] :=
  ⟨rfl, by decide⟩

/-- C23, amended. For every environment and every state of the filesystem (the empty path
names nothing), `DiscoverTargets` returns a nil error, and every target it returns is built
from a row of the catalog, exists and has a positive size. For a selected row whose variable
is unset or empty, the path of the entry is the relative path made of the elements the row
joins to the variable, and the target of the row is returned exactly when that relative path
exists and `GetDirSize` gives it a positive size: never for a row that is the variable itself
(`TEMP`, `TMP`), whose path is empty. With an empty filter every row of the catalog is
selected. -/
theorem unset_variable_leaves_relative_path (cm : CleanupManager) (getenv : String → Path)
    (w : World) (categories : List String) (hempty : w.fs [] = none) :
    (DiscoverTargets cm getenv w categories).2 = none ∧
    (∀ t ∈ (DiscoverTargets cm getenv w categories).1, ∃ row ∈ catalogTable,
      t.Name = row.1 ∧
      t.Path = filepathJoinElems (GetSystemPaths getenv row.2.1) row.2.2.1 ∧
      PathExists w t.Path = true ∧ t.Size > 0 ∧
      (getenv row.2.1 = [] → row.2.2.1 ≠ [] ∧ t.Path = row.2.2.1)) ∧
    (∀ row ∈ catalogTable, getenv row.2.1 = [] →
      rowEntry (GetSystemPaths getenv) row ∈
        discoverCandidates (GetSystemPaths getenv) categories →
      (rowEntry (GetSystemPaths getenv) row).Path = row.2.2.1 ∧
      (measured cm w (rowEntry (GetSystemPaths getenv) row) ∈
          (DiscoverTargets cm getenv w categories).1 ↔
        (PathExists w row.2.2.1 = true ∧ (GetDirSizeAt w row.2.2.1).1 > 0)) ∧
      (row.2.2.1 = [] → measured cm w (rowEntry (GetSystemPaths getenv) row) ∉
          (DiscoverTargets cm getenv w categories).1)) ∧
    (categories = [] →
      discoverCandidates (GetSystemPaths getenv) categories =
        catalogTable.map (rowEntry (GetSystemPaths getenv))) := by
  refine ⟨rfl, ?_, ?_, ?_⟩
  · intro t ht
    have hpos : t.Size > 0 := by
      have h1 := ht
      unfold DiscoverTargets at h1
      simp only [] at h1
      have := (List.mem_filter.mp h1).2
      simpa using this
    rw [discoverTargets_eq] at ht
    obtain ⟨c, hc, rfl⟩ := List.mem_map.mp ht
    obtain ⟨hc1, hc2⟩ := List.mem_filter.mp hc
    rw [Bool.and_eq_true] at hc2
    obtain ⟨row, hrow, rfl⟩ := mem_discoverCandidates hc1
    refine ⟨row, hrow, rfl, rfl, hc2.1, hpos, ?_⟩
    intro hunset
    have hsp : GetSystemPaths getenv row.2.1 = [] := by
      rw [getSystemPaths_of_row hrow, hunset]
    have hpath : (rowEntry (GetSystemPaths getenv) row).Path = row.2.2.1 := by
      simp [rowEntry, catalogEntry, filepathJoinElems, hsp]
    refine ⟨?_, ?_⟩
    · intro hnil
      have hex := hc2.1
      rw [hpath, hnil, pathExists_nil hempty] at hex
      cases hex
    · exact hpath
  · intro row hrow hunset hsel
    have hsp : GetSystemPaths getenv row.2.1 = [] := by
      rw [getSystemPaths_of_row hrow, hunset]
    have hpath : (rowEntry (GetSystemPaths getenv) row).Path = row.2.2.1 := by
      simp [rowEntry, catalogEntry, filepathJoinElems, hsp]
    have hiff : measured cm w (rowEntry (GetSystemPaths getenv) row) ∈
          (DiscoverTargets cm getenv w categories).1 ↔
        (PathExists w row.2.2.1 = true ∧ (GetDirSizeAt w row.2.2.1).1 > 0) := by
      rw [discoverTargets_eq]
      constructor
      · intro hmem
        obtain ⟨c, hc, hceq⟩ := List.mem_map.mp hmem
        obtain ⟨_, hc2⟩ := List.mem_filter.mp hc
        have hp : c.Path = row.2.2.1 := by
          rw [← measured_path cm w c, hceq, measured_path, hpath]
        rw [Bool.and_eq_true, hp] at hc2
        exact ⟨hc2.1, by simpa using hc2.2⟩
      · intro hex
        refine List.mem_map.mpr ⟨_, List.mem_filter.mpr ⟨hsel, ?_⟩, rfl⟩
        rw [Bool.and_eq_true, hpath]
        exact ⟨hex.1, by simpa using hex.2⟩
    refine ⟨hpath, hiff, ?_⟩
    intro hnil hmem
    have hex := (hiff.mp hmem).1
    rw [hnil, pathExists_nil hempty] at hex
    cases hex
  · intro hc
    rw [hc]
    exact discoverCandidates_nil _

theorem unset_variable_leaves_relative_path_witness :
    relativeWorld.fs [] = none ∧
    ("Windows Temp", "WINDIR", ["Temp"], "System temporary files", CategoryTemp) ∈
      catalogTable ∧
    PathExists relativeWorld ["Temp"] = true ∧ (GetDirSizeAt relativeWorld ["Temp"]).1 > 0 ∧
    measured (NewCleanupManager false false) relativeWorld
        (rowEntry (GetSystemPaths (fun _ => []))
          ("Windows Temp", "WINDIR", ["Temp"], "System temporary files", CategoryTemp)) ∈
      (DiscoverTargets (NewCleanupManager false false) (fun _ => []) relativeWorld []).1 ∧
    measured (NewCleanupManager false false) relativeWorld
        (rowEntry (GetSystemPaths (fun _ => []))
          ("User Temp", "TEMP", [], "User temporary files", CategoryTemp)) ∉
      (DiscoverTargets (NewCleanupManager false false) (fun _ => []) relativeWorld []).1 := by
  have T := unset_variable_leaves_relative_path (NewCleanupManager false false)
    (fun _ => []) relativeWorld [] rfl
  have hall := T.2.2.2 rfl
  have hrow1 : ("Windows Temp", "WINDIR", ["Temp"], "System temporary files", CategoryTemp) ∈
      catalogTable := by decide
  have hrow2 : ("User Temp", "TEMP", [], "User temporary files", CategoryTemp) ∈
      catalogTable := by decide
  have h1 := T.2.2.1 _ hrow1 rfl (by rw [hall]; exact List.mem_map.mpr ⟨_, hrow1, rfl⟩)
  have h2 := T.2.2.1 _ hrow2 rfl (by rw [hall]; exact List.mem_map.mpr ⟨_, hrow2, rfl⟩)
  exact ⟨rfl, hrow1, by decide, by decide, h1.2.1.mpr ⟨by decide, by decide⟩, h2.2.2 rfl⟩

end Burrow
